import Mathlib

/-!
Verification development for the Project Management Tool repository
(CPM scheduler and project-crashing engine).

The TypeScript sources are shallowly embedded:
  - numbers are modelled as rationals,
  - optional numeric fields are modelled as `Option` values,
  - the JavaScript value `Infinity` used in slope comparisons is modelled
    with `WithTop` rationals,
  - recursive graph traversals are modelled with an explicit fuel
    parameter chosen large enough that it is never exhausted on the
    inputs considered by the theorems.
-/

namespace PMT

/-- Fold computing the maximum of a list of rationals with a seed value,
mirroring `Math.max(seed, ...list)`. -/
def qmax (seed : ℚ) (l : List ℚ) : ℚ :=
  l.foldl max seed

/-- Edge record from the data model (`models/Task.ts`, interface
`Predecessor`).  The dependency `type` field is omitted: the factory
`createDependencyStrategy` returns the Finish-to-Start strategy for every
type, so the field is never observed by the embedded code. -/
structure Predecessor where
  taskId : String
  lag : ℚ
  deriving DecidableEq

namespace Scheduler

/-- Task record from `models/Task.ts` (interface `Task`): static fields plus
the computed scheduling fields, which start out unset (`Option`). -/
structure Task where
  id : String
  duration : ℚ
  predecessors : List Predecessor
  earlyStart : Option ℚ := none
  earlyFinish : Option ℚ := none
  lateStart : Option ℚ := none
  lateFinish : Option ℚ := none
  slack : Option ℚ := none
  isCritical : Option Bool := none
  deriving DecidableEq

/-- Path record from `models/Task.ts` (interface `Path`). -/
structure Path where
  tasks : List String
  duration : ℚ
  isCritical : Bool
  deriving DecidableEq

/-- `ProjectScheduler.findTaskById`: first task with the given id. -/
def findTaskById (tasks : List Task) (id : String) : Option Task :=
  tasks.find? (fun t => t.id = id)

/-- `ProjectScheduler.findStartTasks`: tasks without predecessors. -/
def findStartTasks (tasks : List Task) : List Task :=
  tasks.filter (fun t => t.predecessors = [])

/-- `ProjectScheduler.findEndTasks`: tasks that are nobody's predecessor. -/
def findEndTasks (tasks : List Task) : List Task :=
  let successorIds := tasks.flatMap (fun t => t.predecessors.map (·.taskId))
  tasks.filter (fun t => ¬ t.id ∈ successorIds)

/-- `ProjectScheduler.getProjectDuration`: maximum `earlyFinish || 0` over
end tasks, `0` when there is no end task. -/
def getProjectDuration (tasks : List Task) : ℚ :=
  let lastTasks := findEndTasks tasks
  match lastTasks with
  | [] => 0
  | t :: ts => qmax (t.earlyFinish.getD 0) (ts.map (fun u => u.earlyFinish.getD 0))

/-- One depth-first visit of `ProjectScheduler.topologicalSort`, in
state-passing form.  The pair carries the `visited` id set and the `result`
list.  Fuel bounds the recursion depth; each nested call is on an id not yet
visited, so depth never exceeds the number of distinct reachable ids and the
fuel chosen by `topologicalSort` is never exhausted. -/
def topoVisit (tasks : List Task) : ℕ → String → List String × List Task →
    List String × List Task
  | 0, _, acc => acc
  | fuel + 1, id, acc =>
    if id ∈ acc.1 then acc
    else
      let visited := id :: acc.1
      match findTaskById tasks id with
      | none => (visited, acc.2)
      | some task =>
        let acc2 := task.predecessors.foldl
          (fun a p => topoVisit tasks fuel p.taskId a) (visited, acc.2)
        (acc2.1, acc2.2 ++ [task])

/-- Fuel that certainly exceeds the number of distinct ids a depth-first
traversal over the task graph can visit: task ids plus all predecessor ids. -/
def graphFuel (tasks : List Task) : ℕ :=
  tasks.length + (tasks.map (fun t => t.predecessors.length)).sum + 1

/-- `ProjectScheduler.topologicalSort`: depth-first postorder over the
predecessor edges, rooted at every task in list order. -/
def topologicalSort (tasks : List Task) : List Task :=
  (tasks.foldl (fun acc t =>
    if t.id ∈ acc.1 then acc
    else topoVisit tasks (graphFuel tasks) t.id acc)
    ([], [])).2

/-- `FSCalculationStrategy.calculateEarlyDates` (`models/Dependency.ts`):
propagate the early finish of `fromTask` plus lag into `toTask` when that
improves (or first sets) its early start.  When `fromTask.earlyFinish` is
still unset, the JavaScript code would compute `NaN` and store it; that store
is dead (the target is recomputed at its own topological step before being
read), and under the acyclicity hypotheses of the theorems below the branch
is never reached, so it is modelled as a no-op. -/
def fsCalculateEarlyDates (fromTask : Task) (toTask : Task) (lag : ℚ) : Task :=
  match fromTask.earlyFinish with
  | none => toTask
  | some ef =>
    let possibleStart := ef + lag
    match toTask.earlyStart with
    | none =>
      { toTask with earlyStart := some possibleStart,
                    earlyFinish := some (possibleStart + toTask.duration) }
    | some es =>
      if es < possibleStart then
        { toTask with earlyStart := some possibleStart,
                      earlyFinish := some (possibleStart + toTask.duration) }
      else toTask

/-- The inner `this.tasks.forEach(fromTask => ...)` of
`ProjectScheduler.calculateEarlyDates`: for every task having `id` among its
predecessors, apply the Finish-to-Start strategy write.  The JavaScript loop
mutates each target in place while reading the source task; since a task is
never its own predecessor in an acyclic graph, reading the source from the
pre-pass state is equivalent. -/
def strategyPass (cur : List Task) (id : String) : List Task :=
  match findTaskById cur id with
  | none => cur
  | some task =>
    cur.map (fun fromTask =>
      match fromTask.predecessors.find? (fun p => p.taskId = id) with
      | none => fromTask
      | some dep => fsCalculateEarlyDates task fromTask dep.lag)

/-- The recomputation block of `ProjectScheduler.calculateEarlyDates`: when
the task has predecessors, set `earlyStart` to the running maximum (seeded
with 0) of predecessor `earlyFinish + lag` over predecessors whose early
finish is defined, and `earlyFinish` accordingly. -/
def recomputeEarly (cur : List Task) (id : String) : List Task :=
  cur.map (fun t =>
    if t.id = id ∧ t.predecessors ≠ [] then
      let maxES := t.predecessors.foldl (fun m p =>
        match findTaskById cur p.taskId with
        | some predTask =>
          match predTask.earlyFinish with
          | some ef => max m (ef + p.lag)
          | none => m
        | none => m) 0
      { t with earlyStart := some maxES, earlyFinish := some (maxES + t.duration) }
    else t)

/-- Initialization of `ProjectScheduler.calculateEarlyDates`: clear all early
dates, then give start tasks early start 0 and early finish equal to their
duration. -/
def initEarly (tasks : List Task) : List Task :=
  (tasks.map (fun t => { t with earlyStart := (none : Option ℚ),
                                earlyFinish := (none : Option ℚ) })).map
    (fun t =>
      if t.predecessors = [] then
        { t with earlyStart := some 0, earlyFinish := some t.duration }
      else t)

/-- `ProjectScheduler.calculateEarlyDates`: initialization followed by the
topological-order sweep, each step doing the strategy writes of the current
task to its successors and then the recomputation of the current task. -/
def calculateEarlyDates (tasks : List Task) : List Task :=
  let ts := initEarly tasks
  let sorted := topologicalSort ts
  (sorted.map (fun t => t.id)).foldl
    (fun cur id => recomputeEarly (strategyPass cur id) id) ts

/-- One step of the backward pass of `ProjectScheduler.calculateLateDates`:
for the task with the given id, take the minimum of `lateStart - lag` over
successors with a defined late start (the `Number.MAX_VALUE` sentinel is
modelled by `Option`), and set late finish and late start when that minimum
exists. -/
def lateStep (cur : List Task) (id : String) : List Task :=
  cur.map (fun t =>
    if t.id = id then
      let successors := cur.filter (fun s =>
        s.predecessors.any (fun p => p.taskId = id))
      if successors = [] then t
      else
        let minLF := successors.foldl (fun (m : Option ℚ) s =>
          match s.lateStart with
          | some ls =>
            let lag := match s.predecessors.find? (fun p => p.taskId = id) with
              | some p => p.lag
              | none => 0
            let lf := ls - lag
            match m with
            | none => some lf
            | some m0 => some (min m0 lf)
          | none => m) none
        match minLF with
        | none => t
        | some lf =>
          { t with lateFinish := some lf, lateStart := some (lf - t.duration) }
    else t)

/-- `ProjectScheduler.calculateLateDates`: project duration from the end
tasks, initialization of the end tasks, then the reverse topological sweep.
An empty end-task list would make the JavaScript maximum `-Infinity`; that
only happens on cyclic graphs, which are rejected before this point, and is
modelled with 0. -/
def calculateLateDates (tasks : List Task) : List Task :=
  let endIds := (findEndTasks tasks).map (fun t => t.id)
  let projectDuration :=
    match (findEndTasks tasks).map (fun t => t.earlyFinish.getD 0) with
    | [] => 0
    | d :: ds => qmax d ds
  let ts := tasks.map (fun t => { t with lateStart := (none : Option ℚ),
                                          lateFinish := (none : Option ℚ) })
  let ts := ts.map (fun t =>
    if t.id ∈ endIds then
      { t with lateFinish := some projectDuration,
               lateStart := some (projectDuration - t.duration) }
    else t)
  let sorted := topologicalSort ts
  ((sorted.map (fun t => t.id)).reverse).foldl (fun cur id => lateStep cur id) ts

/-- `ProjectScheduler.calculateSlackAndMarkCriticalPath`: slack and the
critical flag for every task whose early and late starts are defined. -/
def calculateSlackAndMarkCriticalPath (tasks : List Task) : List Task :=
  tasks.map (fun t =>
    match t.earlyStart, t.lateStart with
    | some es, some ls =>
      { t with slack := some (ls - es), isCritical := some (decide (ls - es = 0)) }
    | _, _ => t)

/-- `ProjectScheduler.findPathsHelper`: depth-first enumeration of the paths
from the current task to the end task, skipping successors already on the
current path.  The fuel bounds the recursion depth; the current path gains a
new distinct task id at every level, so the fuel chosen by `findAllPaths` is
never exhausted. -/
def findPathsHelper (tasks : List Task) :
    ℕ → Task → Task → List String → ℚ → List Path → List Path
  | 0, _, _, _, _, acc => acc
  | fuel + 1, currentTask, endTask, currentPath, currentDuration, acc =>
    if currentTask.id = endTask.id then
      acc ++ [{ tasks := currentPath,
                duration := currentDuration + currentTask.duration,
                isCritical := false }]
    else
      let successors := tasks.filter (fun t =>
        t.predecessors.any (fun p => p.taskId = currentTask.id))
      successors.foldl (fun a successor =>
        if successor.id ∈ currentPath then a
        else findPathsHelper tasks fuel successor endTask
          (currentPath ++ [successor.id]) (currentDuration + currentTask.duration) a)
        acc

/-- `ProjectScheduler.findAllPaths`: enumerate paths for every start/end
pair, then mark as critical the paths whose duration equals the project
duration; returns the path list and the critical sublist. -/
def findAllPaths (tasks : List Task) : List Path × List Path :=
  let startTasks := findStartTasks tasks
  let endTasks := findEndTasks tasks
  let paths := startTasks.foldl (fun acc s =>
    endTasks.foldl (fun acc2 e =>
      findPathsHelper tasks (tasks.length + 1) s e [s.id] 0 acc2) acc) []
  let pd := getProjectDuration tasks
  let paths := paths.map (fun p =>
    if p.duration = pd then { p with isCritical := true } else p)
  let criticalPaths := paths.filter (fun p => p.duration = pd)
  (paths, criticalPaths)

/-- The recursive `isCyclic` of
`ProjectScheduler.validateNoCyclicDependencies`, in state-passing form:
`none` means a cycle was reported, `some visited` is the grown visited set on
success.  The recursion-stack parameter is read-only because the JavaScript
code removes exactly the id it added before returning (the removal in the
already-visited branch is a no-op: the function is only invoked on ids not
yet visited, and stack members are always visited).  Fuel exhaustion returns
`none`; the fuel chosen by `validateNoCyclicDependencies` exceeds the
possible recursion depth, and the theorems below only rely on `some` results
coming from genuinely completed traversals. -/
def isCyclicAux (tasks : List Task) : ℕ → String → List String → List String →
    Option (List String)
  | 0, _, _, _ => none
  | fuel + 1, id, recStack, visited =>
    if id ∈ visited then some visited
    else
      let visited1 := id :: visited
      let recStack1 := id :: recStack
      match findTaskById tasks id with
      | none => some visited1
      | some task =>
        task.predecessors.foldl (fun acc p =>
          match acc with
          | none => none
          | some v =>
            if p.taskId ∈ v then
              if p.taskId ∈ recStack1 then none else some v
            else
              match isCyclicAux tasks fuel p.taskId recStack1 v with
              | none => none
              | some v2 => if p.taskId ∈ recStack1 then none else some v2)
          (some visited1)

/-- `ProjectScheduler.validateNoCyclicDependencies`: run the cycle check from
every not-yet-visited task; `none` models the thrown error. -/
def validateNoCyclicDependencies (tasks : List Task) : Option (List String) :=
  tasks.foldl (fun acc t =>
    match acc with
    | none => none
    | some v =>
      if t.id ∈ v then some v
      else isCyclicAux tasks (graphFuel tasks) t.id [] v) (some [])

/-- The data available from the scheduler after `calculateSchedule`: the
annotated tasks and the results of `getAllPaths`, `getCriticalPaths` and
`getProjectDuration`. -/
structure ScheduleResult where
  tasks : List Task
  allPaths : List Path
  criticalPaths : List Path
  projectDuration : ℚ
  deriving DecidableEq

/-- `ProjectScheduler.calculateSchedule` together with the getters: empty
task lists return immediately; otherwise cycle validation runs first and its
failure models the thrown error, then early dates, late dates, slack and
path enumeration run in order. -/
def calculateSchedule (tasks : List Task) : Except String ScheduleResult :=
  if tasks.length = 0 then
    .ok { tasks := tasks, allPaths := [], criticalPaths := [],
          projectDuration := getProjectDuration tasks }
  else
    match validateNoCyclicDependencies tasks with
    | none => .error "Cyclic dependency detected in project graph"
    | some _ =>
      let t1 := calculateEarlyDates tasks
      let t2 := calculateLateDates t1
      let t3 := calculateSlackAndMarkCriticalPath t2
      let pc := findAllPaths t3
      .ok { tasks := t3, allPaths := pc.1, criticalPaths := pc.2,
            projectDuration := getProjectDuration t3 }

end Scheduler

namespace Crashing

/-- Task record from `hooks/ProjectCrashingContext.tsx` (interface
`CrashTask`), restricted to the fields the crashing service reads or
writes. -/
structure CrashTask where
  id : String
  duration : ℚ
  predecessors : List Predecessor
  normalTime : ℚ
  normalCost : ℚ
  crashTime : ℚ
  crashCost : ℚ
  slope : Option ℚ := none
  maxCrashTime : Option ℚ := none
  deriving DecidableEq

/-- Path record with one recorded duration per committed iteration
(interface `CrashPath`). -/
structure CrashPath where
  tasks : List String
  durations : List ℚ
  isCritical : Bool
  deriving DecidableEq

/-- Cost table row (interface `CostAnalysisResult`). -/
structure CostAnalysisResult where
  projectDuration : ℚ
  crashedActivities : List String
  crashCost : ℚ
  directCost : ℚ
  indirectCost : ℚ
  totalCost : ℚ
  isOptimum : Bool
  isCrashPoint : Bool
  deriving DecidableEq

/-- Zero row, used only as the default of list reads that the control flow
keeps in bounds. -/
def caDefault : CostAnalysisResult :=
  { projectDuration := 0, crashedActivities := [], crashCost := 0,
    directCost := 0, indirectCost := 0, totalCost := 0,
    isOptimum := false, isCrashPoint := false }

/-- The maximum safe integer, the sentinel slope the context assigns to
tasks that cannot be crashed. -/
def maxSafeInteger : ℚ := 9007199254740991

/-- Task construction in `ProjectCrashingContext.addCrashTask`: derived
`maxCrashTime` and `slope` fields. -/
def mkCrashTask (id : String) (predecessors : List Predecessor)
    (normalTime normalCost crashTime crashCost : ℚ) : CrashTask :=
  let maxCrashTime := normalTime - crashTime
  let slope := if 0 < maxCrashTime then (crashCost - normalCost) / maxCrashTime
               else maxSafeInteger
  { id := id, duration := normalTime, predecessors := predecessors,
    normalTime := normalTime, normalCost := normalCost,
    crashTime := crashTime, crashCost := crashCost,
    slope := some slope, maxCrashTime := some maxCrashTime }

/-- JavaScript `task.slope || dflt` where `dflt` is `Infinity`: an unset or
zero slope is falsy and replaced by the default. -/
def slopeOr (t : CrashTask) (dflt : WithTop ℚ) : WithTop ℚ :=
  match t.slope with
  | some s => if s = 0 then dflt else (s : WithTop ℚ)
  | none => dflt

/-- JavaScript `task.slope || 0` (used for the incremental crash cost): an
unset slope gives 0, and a zero slope also gives 0, which is the same as the
stored value. -/
def slopeOrZero (t : CrashTask) : ℚ :=
  t.slope.getD 0

/-- JavaScript `task.maxCrashTime && task.maxCrashTime > 0`: truthiness of
the field followed by the comparison, which amounts to the field being set
and positive. -/
def isCrashable (t : CrashTask) : Bool :=
  match t.maxCrashTime with
  | some m => decide (0 < m)
  | none => false

/-- JavaScript `a || b` on an optional number: unset or zero falls back. -/
def jsOr (a : Option ℚ) (b : ℚ) : ℚ :=
  match a with
  | some x => if x = 0 then b else x
  | none => b

/-- First task of the list when sorted stably by ascending
`slope || Infinity`; this is the only element the service reads after its
`sort` calls. -/
def firstMinBySlope (l : List CrashTask) : Option CrashTask :=
  match l with
  | [] => none
  | t :: ts => some (ts.foldl (fun best u =>
      if slopeOr u ⊤ < slopeOr best ⊤ then u else best) t)

/-- The comparison tolerance used by the service. -/
def EPSILON : ℚ := 1 / 1000000

/-- Map from ids to tasks as built by `new Map` plus `forEach(set)`: the
last task with a given id wins. -/
def taskMapGet (tasks : List CrashTask) (id : String) : Option CrashTask :=
  tasks.reverse.find? (fun t => t.id = id)

/-- Sum of the durations of the tasks along a path, looked up through the
id map; missing ids contribute 0 (`task ? task.duration : 0`). -/
def sumPathDurations (tasks : List CrashTask) (ids : List String) : ℚ :=
  ids.foldl (fun total tid =>
    total + (match taskMapGet tasks tid with
             | some t => t.duration
             | none => 0)) 0

/-- `ProjectCrashingService.findPaths` (the depth-first search of
`calculateAllPaths`): extend the current path by the current task; a path
ends at a task without successors.  Every visited set passed to a child is a
copy, so siblings share only the ancestors.  Fuel bounds the recursion
depth, which cannot exceed the number of tasks plus one because the visited
set grows at every level. -/
def findPaths (allTasks : List CrashTask) :
    ℕ → String → List String → List String → List CrashPath → List CrashPath
  | 0, _, _, _, allPaths => allPaths
  | fuel + 1, currentTaskId, currentPath, visited, allPaths =>
    if currentTaskId ∈ visited then allPaths
    else
      let newPath := currentPath ++ [currentTaskId]
      let visited1 := currentTaskId :: visited
      let successorTasks := allTasks.filter (fun t =>
        t.predecessors.any (fun p => p.taskId = currentTaskId))
      if successorTasks = [] then
        allPaths ++ [{ tasks := newPath, durations := [0], isCritical := false }]
      else
        successorTasks.foldl (fun acc t =>
          findPaths allTasks fuel t.id newPath visited1 acc) allPaths

/-- `ProjectCrashingService.calculatePathDurations`: store the summed
duration of every path and mark as critical the paths within `EPSILON` of
the maximum.  An empty path list never reaches the maximum computation in
the caller. -/
def calculatePathDurations (paths : List CrashPath) (tasks : List CrashTask) :
    List CrashPath :=
  let paths := paths.map (fun p =>
    { p with durations := [sumPathDurations tasks p.tasks] })
  let maxDuration := match paths.map (fun p => p.durations.headD 0) with
    | [] => 0
    | d :: ds => qmax d ds
  paths.map (fun p =>
    { p with isCritical := decide (|p.durations.headD 0 - maxDuration| < EPSILON) })

/-- `ProjectCrashingService.calculateAllPaths`: empty result on degenerate
networks, otherwise the depth-first enumeration from every start task
followed by the duration computation. -/
def calculateAllPaths (tasks : List CrashTask) : List CrashPath :=
  let startTasks := tasks.filter (fun t => t.predecessors = [])
  if startTasks = [] then []
  else
    let endTasks := tasks.filter (fun t =>
      ¬ tasks.any (fun u => u.predecessors.any (fun p => p.taskId = t.id)))
    if endTasks = [] then []
    else
      let allPaths := startTasks.foldl (fun acc s =>
        findPaths tasks (tasks.length + 1) s.id [] [] acc) []
      calculatePathDurations allPaths tasks

/-- The crashable-task collection at the top of every loop iteration of
`crashProject`: tasks on some critical path, looked up in the current state,
with remaining crash capacity, deduplicated by id in first-seen order. -/
def crashableTasks (criticalPaths : List CrashPath)
    (currentTasks : List CrashTask) : List CrashTask :=
  criticalPaths.foldl (fun acc path =>
    let tasksOnPath := (path.tasks.filterMap (fun tid =>
      currentTasks.find? (fun t => t.id = tid))).filter isCrashable
    tasksOnPath.foldl (fun acc2 t =>
      if acc2.any (fun u => u.id = t.id) then acc2 else acc2 ++ [t]) acc) []

/-- The common-task filter of `crashProject`: crashable tasks appearing on
every current critical path. -/
def commonTasks (criticalPaths : List CrashPath)
    (crashable : List CrashTask) : List CrashTask :=
  crashable.filter (fun t => criticalPaths.all (fun path => t.id ∈ path.tasks))

/-- The `pathTaskMap` of `crashProject`: for every critical path (by index),
the crashable tasks lying on it, in path order. -/
def pathTaskMap (criticalPaths : List CrashPath)
    (crashable : List CrashTask) : List (List CrashTask) :=
  criticalPaths.map (fun path =>
    (path.tasks.filterMap (fun tid =>
      crashable.find? (fun t => t.id = tid))).filter
        (fun t => t.maxCrashTime.isSome && decide (0 < t.maxCrashTime.getD 0)))

/-- A candidate combination of tasks covering a set of critical-path
indices (`interface TaskCombination`). -/
structure TaskCombination where
  tasks : List CrashTask
  totalSlope : WithTop ℚ
  coversPaths : Finset ℕ
  deriving DecidableEq

/-- The critical-path indices covered by a task, computed from the
`pathTaskMap` as in `generateCombinations`. -/
def coveredPathsOf (ptm : List (List CrashTask)) (t : CrashTask) : Finset ℕ :=
  (Finset.range ptm.length).filter (fun idx =>
    (ptm.getD idx []).any (fun u => u.id = t.id))

/-- The recursive `generateCombinations` of `crashProject`: walk the path
indices, extending the current combination with every crashable task of an
uncovered path, and record a full-coverage combination when it strictly
improves the best total slope (among ties the first combination in
enumeration order is kept). -/
def generateCombinations (ptm : List (List CrashTask)) (numCritical : ℕ) :
    List ℕ → TaskCombination → Option TaskCombination → Option TaskCombination
  | [], cur, best =>
    if cur.coversPaths.card = numCritical then
      match best with
      | none => some cur
      | some b => if cur.totalSlope < b.totalSlope then some cur else some b
    else best
  | pathId :: rest, cur, best =>
    if pathId ∈ cur.coversPaths then
      generateCombinations ptm numCritical rest cur best
    else
      let tasksForPath := ptm.getD pathId []
      let best1 := tasksForPath.foldl (fun b task =>
        generateCombinations ptm numCritical rest
          { tasks := cur.tasks ++ [task],
            totalSlope := cur.totalSlope + slopeOr task ⊤,
            coversPaths := cur.coversPaths ∪ coveredPathsOf ptm task } b) best
      if tasksForPath = [] then
        generateCombinations ptm numCritical rest cur best1
      else best1

/-- The task-with-coverage pairs of the greedy-cover fallback: every
crashable task paired with the indices of the critical paths containing
it. -/
def tasksWithCoverage (criticalPaths : List CrashPath)
    (crashable : List CrashTask) : List (CrashTask × Finset ℕ) :=
  crashable.map (fun t =>
    (t, (Finset.range criticalPaths.length).filter (fun idx =>
      (criticalPaths.getD idx { tasks := [], durations := [], isCritical := false }).tasks.contains t.id = true)))

/-- One step of the greedy accumulation: once full coverage is reached the
remaining entries are skipped (the `break`), otherwise a task adding
coverage is selected and its coverage and slope accumulated. -/
def greedyStep (criticalPaths : List CrashPath)
    (acc : List CrashTask × Finset ℕ × WithTop ℚ)
    (tc : CrashTask × Finset ℕ) : List CrashTask × Finset ℕ × WithTop ℚ :=
  if acc.2.1.card = criticalPaths.length then acc
  else
    let newCoverage : Bool := ¬ tc.2 ⊆ acc.2.1
    if newCoverage then
      (acc.1 ++ [tc.1], acc.2.1 ∪ tc.2, acc.2.2 + slopeOr tc.1 ⊤)
    else acc

/-- The greedy-cover fallback of `crashProject` (only reachable when the
recorded best combination covers fewer paths than there are critical paths):
tasks sorted by descending coverage then ascending slope, accumulated while
they add coverage; returns a combination only on full coverage. -/
def greedyCover (criticalPaths : List CrashPath)
    (crashable : List CrashTask) : Option TaskCombination :=
  let sorted := (tasksWithCoverage criticalPaths crashable).mergeSort (fun a b =>
    (b.2.card < a.2.card) ||
    (b.2.card = a.2.card && slopeOr a.1 ⊤ ≤ slopeOr b.1 ⊤))
  let acc := sorted.foldl (greedyStep criticalPaths) ([], ∅, 0)
  if acc.2.1.card = criticalPaths.length then
    some { tasks := acc.1, totalSlope := acc.2.2, coversPaths := acc.2.1 }
  else none

/-- Update the first task with the given id, mirroring a mutation through
`state.find(t => t.id === id)`. -/
def updateFirst (tasks : List CrashTask) (id : String)
    (f : CrashTask → CrashTask) : List CrashTask :=
  match tasks with
  | [] => []
  | t :: ts => if t.id = id then f t :: ts else t :: updateFirst ts id f

/-- The one-unit crash applied to a selected task: decrement `duration` and
`maxCrashTime` (read with `|| 0`) by the crash-time reduction of 1. -/
def decrement1 (t : CrashTask) : CrashTask :=
  { t with duration := t.duration - 1,
           maxCrashTime := some (t.maxCrashTime.getD 0 - 1) }

/-- The merge of the per-task next states in the multi-task branch of
`crashProject`: starting from the first state, adopt from every other state
the tasks whose duration became strictly smaller. -/
def mergeStates (base : List CrashTask)
    (others : List (List CrashTask)) : List CrashTask :=
  others.foldl (fun b state =>
    state.foldl (fun b2 task =>
      updateFirst b2 task.id (fun corr =>
        if task.duration < corr.duration then
          { corr with duration := task.duration,
                      maxCrashTime := task.maxCrashTime }
        else corr)) b) base

/-- Write `v` at index `i` of the recorded durations.  The loop only ever
writes at the current length (appending); the JavaScript sparse-array case
is modelled by zero padding. -/
def listSetPad (l : List ℚ) (i : ℕ) (v : ℚ) : List ℚ :=
  if i < l.length then l.set i v
  else l ++ List.replicate (i - l.length) 0 ++ [v]

/-- The per-path history update of `crashProject` (the `paths.forEach` block
after a crash): determine the previous duration of the path (initial sum at
the first iteration, the recorded previous entry afterwards, a recomputed
sum as fallback) and subtract the reduction exactly when the representative
crashed task lies on the path. -/
def updatePathsForIteration (paths : List CrashPath)
    (initialTasksState currentTasks : List CrashTask)
    (iteration : ℕ) (crashedTaskId : String) : List CrashPath :=
  paths.map (fun path =>
    let taskBeingCrashedIsOnThisPath := crashedTaskId ∈ path.tasks
    let previousDurationForPath :=
      if iteration = 1 then
        match path.tasks with
        | [] => 0
        | t0 :: _ =>
          if (initialTasksState.find? (fun t => t.id = t0)).isSome then
            path.tasks.foldl (fun sum tid =>
              sum + jsOr ((initialTasksState.find? (fun t => t.id = tid)).map
                (fun t => t.duration)) 0) 0
          else 0
      else if iteration - 1 < path.durations.length then
        path.durations.getD (iteration - 1) 0
      else
        path.tasks.foldl (fun sum tid =>
          sum + jsOr ((taskMapGet currentTasks tid).map (fun t => t.duration)) 0) 0
    let newD := if taskBeingCrashedIsOnThisPath
                then previousDurationForPath - 1
                else previousDurationForPath
    { path with durations := listSetPad path.durations iteration newD })

/-- The per-task next states of the combination branch of `crashProject`:
one decremented copy of the current state for every combination task that
resolves and still has capacity. -/
def combStates (cur : List CrashTask) (picked : List CrashTask) :
    List (List CrashTask) :=
  picked.foldl (fun acc task =>
    match cur.find? (fun t => t.id = task.id) with
    | some taskToCrash =>
      if isCrashable taskToCrash then
        acc ++ [updateFirst cur task.id decrement1]
      else acc
    | none => acc) []

/-- Mark the last recorded cost row as the crash point
(`costAnalysis[costAnalysis.length - 1].isCrashPoint = true`). -/
def markLastCrashPoint : List CostAnalysisResult → List CostAnalysisResult
  | [] => []
  | [c] => [{ c with isCrashPoint := true }]
  | c :: rest => c :: markLastCrashPoint rest

/-- The evolving state of the `while (canContinueCrashing)` loop of
`crashProject`. -/
structure LoopState where
  currentTasks : List CrashTask
  paths : List CrashPath
  criticalPaths : List CrashPath
  crashedTasks : List (List CrashTask)
  costAnalysis : List CostAnalysisResult
  iteration : ℕ
  deriving DecidableEq

/-- Outcome of one loop iteration: either the loop stops with a final
state, or it continues with the new state. -/
inductive StepOut where
  | halt (s : LoopState)
  | next (s : LoopState)
  deriving DecidableEq

/-- The `newMaxDuration` of a committed iteration: the first-critical-path
duration of the freshly recomputed paths, falling back (also on a zero
value, by JavaScript truthiness) to the maximum recomputed duration. -/
def stepNewMax (nextTasksState : List CrashTask) : ℚ :=
  let newPaths := calculateAllPaths nextTasksState
  let newCriticalPaths := newPaths.filter (fun p => p.isCritical)
  jsOr (newCriticalPaths.head?.map (fun p => p.durations.headD 0))
    (match newPaths.map (fun p => p.durations.headD 0) with
     | [] => 0
     | d :: ds => qmax d ds)

/-- The recorded paths after a committed iteration: histories updated for
the new iteration index, then the critical flag recomputed by exact
comparison with the new maximum duration. -/
def stepPaths (s : LoopState) (initialTasksState : List CrashTask)
    (iteration : ℕ) (crashedTaskId : String) (newMaxDuration : ℚ) :
    List CrashPath :=
  (updatePathsForIteration s.paths initialTasksState s.currentTasks
    iteration crashedTaskId).map (fun p =>
    { p with isCritical := decide (p.durations.getD iteration 0 = newMaxDuration) })

/-- The cost row appended by a committed iteration. -/
def stepEntry (indirectCost reductionPerUnit initialDuration : ℚ)
    (s : LoopState) (taskToModify : CrashTask) (ids : List String)
    (newMaxDuration : ℚ) : CostAnalysisResult :=
  let crashCost := slopeOrZero taskToModify
  let newDirectCost := (s.costAnalysis.getLastD caDefault).directCost + crashCost
  let newIndirectCost := indirectCost - (initialDuration - newMaxDuration) * reductionPerUnit
  { projectDuration := newMaxDuration, crashedActivities := ids,
    crashCost := crashCost, directCost := newDirectCost,
    indirectCost := newIndirectCost,
    totalCost := newDirectCost + newIndirectCost,
    isOptimum := false, isCrashPoint := false }

/-- The shared tail of a committed iteration of `crashProject`: recompute
the paths of the new state, derive the new maximum duration, update the
recorded path histories and critical flags, and append the cost row and the
snapshot. -/
def finishStep (indirectCost reductionPerUnit initialDuration : ℚ)
    (initialTasksState : List CrashTask) (s : LoopState) (iteration : ℕ)
    (nextTasksState : List CrashTask) (ids : List String)
    (taskToModify : CrashTask) (crashedTaskId : String) : StepOut :=
  let newMaxDuration := stepNewMax nextTasksState
  let paths2 := stepPaths s initialTasksState iteration crashedTaskId newMaxDuration
  .next { currentTasks := nextTasksState, paths := paths2,
          criticalPaths := paths2.filter (fun p => p.isCritical),
          crashedTasks := s.crashedTasks ++ [nextTasksState],
          costAnalysis := s.costAnalysis ++
            [stepEntry indirectCost reductionPerUnit initialDuration s
              taskToModify ids newMaxDuration],
          iteration := iteration }

/-- The single-task application of `crashProject` (also used for a
combination that produced exactly one next state): stop silently when the
selected task is missing from the state (the guarded `break`), otherwise
decrement it and finish the iteration. -/
def applySingle (indirectCost reductionPerUnit initialDuration : ℚ)
    (initialTasksState : List CrashTask) (s : LoopState)
    (taskToModify : CrashTask) (ids : List String) : StepOut :=
  match s.currentTasks.find? (fun t => t.id = taskToModify.id) with
  | none => .halt s
  | some _ =>
    finishStep indirectCost reductionPerUnit initialDuration initialTasksState
      s (s.iteration + 1) (updateFirst s.currentTasks taskToModify.id decrement1)
      ids taskToModify taskToModify.id

/-- The combination branch of `crashProject`: build one decremented copy of
the current state per valid combination task; a single state follows the
single-task flow with the minimum-slope task as representative, several
states are merged with that representative recorded for the history update,
and no state stops the loop at a crash point. -/
def applyCombination (indirectCost reductionPerUnit initialDuration : ℚ)
    (initialTasksState : List CrashTask) (s : LoopState)
    (bc : TaskCombination) : StepOut :=
  match combStates s.currentTasks bc.tasks with
  | [] => .halt { s with costAnalysis := markLastCrashPoint s.costAnalysis }
  | [_] =>
    match firstMinBySlope bc.tasks with
    | some rep =>
      applySingle indirectCost reductionPerUnit initialDuration
        initialTasksState s rep (bc.tasks.map (fun t => t.id))
    | none => .halt { s with costAnalysis := markLastCrashPoint s.costAnalysis }
  | st0 :: st1 :: strest =>
    match firstMinBySlope bc.tasks with
    | some rep =>
      finishStep indirectCost reductionPerUnit initialDuration
        initialTasksState s (s.iteration + 1) (mergeStates st0 (st1 :: strest))
        (bc.tasks.map (fun t => t.id)) rep
        (match (mergeStates st0 (st1 :: strest)).find? (fun t => t.id = rep.id) with
         | some t => t.id
         | none => rep.id)
    | none => .halt { s with costAnalysis := markLastCrashPoint s.costAnalysis }

/-- The best covering combination of `crashProject`: the recursive
enumeration seeded with the empty combination, upgraded by the greedy cover
when it covers fewer paths than there are critical paths (a branch that the
recording condition of the enumeration makes unreachable). -/
def bestCombinationFor (criticalPaths : List CrashPath)
    (crashable : List CrashTask) : Option TaskCombination :=
  let ptm := pathTaskMap criticalPaths crashable
  match generateCombinations ptm criticalPaths.length (List.range ptm.length)
    { tasks := [], totalSlope := 0, coversPaths := ∅ } none with
  | none => none
  | some bc =>
    if bc.coversPaths.card < criticalPaths.length then
      match greedyCover criticalPaths crashable with
      | some g => some g
      | none => some bc
    else some bc

/-- One full iteration of the `while` loop of `crashProject`: collect the
crashable tasks, compute the best common task and the best covering
combination, choose between them by slope, apply the selection and commit
the iteration; the stop cases mirror the `break` statements. -/
def crashStep (indirectCost reductionPerUnit initialDuration : ℚ)
    (initialTasksState : List CrashTask) (s : LoopState) : StepOut :=
  if crashableTasks s.criticalPaths s.currentTasks = [] then
    .halt { s with costAnalysis := markLastCrashPoint s.costAnalysis }
  else
    match firstMinBySlope (commonTasks s.criticalPaths
            (crashableTasks s.criticalPaths s.currentTasks)),
          bestCombinationFor s.criticalPaths
            (crashableTasks s.criticalPaths s.currentTasks) with
    | some bct, some bc =>
      if slopeOr bct ⊤ ≤ bc.totalSlope then
        applySingle indirectCost reductionPerUnit initialDuration
          initialTasksState s bct [bct.id]
      else
        applyCombination indirectCost reductionPerUnit initialDuration
          initialTasksState s bc
    | some bct, none =>
      applySingle indirectCost reductionPerUnit initialDuration
        initialTasksState s bct [bct.id]
    | none, some bc =>
      applyCombination indirectCost reductionPerUnit initialDuration
        initialTasksState s bc
    | none, none =>
      match firstMinBySlope (crashableTasks s.criticalPaths s.currentTasks) with
      | some t =>
        applySingle indirectCost reductionPerUnit initialDuration
          initialTasksState s t [t.id]
      | none => .halt { s with costAnalysis := markLastCrashPoint s.costAnalysis }

/-- The `while` loop of `crashProject`, driven by fuel that the caller
chooses above the total remaining crash capacity (every committed iteration
consumes at least one unit of capacity). -/
def crashLoop (indirectCost reductionPerUnit initialDuration : ℚ)
    (initialTasksState : List CrashTask) :
    ℕ → LoopState → LoopState
  | 0, s => s
  | fuel + 1, s =>
    match crashStep indirectCost reductionPerUnit initialDuration
      initialTasksState s with
    | .halt s2 => s2
    | .next s2 => crashLoop indirectCost reductionPerUnit initialDuration
        initialTasksState fuel s2

/-- Fuel exceeding the number of loop iterations: one plus the total
remaining crash capacity. -/
def crashFuel (tasks : List CrashTask) : ℕ :=
  1 + (tasks.map (fun t => (t.maxCrashTime.getD 0).ceil.toNat)).sum

/-- The index receiving the optimum flag: the `reduce` of `crashProject`,
which keeps the earliest index of the minimum total cost. -/
def firstMinTotalCostIdx (ca : List CostAnalysisResult) : ℕ :=
  (List.range ca.length).foldl (fun minIndex index =>
    if (ca.getD index caDefault).totalCost <
       (ca.getD minIndex caDefault).totalCost then index else minIndex) 0

/-- The result record of `crashProject`. -/
structure CrashResult where
  crashedTasks : List (List CrashTask)
  paths : List CrashPath
  criticalPaths : List CrashPath
  costAnalysis : List CostAnalysisResult
  deriving DecidableEq

/-- `ProjectCrashingService.crashProject`: the pristine initial snapshot
with durations forced to the normal times, the initial paths and cost row,
the crashing loop, and the optimum marking. -/
def crashProject (tasks : List CrashTask)
    (indirectCost reductionPerUnit : ℚ) : CrashResult :=
  let initialTasksState := tasks.map (fun t => { t with duration := t.normalTime })
  let paths := calculateAllPaths initialTasksState
  let criticalPaths := paths.filter (fun p => p.isCritical)
  let initialDuration := jsOr (criticalPaths.head?.map (fun p => p.durations.headD 0)) 0
  let initialDirectCost := initialTasksState.foldl (fun sum t => sum + t.normalCost) 0
  let ca0 : CostAnalysisResult :=
    { projectDuration := initialDuration, crashedActivities := [],
      crashCost := 0, directCost := initialDirectCost,
      indirectCost := indirectCost,
      totalCost := initialDirectCost + indirectCost,
      isOptimum := false, isCrashPoint := false }
  let s0 : LoopState :=
    { currentTasks := initialTasksState, paths := paths,
      criticalPaths := criticalPaths, crashedTasks := [initialTasksState],
      costAnalysis := [ca0], iteration := 0 }
  let sF := crashLoop indirectCost reductionPerUnit initialDuration
    initialTasksState (crashFuel tasks) s0
  let minIdx := firstMinTotalCostIdx sF.costAnalysis
  { crashedTasks := sF.crashedTasks, paths := sF.paths,
    criticalPaths := sF.criticalPaths,
    costAnalysis := sF.costAnalysis.set minIdx
      { (sF.costAnalysis.getD minIdx caDefault) with isOptimum := true } }

/-- The initial task state of `crashProject`: durations forced to the
normal times. -/
def cpInitialTasksState (tasks : List CrashTask) : List CrashTask :=
  tasks.map (fun t => { t with duration := t.normalTime })

/-- The initial project duration of `crashProject`: head duration of the
first critical path, `0` when there is none. -/
def cpInitialDuration (tasks : List CrashTask) : ℚ :=
  jsOr (((calculateAllPaths (cpInitialTasksState tasks)).filter
    (fun p => p.isCritical)).head?.map (fun p => p.durations.headD 0)) 0

/-- The initial direct cost of `crashProject`: sum of the normal costs. -/
def cpInitialDirectCost (tasks : List CrashTask) : ℚ :=
  (cpInitialTasksState tasks).foldl (fun sum t => sum + t.normalCost) 0

/-- The first cost-analysis row of `crashProject`. -/
def cpInitialCostRow (tasks : List CrashTask)
    (indirectCost : ℚ) : CostAnalysisResult :=
  { projectDuration := cpInitialDuration tasks,
    crashedActivities := [], crashCost := 0,
    directCost := cpInitialDirectCost tasks,
    indirectCost := indirectCost,
    totalCost := cpInitialDirectCost tasks + indirectCost,
    isOptimum := false, isCrashPoint := false }

/-- The loop state of `crashProject` before the first iteration. -/
def cpInitialState (tasks : List CrashTask) (indirectCost : ℚ) : LoopState :=
  { currentTasks := cpInitialTasksState tasks,
    paths := calculateAllPaths (cpInitialTasksState tasks),
    criticalPaths := (calculateAllPaths (cpInitialTasksState tasks)).filter
      (fun p => p.isCritical),
    crashedTasks := [cpInitialTasksState tasks],
    costAnalysis := [cpInitialCostRow tasks indirectCost],
    iteration := 0 }

/-- The loop state of `crashProject` after the crashing loop has run. -/
def cpFinalState (tasks : List CrashTask)
    (indirectCost reductionPerUnit : ℚ) : LoopState :=
  crashLoop indirectCost reductionPerUnit (cpInitialDuration tasks)
    (cpInitialTasksState tasks) (crashFuel tasks)
    (cpInitialState tasks indirectCost)

/-- `ProjectCrashingContext.performCrashing` (the caller of the service):
the four validation checks in source order, then the service call.  The
thrown errors are modelled by `Except.error` with the thrown messages; on an
error the service is never invoked. -/
def performCrashing (tasks : List CrashTask)
    (indirectCost reductionPerUnit : ℚ) : Except String CrashResult :=
  if tasks.length = 0 then
    .error "No tasks to crash"
  else if indirectCost < 0 ∨ reductionPerUnit < 0 then
    .error "Indirect cost and reduction per unit must be non-negative"
  else if tasks.filter (fun t => t.predecessors = []) = [] then
    .error "No start tasks found. At least one task must have no predecessors."
  else if tasks.filter (fun t =>
      ¬ tasks.any (fun u => u.predecessors.any (fun p => p.taskId = t.id))) = [] then
    .error "No end tasks found. At least one task must not be a predecessor for any task."
  else
    .ok (crashProject tasks indirectCost reductionPerUnit)

end Crashing

end PMT

namespace PMT

namespace Crashing

/-- Example task X of the fallback counterexample: two units of crash
capacity, slope 1. -/
def exX : CrashTask := mkCrashTask "X" [] 5 10 3 12

/-- Example task Y of the fallback counterexample: no crash capacity. -/
def exY : CrashTask := mkCrashTask "Y" [] 5 10 5 10

/-- Example task F with fractional crash capacity: normal time 5, crash
time 9/2, so one crash step overshoots below the crash time. -/
def exF : CrashTask := mkCrashTask "F" [] 5 10 (9/2) 12

/-- Example task A of the combination counterexample: slope 3, capacity 1. -/
def exA : CrashTask := mkCrashTask "A" [] 5 10 4 13

/-- Example task B of the combination counterexample: slope 4, capacity 1. -/
def exB : CrashTask := mkCrashTask "B" [] 5 10 4 14

/-- Example task C of the combination counterexample: the task shared by
both critical paths, slope 10, capacity 1. -/
def exC : CrashTask :=
  mkCrashTask "C" [{ taskId := "A", lag := 0 }, { taskId := "B", lag := 0 }] 5 10 4 20

end Crashing

namespace Crashing

theorem foldl_dedupe_pres {P : CrashTask → Prop} (l acc : List CrashTask)
    (hacc : ∀ x ∈ acc, P x) (hl : ∀ x ∈ l, P x) :
    ∀ x ∈ l.foldl (fun acc2 t =>
      if acc2.any (fun u => u.id = t.id) then acc2 else acc2 ++ [t]) acc, P x := by
  induction l generalizing acc with
  | nil => exact hacc
  | cons t ts ih =>
    intro x hx
    rw [List.foldl_cons] at hx
    refine ih _ ?_ (fun y hy => hl y (List.mem_cons_of_mem _ hy)) x hx
    intro y hy
    by_cases h : (acc.any (fun u => u.id = t.id)) = true
    · rw [if_pos h] at hy
      exact hacc y hy
    · rw [if_neg h] at hy
      rcases List.mem_append.1 hy with h1 | h2
      · exact hacc y h1
      · rw [List.mem_singleton] at h2
        subst h2
        exact hl y (List.mem_cons_self _ _)

theorem tasksOnPath_spec (cur : List CrashTask) (ids : List String) :
    ∀ t ∈ (ids.filterMap (fun tid =>
        cur.find? (fun u => u.id = tid))).filter isCrashable,
      cur.find? (fun u => u.id = t.id) = some t ∧ isCrashable t = true := by
  intro t ht
  rw [List.mem_filter] at ht
  obtain ⟨ht1, ht2⟩ := ht
  rw [List.mem_filterMap] at ht1
  obtain ⟨tid, _, hfind⟩ := ht1
  have hid : t.id = tid := by simpa using List.find?_some hfind
  subst hid
  exact ⟨hfind, ht2⟩

theorem crashableTasks_spec (cps : List CrashPath) (cur : List CrashTask) :
    ∀ t ∈ crashableTasks cps cur,
      cur.find? (fun u => u.id = t.id) = some t ∧ isCrashable t = true := by
  unfold crashableTasks
  suffices H : ∀ (l : List CrashPath) (acc : List CrashTask),
      (∀ t ∈ acc, cur.find? (fun u => u.id = t.id) = some t ∧ isCrashable t = true) →
      ∀ t ∈ l.foldl (fun acc path =>
        ((path.tasks.filterMap (fun tid =>
          cur.find? (fun u => u.id = tid))).filter isCrashable).foldl
          (fun acc2 t =>
            if acc2.any (fun u => u.id = t.id) then acc2 else acc2 ++ [t]) acc) acc,
        cur.find? (fun u => u.id = t.id) = some t ∧ isCrashable t = true by
    exact H cps [] (by intro t ht; exact absurd ht (List.not_mem_nil t))
  intro l
  induction l with
  | nil => intro acc hacc; exact hacc
  | cons p ps ih =>
    intro acc hacc
    rw [List.foldl_cons]
    exact ih _ (foldl_dedupe_pres _ _ hacc (tasksOnPath_spec cur p.tasks))

theorem firstMinBySlope_mem {l : List CrashTask} {t : CrashTask}
    (h : firstMinBySlope l = some t) : t ∈ l := by
  match l with
  | [] => exact absurd h (by simp [firstMinBySlope])
  | a :: as =>
    rw [firstMinBySlope, Option.some.injEq] at h
    subst h
    suffices H : ∀ (xs : List CrashTask) (best : CrashTask), best ∈ a :: as →
        (∀ x ∈ xs, x ∈ a :: as) →
        xs.foldl (fun best u => if slopeOr u ⊤ < slopeOr best ⊤ then u else best) best
          ∈ a :: as by
      exact H as a (List.mem_cons_self _ _) (fun x hx => List.mem_cons_of_mem _ hx)
    intro xs
    induction xs with
    | nil => intro best hb _; exact hb
    | cons x xs ihx =>
      intro best hb hxs
      rw [List.foldl_cons]
      refine ihx _ ?_ (fun y hy => hxs y (List.mem_cons_of_mem _ hy))
      by_cases hlt : slopeOr x ⊤ < slopeOr best ⊤
      · rw [if_pos hlt]; exact hxs x (List.mem_cons_self _ _)
      · rw [if_neg hlt]; exact hb

theorem commonTasks_subset (cps : List CrashPath) (cr : List CrashTask) :
    ∀ t ∈ commonTasks cps cr, t ∈ cr := by
  intro t ht
  exact List.mem_of_mem_filter ht

theorem pathTaskMap_mem (cps : List CrashPath) (cr : List CrashTask) :
    ∀ l ∈ pathTaskMap cps cr, ∀ t ∈ l, t ∈ cr := by
  intro l hl t ht
  rw [pathTaskMap, List.mem_map] at hl
  obtain ⟨p, _, rfl⟩ := hl
  rw [List.mem_filter] at ht
  obtain ⟨ht1, _⟩ := ht
  rw [List.mem_filterMap] at ht1
  obtain ⟨tid, _, hfind⟩ := ht1
  exact List.mem_of_find?_eq_some hfind

theorem getD_mem_of_mem {α : Type} (l : List (List α)) (i : ℕ) :
    ∀ t ∈ l.getD i [], ∃ m ∈ l, t ∈ m := by
  intro t ht
  by_cases h : i < l.length
  · rw [List.getD_eq_getElem _ _ h] at ht
    exact ⟨l[i], List.getElem_mem h, ht⟩
  · rw [List.getD_eq_default _ _ (Nat.le_of_not_lt h)] at ht
    exact absurd ht (List.not_mem_nil t)

theorem generateCombinations_mem {cr : List CrashTask}
    (ptm : List (List CrashTask)) (numCritical : ℕ)
    (hptm : ∀ l ∈ ptm, ∀ t ∈ l, t ∈ cr) :
    ∀ (idxs : List ℕ) (cur : TaskCombination) (best : Option TaskCombination),
      (∀ t ∈ cur.tasks, t ∈ cr) →
      (∀ bc, best = some bc → ∀ t ∈ bc.tasks, t ∈ cr) →
      ∀ bc, generateCombinations ptm numCritical idxs cur best = some bc →
        ∀ t ∈ bc.tasks, t ∈ cr := by
  intro idxs
  induction idxs with
  | nil =>
    intro cur best hcur hbest bc h
    unfold generateCombinations at h
    by_cases hcard : cur.coversPaths.card = numCritical
    · rw [if_pos hcard] at h
      cases best with
      | none =>
        injection h with h
        subst h
        exact hcur
      | some b =>
        have h2 : (if cur.totalSlope < b.totalSlope then some cur else some b) =
            some bc := h
        by_cases hlt : cur.totalSlope < b.totalSlope
        · rw [if_pos hlt] at h2
          injection h2 with h2
          subst h2
          exact hcur
        · rw [if_neg hlt] at h2
          injection h2 with h2
          subst h2
          exact hbest _ rfl
    · rw [if_neg hcard] at h
      exact hbest _ h
  | cons i rest ih =>
    intro cur best hcur hbest bc h
    unfold generateCombinations at h
    by_cases hcov : i ∈ cur.coversPaths
    · rw [if_pos hcov] at h
      exact ih cur best hcur hbest bc h
    · rw [if_neg hcov] at h
      have htfp : ∀ t ∈ ptm.getD i [], t ∈ cr := by
        intro t ht
        obtain ⟨m, hm, htm⟩ := getD_mem_of_mem ptm i t ht
        exact hptm m hm t htm
      have hfold : ∀ (ts : List CrashTask), (∀ x ∈ ts, x ∈ cr) →
          ∀ (b : Option TaskCombination),
          (∀ bc2, b = some bc2 → ∀ t ∈ bc2.tasks, t ∈ cr) →
          ∀ bc2, ts.foldl (fun b task =>
            generateCombinations ptm numCritical rest
              { tasks := cur.tasks ++ [task],
                totalSlope := cur.totalSlope + slopeOr task ⊤,
                coversPaths := cur.coversPaths ∪ coveredPathsOf ptm task } b) b
            = some bc2 → ∀ t ∈ bc2.tasks, t ∈ cr := by
        intro ts
        induction ts with
        | nil => intro _ b hb bc2 hfb; exact hb bc2 hfb
        | cons x xs ihx =>
          intro hts b hb bc2 hfb
          rw [List.foldl_cons] at hfb
          refine ihx (fun y hy => hts y (List.mem_cons_of_mem _ hy)) _ ?_ bc2 hfb
          intro bc3 hbc3
          refine ih _ b ?_ hb bc3 hbc3
          intro t htm
          rcases List.mem_append.1 htm with h1 | h2
          · exact hcur t h1
          · rw [List.mem_singleton] at h2
            subst h2
            exact hts t (List.mem_cons_self _ _)
      by_cases hempty : ptm.getD i [] = []
      · rw [if_pos hempty] at h
        refine ih cur _ hcur ?_ bc h
        exact hfold _ htfp best hbest
      · rw [if_neg hempty] at h
        exact hfold _ htfp best hbest bc h

theorem greedyStep_fst (cps : List CrashPath)
    (acc : List CrashTask × Finset ℕ × WithTop ℚ) (tc : CrashTask × Finset ℕ) :
    (greedyStep cps acc tc).1 = acc.1 ∨ (greedyStep cps acc tc).1 = acc.1 ++ [tc.1] := by
  unfold greedyStep
  by_cases h1 : acc.2.1.card = cps.length
  · rw [if_pos h1]; exact Or.inl rfl
  · rw [if_neg h1]
    by_cases h2 : (¬ tc.2 ⊆ acc.2.1 : Bool) = true
    · rw [if_pos h2]; exact Or.inr rfl
    · rw [if_neg h2]; exact Or.inl rfl

theorem greedyFold_mem (cps : List CrashPath) {cr : List CrashTask} :
    ∀ (l : List (CrashTask × Finset ℕ)) (acc : List CrashTask × Finset ℕ × WithTop ℚ),
      (∀ x ∈ l, x.1 ∈ cr) → (∀ x ∈ acc.1, x ∈ cr) →
      ∀ x ∈ (l.foldl (greedyStep cps) acc).1, x ∈ cr := by
  intro l
  induction l with
  | nil => intro acc _ hacc x hx; exact hacc x hx
  | cons tc tcs ihl =>
    intro acc hl hacc x hx
    rw [List.foldl_cons] at hx
    refine ihl _ (fun y hy => hl y (List.mem_cons_of_mem _ hy)) ?_ x hx
    intro y hy
    rcases greedyStep_fst cps acc tc with he | he
    · rw [he] at hy; exact hacc y hy
    · rw [he] at hy
      rcases List.mem_append.1 hy with hy1 | hy2
      · exact hacc y hy1
      · rw [List.mem_singleton] at hy2
        subst hy2
        exact hl tc (List.mem_cons_self _ _)

theorem greedyCover_mem (cps : List CrashPath) (cr : List CrashTask) :
    ∀ bc, greedyCover cps cr = some bc → ∀ t ∈ bc.tasks, t ∈ cr := by
  intro bc h t ht
  simp only [greedyCover] at h
  split at h
  · injection h with h
    subst h
    refine greedyFold_mem cps _ _ ?_ (by intro x hx; exact absurd hx (List.not_mem_nil x)) t ht
    intro x hx
    have hx2 : x ∈ tasksWithCoverage cps cr :=
      (List.mergeSort_perm _ _).mem_iff.1 hx
    rw [tasksWithCoverage, List.mem_map] at hx2
    obtain ⟨u, hu, rfl⟩ := hx2
    exact hu
  · cases h

theorem bestCombinationFor_mem (cps : List CrashPath) (cr : List CrashTask) :
    ∀ bc, bestCombinationFor cps cr = some bc → ∀ t ∈ bc.tasks, t ∈ cr := by
  intro bc h
  simp only [bestCombinationFor] at h
  match hgen : generateCombinations (pathTaskMap cps cr) cps.length
      (List.range (pathTaskMap cps cr).length)
      { tasks := [], totalSlope := 0, coversPaths := ∅ } none with
  | none => rw [hgen] at h; cases h
  | some bc0 =>
    rw [hgen] at h
    have hbc0 : ∀ t ∈ bc0.tasks, t ∈ cr := by
      refine generateCombinations_mem (pathTaskMap cps cr) cps.length
        (pathTaskMap_mem cps cr) _ _ _ (by intro t ht; exact absurd ht (List.not_mem_nil t))
        (by intro bc2 hbc2; cases hbc2) bc0 hgen
    have h2 : (if bc0.coversPaths.card < cps.length then
        (match greedyCover cps cr with
         | some g => some g
         | none => some bc0) else some bc0) = some bc := h
    by_cases hcard : bc0.coversPaths.card < cps.length
    · rw [if_pos hcard] at h2
      cases hg : greedyCover cps cr with
      | some g =>
        rw [hg] at h2
        injection h2 with h2
        subst h2
        exact greedyCover_mem cps cr _ hg
      | none =>
        rw [hg] at h2
        injection h2 with h2
        subst h2
        exact hbc0
    · rw [if_neg hcard] at h2
      injection h2 with h2
      subst h2
      exact hbc0

end Crashing

namespace Crashing

theorem markLastCrashPoint_length (ca : List CostAnalysisResult) :
    (markLastCrashPoint ca).length = ca.length := by
  induction ca with
  | nil => rfl
  | cons c rest ih =>
    cases rest with
    | nil => rfl
    | cons c2 rest2 =>
      show (c :: markLastCrashPoint (c2 :: rest2)).length = _
      simp [ih]

theorem markLastCrashPoint_proj {α : Type} (f : CostAnalysisResult → α)
    (hf : ∀ c, f { c with isCrashPoint := true } = f c)
    (ca : List CostAnalysisResult) :
    (markLastCrashPoint ca).map f = ca.map f := by
  induction ca with
  | nil => rfl
  | cons c rest ih =>
    cases rest with
    | nil => simp [markLastCrashPoint, hf c]
    | cons c2 rest2 =>
      show List.map f (c :: markLastCrashPoint (c2 :: rest2)) = _
      simp only [List.map_cons]
      rw [show List.map f (markLastCrashPoint (c2 :: rest2)) = List.map f (c2 :: rest2) from ih]
      simp

theorem updateFirst_of_find?_none {l : List CrashTask} {id : String}
    (f : CrashTask → CrashTask)
    (h : l.find? (fun u => u.id = id) = none) : updateFirst l id f = l := by
  induction l with
  | nil => rfl
  | cons x xs ih =>
    by_cases hx : x.id = id
    · rw [List.find?_cons_of_pos _ (by simpa using hx)] at h
      cases h
    · rw [List.find?_cons_of_neg _ (by simpa using hx)] at h
      show (if x.id = id then f x :: xs else x :: updateFirst xs id f) = x :: xs
      rw [if_neg hx, ih h]

theorem updateFirst_of_find?_some {l : List CrashTask} {id : String} {t : CrashTask}
    (f : CrashTask → CrashTask)
    (h : l.find? (fun u => u.id = id) = some t) :
    ∃ j, ∃ hj : j < l.length, l.get ⟨j, hj⟩ = t ∧
      updateFirst l id f = l.set j (f t) := by
  induction l with
  | nil => cases h
  | cons x xs ih =>
    by_cases hx : x.id = id
    · rw [List.find?_cons_of_pos _ (by simpa using hx)] at h
      injection h with h
      subst h
      exact ⟨0, Nat.succ_pos _, rfl, by
        show (if x.id = id then f x :: xs else _) = _
        rw [if_pos hx]
        rfl⟩
    · rw [List.find?_cons_of_neg _ (by simpa using hx)] at h
      obtain ⟨j, hj, hget, hupd⟩ := ih h
      refine ⟨j + 1, Nat.succ_lt_succ hj, hget, ?_⟩
      show (if x.id = id then f x :: xs else x :: updateFirst xs id f) = _
      rw [if_neg hx, hupd]
      rfl

/-- Pointwise relation between a task state and its successor within one
committed iteration: every task is unchanged or, when it was crashable, hit
by exactly one unit of crashing. -/
def NextRel (cur nts : List CrashTask) : Prop :=
  nts.length = cur.length ∧
  ∀ j, ∀ hj : j < cur.length, ∀ hj2 : j < nts.length,
    nts.get ⟨j, hj2⟩ = cur.get ⟨j, hj⟩ ∨
    (isCrashable (cur.get ⟨j, hj⟩) = true ∧
      nts.get ⟨j, hj2⟩ = decrement1 (cur.get ⟨j, hj⟩))

theorem NextRel.refl (cur : List CrashTask) : NextRel cur cur :=
  ⟨rfl, fun _ _ _ => Or.inl rfl⟩

theorem updateFirst_nextRel {cur : List CrashTask} {id : String} {t : CrashTask}
    (hfind : cur.find? (fun u => u.id = id) = some t)
    (hcr : isCrashable t = true) :
    NextRel cur (updateFirst cur id decrement1) := by
  obtain ⟨j, hj, hget, hupd⟩ := updateFirst_of_find?_some decrement1 hfind
  rw [hupd]
  refine ⟨List.length_set _ _ _, ?_⟩
  intro k hk hk2
  simp only [List.get_eq_getElem] at hget ⊢
  by_cases hjk : j = k
  · subst hjk
    right
    constructor
    · rw [hget]
      exact hcr
    · rw [List.getElem_set_self, hget]
  · left
    exact List.getElem_set_ne hjk _

theorem decrement1_id (t : CrashTask) : (decrement1 t).id = t.id := rfl

theorem NextRel.map_id {cur nts : List CrashTask} (h : NextRel cur nts) :
    nts.map (fun t => t.id) = cur.map (fun t => t.id) := by
  obtain ⟨hlen, hpt⟩ := h
  apply List.ext_getElem (by simpa using hlen)
  intro j h1 h2
  simp only [List.getElem_map]
  rcases hpt j (by simpa using h2) (by simpa using h1) with he | ⟨_, he⟩
  · simp only [List.get_eq_getElem] at he
    rw [he]
  · simp only [List.get_eq_getElem] at he
    rw [he, decrement1_id]

/-- Membership form of `NextRel`: an element of a list related to `cur`
is an original task of `cur` or a crashed original task. -/
theorem NextRel.mem {cur st : List CrashTask} (h : NextRel cur st) :
    ∀ task ∈ st, ∃ j, ∃ hj : j < cur.length,
      task = cur.get ⟨j, hj⟩ ∨
      (isCrashable (cur.get ⟨j, hj⟩) = true ∧ task = decrement1 (cur.get ⟨j, hj⟩)) := by
  intro task htask
  obtain ⟨hlen, hpt⟩ := h
  obtain ⟨⟨j, hj⟩, rfl⟩ := List.mem_iff_get.1 htask
  refine ⟨j, hlen ▸ hj, ?_⟩
  rcases hpt j (hlen ▸ hj) hj with he | ⟨hc, he⟩
  · exact Or.inl he
  · exact Or.inr ⟨hc, he⟩

theorem nodup_id_getElem_inj {cur : List CrashTask}
    (hnodup : (cur.map (fun t => t.id)).Nodup)
    {j k : ℕ} (hj : j < cur.length) (hk : k < cur.length)
    (h : cur[j].id = cur[k].id) : j = k := by
  have hj2 : j < (cur.map (fun t => t.id)).length := by simpa using hj
  have hk2 : k < (cur.map (fun t => t.id)).length := by simpa using hk
  have h2 : (cur.map (fun t => t.id))[j] = (cur.map (fun t => t.id))[k] := by
    rw [List.getElem_map, List.getElem_map]
    exact h
  exact (List.Nodup.getElem_inj_iff hnodup).1 h2

theorem decrement1_duration (t : CrashTask) :
    (decrement1 t).duration = t.duration - 1 := rfl

theorem adopt_eq_decrement1 (t : CrashTask) :
    ({ t with duration := (decrement1 t).duration,
              maxCrashTime := (decrement1 t).maxCrashTime } : CrashTask) =
      decrement1 t := rfl

theorem mergeUpdate_nextRel {cur b : List CrashTask}
    (hnodup : (cur.map (fun t => t.id)).Nodup)
    (hb : NextRel cur b) {task : CrashTask}
    (htask : ∃ j, ∃ hj : j < cur.length,
      task = cur.get ⟨j, hj⟩ ∨
      (isCrashable (cur.get ⟨j, hj⟩) = true ∧ task = decrement1 (cur.get ⟨j, hj⟩))) :
    NextRel cur (updateFirst b task.id (fun corr =>
      if task.duration < corr.duration then
        { corr with duration := task.duration, maxCrashTime := task.maxCrashTime }
      else corr)) := by
  cases hfind : b.find? (fun u => u.id = task.id) with
  | none =>
    rw [updateFirst_of_find?_none _ hfind]
    exact hb
  | some corr =>
    obtain ⟨k, hk, hget, hupd⟩ := updateFirst_of_find?_some _ hfind
    rw [hupd]
    obtain ⟨hlen, hpt⟩ := hb
    refine ⟨by simpa using hlen, ?_⟩
    intro m hm hm2
    simp only [List.get_eq_getElem]
    by_cases hkm : k = m
    · subst hkm
      rw [List.getElem_set_self]
      obtain ⟨j, hj, hjrel⟩ := htask
      have hcorr := hpt k (hlen ▸ hk) hk
      simp only [List.get_eq_getElem] at hcorr hget hjrel
      rw [hget] at hcorr
      have hcorr_id : corr.id = cur[k].id := by
        rcases hcorr with he | ⟨_, he⟩
        · rw [he]
        · rw [he, decrement1_id]
      have htask_id : task.id = cur[j].id := by
        rcases hjrel with he | ⟨_, he⟩
        · rw [he]
        · rw [he, decrement1_id]
      have hck : corr.id = task.id := by simpa using List.find?_some hfind
      have hjk : j = k :=
        nodup_id_getElem_inj hnodup hj (hlen ▸ hk)
          (by rw [← htask_id, ← hck, hcorr_id])
      subst hjk
      rcases hjrel with hte | ⟨htc, hte⟩ <;> rcases hcorr with hce | ⟨hcc, hce⟩
      · subst hte
        subst hce
        left
        rw [if_neg (lt_irrefl _)]
      · subst hte
        subst hce
        right
        refine ⟨hcc, ?_⟩
        rw [if_neg (by rw [decrement1_duration]; intro hcon; linarith)]
      · subst hte
        subst hce
        right
        refine ⟨htc, ?_⟩
        rw [if_pos (by rw [decrement1_duration]; linarith)]
        exact adopt_eq_decrement1 _
      · subst hte
        subst hce
        right
        refine ⟨htc, ?_⟩
        rw [if_neg (lt_irrefl _)]
    · rcases hpt m hm (by simpa using hm2) with he | ⟨hc, he⟩ <;>
        simp only [List.get_eq_getElem] at he
      · left
        rw [List.getElem_set_ne hkm _, he]
      · right
        rw [List.getElem_set_ne hkm _, he]
        exact ⟨hc, rfl⟩

theorem mergeFold_one {cur : List CrashTask}
    (hnodup : (cur.map (fun t => t.id)).Nodup)
    {st : List CrashTask}
    (hstmem : ∀ task ∈ st, ∃ j, ∃ hj : j < cur.length,
      task = cur.get ⟨j, hj⟩ ∨
      (isCrashable (cur.get ⟨j, hj⟩) = true ∧ task = decrement1 (cur.get ⟨j, hj⟩))) :
    ∀ {b : List CrashTask}, NextRel cur b →
    NextRel cur (st.foldl (fun b2 task =>
      updateFirst b2 task.id (fun corr =>
        if task.duration < corr.duration then
          { corr with duration := task.duration, maxCrashTime := task.maxCrashTime }
        else corr)) b) := by
  induction st with
  | nil => intro b hb; exact hb
  | cons task tasks ih =>
    intro b hb
    rw [List.foldl_cons]
    exact ih (fun u hu => hstmem u (List.mem_cons_of_mem _ hu))
      (mergeUpdate_nextRel hnodup hb (hstmem task (List.mem_cons_self _ _)))

theorem mergeStates_nextRel {cur : List CrashTask}
    (hnodup : (cur.map (fun t => t.id)).Nodup)
    {base : List CrashTask} (hbase : NextRel cur base)
    {others : List (List CrashTask)} (hothers : ∀ st ∈ others, NextRel cur st) :
    NextRel cur (mergeStates base others) := by
  unfold mergeStates
  induction others generalizing base with
  | nil => exact hbase
  | cons st sts ih =>
    rw [List.foldl_cons]
    refine ih ?_ (fun u hu => hothers u (List.mem_cons_of_mem _ hu))
    exact mergeFold_one hnodup
      ((hothers st (List.mem_cons_self _ _)).mem) hbase

theorem combStates_nextRel (cur : List CrashTask) (picked : List CrashTask) :
    ∀ st ∈ combStates cur picked, NextRel cur st := by
  unfold combStates
  suffices H : ∀ (l : List CrashTask) (acc : List (List CrashTask)),
      (∀ st ∈ acc, NextRel cur st) →
      ∀ st ∈ l.foldl (fun acc task =>
        match cur.find? (fun t => t.id = task.id) with
        | some taskToCrash =>
          if isCrashable taskToCrash then
            acc ++ [updateFirst cur task.id decrement1]
          else acc
        | none => acc) acc, NextRel cur st by
    exact H picked [] (by intro st hst; exact absurd hst (List.not_mem_nil st))
  intro l
  induction l with
  | nil => intro acc hacc; exact hacc
  | cons task tasks ih =>
    intro acc hacc
    rw [List.foldl_cons]
    apply ih
    intro st hst
    cases hfind : cur.find? (fun t => t.id = task.id) with
    | none =>
      rw [hfind] at hst
      exact hacc st hst
    | some tc =>
      rw [hfind] at hst
      have hst2 : st ∈ (if isCrashable tc = true then
          acc ++ [updateFirst cur task.id decrement1] else acc) := hst
      by_cases hcr : isCrashable tc = true
      · rw [if_pos hcr] at hst2
        rcases List.mem_append.1 hst2 with h1 | h2
        · exact hacc st h1
        · rw [List.mem_singleton] at h2
          subst h2
          have hid : tc.id = task.id := by simpa using List.find?_some hfind
          refine updateFirst_nextRel ?_ hcr
          rw [← hid] at hfind ⊢
          exact hfind
      · rw [if_neg hcr] at hst2
        exact hacc st hst2

theorem combStates_length_le (cur picked : List CrashTask) :
    (combStates cur picked).length ≤ picked.length := by
  unfold combStates
  suffices H : ∀ (l : List CrashTask) (acc : List (List CrashTask)),
      (l.foldl (fun acc task =>
        match cur.find? (fun t => t.id = task.id) with
        | some taskToCrash =>
          if isCrashable taskToCrash then
            acc ++ [updateFirst cur task.id decrement1]
          else acc
        | none => acc) acc).length ≤ acc.length + l.length by
    simpa using H picked []
  intro l
  induction l with
  | nil => intro acc; simp
  | cons task tasks ih =>
    intro acc
    rw [List.foldl_cons]
    cases hfind : cur.find? (fun t => t.id = task.id) with
    | none =>
      show (tasks.foldl _ acc).length ≤ _
      have h1 := ih acc
      simp only [List.length_cons]
      omega
    | some tc =>
      show (tasks.foldl _ (if isCrashable tc = true then
          acc ++ [updateFirst cur task.id decrement1] else acc)).length ≤ _
      by_cases hcr : isCrashable tc = true
      · rw [if_pos hcr]
        have h1 := ih (acc ++ [updateFirst cur task.id decrement1])
        simp only [List.length_append, List.length_cons, List.length_nil] at h1 ⊢
        omega
      · rw [if_neg hcr]
        have h1 := ih acc
        simp only [List.length_cons]
        omega

theorem find?_id_default (l : List CrashTask) (rid : String) :
    (match l.find? (fun t => t.id = rid) with
     | some t => t.id
     | none => rid) = rid := by
  cases h : l.find? (fun t => t.id = rid) with
  | none => rfl
  | some t => simpa using List.find?_some h

/-- The data of a committed loop iteration: the representative task is the
first state entry with its id and crashable, its id is among the recorded
activity ids, and the next state is a single decrement or a merge of
decremented copies of crashable tasks. -/
def CommitShape (s : LoopState) (nts : List CrashTask) (ids : List String)
    (rep : CrashTask) : Prop :=
  s.currentTasks.find? (fun u => u.id = rep.id) = some rep ∧
  isCrashable rep = true ∧
  rep.id ∈ ids ∧
  (nts = updateFirst s.currentTasks rep.id decrement1 ∨
    ∃ picked st0 st1 strest,
      (∀ u ∈ picked, u ∈ crashableTasks s.criticalPaths s.currentTasks) ∧
      combStates s.currentTasks picked = st0 :: st1 :: strest ∧
      nts = mergeStates st0 (st1 :: strest)) ∧
  (ids.length = 1 → nts = updateFirst s.currentTasks rep.id decrement1)

theorem applySingle_commit (a b c : ℚ) (d : List CrashTask) (s : LoopState)
    {tm : CrashTask} (ids : List String)
    (hfind : s.currentTasks.find? (fun u => u.id = tm.id) = some tm) :
    applySingle a b c d s tm ids =
      finishStep a b c d s (s.iteration + 1)
        (updateFirst s.currentTasks tm.id decrement1) ids tm tm.id := by
  unfold applySingle
  rw [hfind]

theorem applyCombination_shape (a b c : ℚ) (d : List CrashTask) (s : LoopState)
    (bc : TaskCombination)
    (hmem : ∀ t ∈ bc.tasks, t ∈ crashableTasks s.criticalPaths s.currentTasks) :
    applyCombination a b c d s bc =
      .halt { s with costAnalysis := markLastCrashPoint s.costAnalysis } ∨
    ∃ nts rep, CommitShape s nts (bc.tasks.map (fun t => t.id)) rep ∧
      applyCombination a b c d s bc =
        finishStep a b c d s (s.iteration + 1) nts
          (bc.tasks.map (fun t => t.id)) rep rep.id := by
  unfold applyCombination
  cases hcs : combStates s.currentTasks bc.tasks with
  | nil => left; rfl
  | cons st0 rest =>
    cases rest with
    | nil =>
      cases hrep : firstMinBySlope bc.tasks with
      | none => left; rfl
      | some rep =>
        right
        have hrepmem := hmem rep (firstMinBySlope_mem hrep)
        have hrepc := crashableTasks_spec _ _ rep hrepmem
        refine ⟨updateFirst s.currentTasks rep.id decrement1, rep,
          ⟨hrepc.1, hrepc.2, ?_, Or.inl rfl, fun _ => rfl⟩, ?_⟩
        · exact List.mem_map_of_mem _ (firstMinBySlope_mem hrep)
        · exact applySingle_commit a b c d s _ hrepc.1
    | cons st1 strest =>
      cases hrep : firstMinBySlope bc.tasks with
      | none => left; rfl
      | some rep =>
        right
        have hrepmem := hmem rep (firstMinBySlope_mem hrep)
        have hrepc := crashableTasks_spec _ _ rep hrepmem
        have hlen2 : 2 ≤ bc.tasks.length := by
          have h1 := combStates_length_le s.currentTasks bc.tasks
          rw [hcs] at h1
          simp only [List.length_cons] at h1
          omega
        refine ⟨mergeStates st0 (st1 :: strest), rep,
          ⟨hrepc.1, hrepc.2, ?_, Or.inr ⟨bc.tasks, st0, st1, strest, hmem, hcs, rfl⟩,
            ?_⟩, ?_⟩
        · exact List.mem_map_of_mem _ (firstMinBySlope_mem hrep)
        · intro hone
          rw [List.length_map] at hone
          omega
        · have hx : finishStep a b c d s (s.iteration + 1)
              (mergeStates st0 (st1 :: strest)) (bc.tasks.map (fun t => t.id)) rep
              (match (mergeStates st0 (st1 :: strest)).find? (fun t => t.id = rep.id) with
               | some t => t.id
               | none => rep.id) =
              finishStep a b c d s (s.iteration + 1)
                (mergeStates st0 (st1 :: strest)) (bc.tasks.map (fun t => t.id)) rep
                rep.id := by
            rw [find?_id_default (mergeStates st0 (st1 :: strest)) rep.id]
          exact hx

theorem crashStep_shape (a b c : ℚ) (d : List CrashTask) (s : LoopState) :
    crashStep a b c d s = .halt s ∨
    crashStep a b c d s =
      .halt { s with costAnalysis := markLastCrashPoint s.costAnalysis } ∨
    ∃ nts ids rep, CommitShape s nts ids rep ∧
      crashStep a b c d s =
        finishStep a b c d s (s.iteration + 1) nts ids rep rep.id := by
  by_cases hcr : crashableTasks s.criticalPaths s.currentTasks = []
  · right; left
    unfold crashStep
    rw [if_pos hcr]
  · cases hbct : firstMinBySlope (commonTasks s.criticalPaths
        (crashableTasks s.criticalPaths s.currentTasks)) with
    | some bct =>
      have hbctmem : bct ∈ crashableTasks s.criticalPaths s.currentTasks :=
        commonTasks_subset _ _ _ (firstMinBySlope_mem hbct)
      have hbctc := crashableTasks_spec _ _ bct hbctmem
      cases hcomb : bestCombinationFor s.criticalPaths
          (crashableTasks s.criticalPaths s.currentTasks) with
      | some bc =>
        have hstep : crashStep a b c d s =
            (if slopeOr bct ⊤ ≤ bc.totalSlope then
              applySingle a b c d s bct [bct.id]
            else applyCombination a b c d s bc) := by
          unfold crashStep
          rw [if_neg hcr, hbct, hcomb]
        rw [hstep]
        by_cases hle : slopeOr bct ⊤ ≤ bc.totalSlope
        · rw [if_pos hle]
          right; right
          refine ⟨updateFirst s.currentTasks bct.id decrement1, [bct.id], bct,
            ⟨hbctc.1, hbctc.2, List.mem_singleton.2 rfl, Or.inl rfl, fun _ => rfl⟩, ?_⟩
          exact applySingle_commit a b c d s _ hbctc.1
        · rw [if_neg hle]
          rcases applyCombination_shape a b c d s bc
              (bestCombinationFor_mem _ _ bc hcomb) with h1 | ⟨nts, rep, hshape, heq⟩
          · right; left; exact h1
          · right; right; exact ⟨nts, bc.tasks.map (fun t => t.id), rep, hshape, heq⟩
      | none =>
        have hstep : crashStep a b c d s = applySingle a b c d s bct [bct.id] := by
          unfold crashStep
          rw [if_neg hcr, hbct, hcomb]
        rw [hstep]
        right; right
        refine ⟨updateFirst s.currentTasks bct.id decrement1, [bct.id], bct,
          ⟨hbctc.1, hbctc.2, List.mem_singleton.2 rfl, Or.inl rfl, fun _ => rfl⟩, ?_⟩
        exact applySingle_commit a b c d s _ hbctc.1
    | none =>
      cases hcomb : bestCombinationFor s.criticalPaths
          (crashableTasks s.criticalPaths s.currentTasks) with
      | some bc =>
        have hstep : crashStep a b c d s = applyCombination a b c d s bc := by
          unfold crashStep
          rw [if_neg hcr, hbct, hcomb]
        rw [hstep]
        rcases applyCombination_shape a b c d s bc
            (bestCombinationFor_mem _ _ bc hcomb) with h1 | ⟨nts, rep, hshape, heq⟩
        · right; left; exact h1
        · right; right; exact ⟨nts, bc.tasks.map (fun t => t.id), rep, hshape, heq⟩
      | none =>
        cases hfb : firstMinBySlope (crashableTasks s.criticalPaths s.currentTasks) with
        | some t =>
          have htc := crashableTasks_spec _ _ t (firstMinBySlope_mem hfb)
          have hstep : crashStep a b c d s = applySingle a b c d s t [t.id] := by
            unfold crashStep
            rw [if_neg hcr, hbct, hcomb, hfb]
          rw [hstep]
          right; right
          refine ⟨updateFirst s.currentTasks t.id decrement1, [t.id], t,
            ⟨htc.1, htc.2, List.mem_singleton.2 rfl, Or.inl rfl, fun _ => rfl⟩, ?_⟩
          exact applySingle_commit a b c d s _ htc.1
        | none =>
          right; left
          unfold crashStep
          rw [if_neg hcr, hbct, hcomb, hfb]

theorem finishStep_eq (a b c : ℚ) (d : List CrashTask) (s : LoopState)
    (it : ℕ) (nts : List CrashTask) (ids : List String) (rep : CrashTask)
    (cid : String) :
    finishStep a b c d s it nts ids rep cid =
      .next { currentTasks := nts,
              paths := stepPaths s d it cid (stepNewMax nts),
              criticalPaths :=
                (stepPaths s d it cid (stepNewMax nts)).filter (fun p => p.isCritical),
              crashedTasks := s.crashedTasks ++ [nts],
              costAnalysis := s.costAnalysis ++ [stepEntry a b c s rep ids (stepNewMax nts)],
              iteration := it } := rfl

theorem crashStep_next_spec {a b c : ℚ} {d : List CrashTask} {s s' : LoopState}
    (h : crashStep a b c d s = .next s') :
    ∃ nts ids rep, CommitShape s nts ids rep ∧
      s' = { currentTasks := nts,
             paths := stepPaths s d (s.iteration + 1) rep.id (stepNewMax nts),
             criticalPaths := (stepPaths s d (s.iteration + 1) rep.id
               (stepNewMax nts)).filter (fun p => p.isCritical),
             crashedTasks := s.crashedTasks ++ [nts],
             costAnalysis := s.costAnalysis ++
               [stepEntry a b c s rep ids (stepNewMax nts)],
             iteration := s.iteration + 1 } := by
  rcases crashStep_shape a b c d s with h1 | h1 | ⟨nts, ids, rep, hcs, heq⟩
  · rw [h1] at h; cases h
  · rw [h1] at h; cases h
  · rw [heq, finishStep_eq] at h
    injection h with h
    exact ⟨nts, ids, rep, hcs, h.symm⟩

theorem crashStep_halt_spec {a b c : ℚ} {d : List CrashTask} {s s' : LoopState}
    (h : crashStep a b c d s = .halt s') :
    s' = s ∨ s' = { s with costAnalysis := markLastCrashPoint s.costAnalysis } := by
  rcases crashStep_shape a b c d s with h1 | h1 | ⟨nts, ids, rep, _, heq⟩
  · rw [h1] at h
    injection h with h
    exact Or.inl h.symm
  · rw [h1] at h
    injection h with h
    exact Or.inr h.symm
  · rw [heq, finishStep_eq] at h
    cases h

theorem crashLoop_inv (P : LoopState → Prop) (a b c : ℚ) (d : List CrashTask)
    (hhalt : ∀ s s', crashStep a b c d s = .halt s' → P s → P s')
    (hnext : ∀ s s', crashStep a b c d s = .next s' → P s → P s') :
    ∀ fuel s, P s → P (crashLoop a b c d fuel s) := by
  intro fuel
  induction fuel with
  | zero => intro s hs; exact hs
  | succ n ih =>
    intro s hs
    show P (match crashStep a b c d s with
      | .halt s2 => s2
      | .next s2 => crashLoop a b c d n s2)
    cases hstep : crashStep a b c d s with
    | halt s2 => exact hhalt s s2 hstep hs
    | next s2 => exact ih s2 (hnext s s2 hstep hs)

theorem markLastCrashPoint_mem {ca : List CostAnalysisResult} :
    ∀ cc ∈ markLastCrashPoint ca, ∃ c0 ∈ ca,
      cc = c0 ∨ cc = { c0 with isCrashPoint := true } := by
  induction ca with
  | nil => intro cc hcc; exact absurd hcc (List.not_mem_nil cc)
  | cons c rest ih =>
    cases rest with
    | nil =>
      intro cc hcc
      rw [show markLastCrashPoint [c] = [{ c with isCrashPoint := true }] from rfl,
        List.mem_singleton] at hcc
      exact ⟨c, List.mem_cons_self _ _, Or.inr hcc⟩
    | cons c2 rest2 =>
      intro cc hcc
      rw [show markLastCrashPoint (c :: c2 :: rest2) =
        c :: markLastCrashPoint (c2 :: rest2) from rfl] at hcc
      rcases List.mem_cons.1 hcc with h1 | h2
      · exact ⟨c, List.mem_cons_self _ _, Or.inl h1⟩
      · obtain ⟨c0, hc0, hor⟩ := ih cc h2
        exact ⟨c0, List.mem_cons_of_mem _ hc0, hor⟩

/-- All cost rows have a cleared optimum flag. -/
def AllFalse (ca : List CostAnalysisResult) : Prop :=
  ∀ cc ∈ ca, cc.isOptimum = false

theorem allFalse_markLast {ca : List CostAnalysisResult} (h : AllFalse ca) :
    AllFalse (markLastCrashPoint ca) := by
  intro cc hcc
  obtain ⟨c0, hc0, hor⟩ := markLastCrashPoint_mem cc hcc
  rcases hor with he | he
  · rw [he]; exact h c0 hc0
  · rw [he]; exact h c0 hc0

/-- Invariant of the crashing loop used by the optimum-marking claim: the
cost table is nonempty and all optimum flags are cleared. -/
def OptInv (s : LoopState) : Prop :=
  s.costAnalysis ≠ [] ∧ AllFalse s.costAnalysis

theorem optInv_preserved (a b c : ℚ) (d : List CrashTask) :
    ∀ fuel s, OptInv s → OptInv (crashLoop a b c d fuel s) := by
  refine crashLoop_inv OptInv a b c d ?_ ?_
  · intro s s' hstep ⟨hne, hfalse⟩
    rcases crashStep_halt_spec hstep with rfl | rfl
    · exact ⟨hne, hfalse⟩
    · refine ⟨?_, allFalse_markLast hfalse⟩
      show markLastCrashPoint s.costAnalysis ≠ []
      intro hnil
      have := markLastCrashPoint_length s.costAnalysis
      rw [hnil] at this
      exact hne (List.length_eq_zero.1 this.symm)
  · intro s s' hstep ⟨hne, hfalse⟩
    obtain ⟨nts, ids, rep, _, rfl⟩ := crashStep_next_spec hstep
    refine ⟨by simp, ?_⟩
    intro cc hcc
    rcases List.mem_append.1 hcc with h1 | h2
    · exact hfalse cc h1
    · rw [List.mem_singleton] at h2
      subst h2
      rfl

theorem getD_set_self {l : List CostAnalysisResult} {i : ℕ} (hi : i < l.length)
    (v : CostAnalysisResult) :
    (l.set i v).getD i caDefault = v := by
  rw [List.getD_eq_getElem _ _ (by simpa using hi)]
  exact List.getElem_set_self _

theorem getD_set_ne {l : List CostAnalysisResult} {i j : ℕ} (hij : i ≠ j)
    (v : CostAnalysisResult) :
    (l.set i v).getD j caDefault = l.getD j caDefault := by
  by_cases hj : j < l.length
  · rw [List.getD_eq_getElem _ _ (by simpa using hj),
      List.getD_eq_getElem _ _ hj]
    exact List.getElem_set_ne hij _
  · rw [List.getD_eq_default _ _ (by simpa using Nat.le_of_not_lt hj),
      List.getD_eq_default _ _ (Nat.le_of_not_lt hj)]

theorem firstMinTotalCostIdx_spec (ca : List CostAnalysisResult)
    (h : ca ≠ []) :
    firstMinTotalCostIdx ca < ca.length ∧
    (∀ j, j < ca.length →
      (ca.getD (firstMinTotalCostIdx ca) caDefault).totalCost ≤
        (ca.getD j caDefault).totalCost) ∧
    (∀ j, j < firstMinTotalCostIdx ca →
      (ca.getD (firstMinTotalCostIdx ca) caDefault).totalCost <
        (ca.getD j caDefault).totalCost) := by
  have hlen : 0 < ca.length := List.length_pos.2 h
  unfold firstMinTotalCostIdx
  suffices H : ∀ n, 0 < n → n ≤ ca.length →
      ((List.range n).foldl (fun minIndex index =>
        if (ca.getD index caDefault).totalCost <
           (ca.getD minIndex caDefault).totalCost then index else minIndex) 0 < n ∧
      (∀ j, j < n →
        (ca.getD ((List.range n).foldl (fun minIndex index =>
          if (ca.getD index caDefault).totalCost <
             (ca.getD minIndex caDefault).totalCost then index else minIndex) 0)
          caDefault).totalCost ≤ (ca.getD j caDefault).totalCost) ∧
      (∀ j, j < (List.range n).foldl (fun minIndex index =>
          if (ca.getD index caDefault).totalCost <
             (ca.getD minIndex caDefault).totalCost then index else minIndex) 0 →
        (ca.getD ((List.range n).foldl (fun minIndex index =>
          if (ca.getD index caDefault).totalCost <
             (ca.getD minIndex caDefault).totalCost then index else minIndex) 0)
          caDefault).totalCost < (ca.getD j caDefault).totalCost)) by
    obtain ⟨h1, h2, h3⟩ := H ca.length hlen (le_refl _)
    exact ⟨h1, h2, h3⟩
  intro n
  induction n with
  | zero => intro h0; exact absurd h0 (lt_irrefl 0)
  | succ n ih =>
    intro _ hle
    rw [List.range_succ, List.foldl_append, List.foldl_cons, List.foldl_nil]
    by_cases hn : 0 < n
    · obtain ⟨ih1, ih2, ih3⟩ := ih hn (Nat.le_of_succ_le hle)
      set F := (List.range n).foldl (fun minIndex index =>
        if (ca.getD index caDefault).totalCost <
           (ca.getD minIndex caDefault).totalCost then index else minIndex) 0 with hF
      by_cases hlt : (ca.getD n caDefault).totalCost < (ca.getD F caDefault).totalCost
      · rw [if_pos hlt]
        refine ⟨Nat.lt_succ_self n, ?_, ?_⟩
        · intro j hj
          rcases Nat.lt_succ_iff_lt_or_eq.1 hj with hj2 | rfl
          · exact le_trans (le_of_lt hlt) (ih2 j hj2)
          · exact le_refl _
        · intro j hj
          exact lt_of_lt_of_le hlt (ih2 j hj)
      · rw [if_neg hlt]
        refine ⟨Nat.lt_succ_of_lt ih1, ?_, ih3⟩
        intro j hj
        rcases Nat.lt_succ_iff_lt_or_eq.1 hj with hj2 | rfl
        · exact ih2 j hj2
        · exact le_of_not_lt hlt
    · have hn0 : n = 0 := Nat.eq_zero_of_not_pos hn
      subst hn0
      simp only [List.range_zero, List.foldl_nil]
      rw [if_neg (lt_irrefl _)]
      refine ⟨Nat.zero_lt_one, ?_, ?_⟩
      · intro j hj
        have : j = 0 := Nat.lt_one_iff.1 hj
        subst this
        exact le_refl _
      · intro j hj
        exact absurd hj (Nat.not_lt_zero j)

theorem optimum_mark_spec (ca : List CostAnalysisResult) (hne : ca ≠ [])
    (hfalse : AllFalse ca) :
    ∃ i, i < (ca.set (firstMinTotalCostIdx ca)
        { ca.getD (firstMinTotalCostIdx ca) caDefault with isOptimum := true }).length ∧
      (((ca.set (firstMinTotalCostIdx ca)
        { ca.getD (firstMinTotalCostIdx ca) caDefault with isOptimum := true }).getD i
          caDefault).isOptimum = true) ∧
      (∀ j, j < (ca.set (firstMinTotalCostIdx ca)
        { ca.getD (firstMinTotalCostIdx ca) caDefault with isOptimum := true }).length →
        j ≠ i →
        ((ca.set (firstMinTotalCostIdx ca)
          { ca.getD (firstMinTotalCostIdx ca) caDefault with isOptimum := true }).getD j
            caDefault).isOptimum = false) ∧
      (∀ j, j < (ca.set (firstMinTotalCostIdx ca)
        { ca.getD (firstMinTotalCostIdx ca) caDefault with isOptimum := true }).length →
        ((ca.set (firstMinTotalCostIdx ca)
          { ca.getD (firstMinTotalCostIdx ca) caDefault with isOptimum := true }).getD i
            caDefault).totalCost ≤
          ((ca.set (firstMinTotalCostIdx ca)
            { ca.getD (firstMinTotalCostIdx ca) caDefault with isOptimum := true }).getD j
              caDefault).totalCost) ∧
      (∀ j, j < i →
        ((ca.set (firstMinTotalCostIdx ca)
          { ca.getD (firstMinTotalCostIdx ca) caDefault with isOptimum := true }).getD i
            caDefault).totalCost <
          ((ca.set (firstMinTotalCostIdx ca)
            { ca.getD (firstMinTotalCostIdx ca) caDefault with isOptimum := true }).getD j
              caDefault).totalCost) := by
  obtain ⟨hlt, hmin, hfirst⟩ := firstMinTotalCostIdx_spec ca hne
  set i := firstMinTotalCostIdx ca with hi
  set v : CostAnalysisResult :=
    { ca.getD i caDefault with isOptimum := true } with hv
  have hgi : (ca.set i v).getD i caDefault = v := getD_set_self hlt v
  have hvt : v.totalCost = (ca.getD i caDefault).totalCost := rfl
  refine ⟨i, ?_, ?_, ?_, ?_, ?_⟩
  · rw [List.length_set]; exact hlt
  · rw [hgi]
  · intro j hj hji
    rw [getD_set_ne (fun he => hji he.symm) v]
    rw [List.length_set] at hj
    rw [List.getD_eq_getElem _ _ hj]
    exact hfalse _ (List.getElem_mem _)
  · intro j hj
    rw [List.length_set] at hj
    rw [hgi, hvt]
    by_cases hji : i = j
    · have hgj : (ca.set i v).getD j caDefault = v := by
        rw [← hji]; exact hgi
      rw [hgj, hvt]
    · rw [getD_set_ne hji v]
      exact hmin j hj
  · intro j hj
    rw [hgi, hvt, getD_set_ne (Nat.ne_of_gt hj) v]
    exact hfirst j hj

theorem crashProject_eq (tasks : List CrashTask)
    (indirectCost reductionPerUnit : ℚ) :
    crashProject tasks indirectCost reductionPerUnit =
      { crashedTasks := (cpFinalState tasks indirectCost reductionPerUnit).crashedTasks,
        paths := (cpFinalState tasks indirectCost reductionPerUnit).paths,
        criticalPaths := (cpFinalState tasks indirectCost reductionPerUnit).criticalPaths,
        costAnalysis := (cpFinalState tasks indirectCost reductionPerUnit).costAnalysis.set
          (firstMinTotalCostIdx
            (cpFinalState tasks indirectCost reductionPerUnit).costAnalysis)
          { (cpFinalState tasks indirectCost reductionPerUnit).costAnalysis.getD
              (firstMinTotalCostIdx
                (cpFinalState tasks indirectCost reductionPerUnit).costAnalysis)
              caDefault with isOptimum := true } } := rfl

theorem cpFinalState_optInv (tasks : List CrashTask)
    (indirectCost reductionPerUnit : ℚ) :
    OptInv (cpFinalState tasks indirectCost reductionPerUnit) := by
  refine optInv_preserved indirectCost reductionPerUnit (cpInitialDuration tasks)
    (cpInitialTasksState tasks) (crashFuel tasks)
    (cpInitialState tasks indirectCost) ⟨?_, ?_⟩
  · intro h
    exact List.cons_ne_nil _ _ h
  · intro cc hcc
    rw [List.mem_singleton.1 hcc]
    rfl

theorem getD_map_proj {α : Type} (f : CostAnalysisResult → α)
    (l : List CostAnalysisResult) (j : ℕ) (d : CostAnalysisResult) :
    (l.map f).getD j (f d) = f (l.getD j d) := by
  induction l generalizing j with
  | nil => cases j <;> rfl
  | cons x xs ih =>
    cases j with
    | zero => rfl
    | succ n => exact ih n

theorem getD_proj_of_map_eq {α : Type} (f : CostAnalysisResult → α)
    {l l2 : List CostAnalysisResult} (hmap : l.map f = l2.map f)
    (j : ℕ) (d : CostAnalysisResult) :
    f (l.getD j d) = f (l2.getD j d) := by
  rw [← getD_map_proj f l j d, ← getD_map_proj f l2 j d, hmap]

theorem getD_set_optimum_proj {α : Type} (f : CostAnalysisResult → α)
    (hf : ∀ x, f { x with isOptimum := true } = f x)
    (ca : List CostAnalysisResult) (k j : ℕ) (hk : k < ca.length) :
    f ((ca.set k { ca.getD k caDefault with isOptimum := true }).getD j caDefault) =
      f (ca.getD j caDefault) := by
  by_cases hkj : k = j
  · subst hkj
    rw [getD_set_self hk]
    exact hf _
  · rw [getD_set_ne hkj]

theorem getD_last_of_getLast? {α : Type} {l : List α} {x : α}
    (hx : l.getLast? = some x) (d : α) :
    l.getD (l.length - 1) d = x := by
  cases l with
  | nil => cases hx
  | cons y ys =>
    have hne : (y :: ys : List α) ≠ [] := List.cons_ne_nil _ _
    have hlt : (y :: ys).length - 1 < (y :: ys).length := by
      simp only [List.length_cons]
      omega
    rw [List.getD_eq_getElem _ _ hlt]
    rw [List.getLast?_eq_getLast _ hne] at hx
    have := List.getLast_eq_getElem (l := y :: ys) hne
    rw [this] at hx
    exact (Option.some.inj hx)

theorem getLastD_eq_getD_of_ne {l : List CostAnalysisResult}
    (h : l ≠ []) (d : CostAnalysisResult) :
    l.getLastD d = l.getD (l.length - 1) d := by
  obtain ⟨x, hx⟩ := Option.isSome_iff_exists.1 (List.getLast?_isSome.2 h)
  rw [getD_last_of_getLast? hx d, List.getLastD_eq_getLast?, hx]
  rfl

/-- The cost-row recurrence recorded by the crashing loop: each later row's
direct cost extends the previous one by the row's own crash cost, and that
crash cost is the slope of one of the tasks crashed in the step, read from
the snapshot preceding the step. -/
def CAInvP (ca : List CostAnalysisResult) (snaps : List (List CrashTask)) : Prop :=
  ∀ i, i + 1 < ca.length →
    ((ca.getD (i + 1) caDefault).directCost =
      (ca.getD i caDefault).directCost + (ca.getD (i + 1) caDefault).crashCost) ∧
    ∃ tid t, tid ∈ (ca.getD (i + 1) caDefault).crashedActivities ∧
      (snaps.getD i []).find? (fun u => u.id = tid) = some t ∧
      (ca.getD (i + 1) caDefault).crashCost = slopeOrZero t

/-- Loop invariant for the cost recurrence: the cost table and the snapshot
history stay aligned, the last snapshot is the current task state, and the
recurrence holds. -/
def C2Inv (s : LoopState) : Prop :=
  s.costAnalysis ≠ [] ∧
  s.costAnalysis.length = s.crashedTasks.length ∧
  s.crashedTasks.getLast? = some s.currentTasks ∧
  CAInvP s.costAnalysis s.crashedTasks

theorem c2Inv_preserved (a b c : ℚ) (d : List CrashTask) :
    ∀ fuel s, C2Inv s → C2Inv (crashLoop a b c d fuel s) := by
  refine crashLoop_inv C2Inv a b c d ?_ ?_
  · intro s s' hstep ⟨hne, hlen, hlast, hca⟩
    rcases crashStep_halt_spec hstep with rfl | rfl
    · exact ⟨hne, hlen, hlast, hca⟩
    · refine ⟨?_, ?_, hlast, ?_⟩
      · intro h0
        have h0' : markLastCrashPoint s.costAnalysis = [] := h0
        have h1 := markLastCrashPoint_length s.costAnalysis
        rw [h0'] at h1
        exact hne (List.length_eq_zero.1 h1.symm)
      · show (markLastCrashPoint s.costAnalysis).length = _
        rw [markLastCrashPoint_length]
        exact hlen
      · intro i hi
        have hi2 : i + 1 < s.costAnalysis.length := by
          have h1 := markLastCrashPoint_length s.costAnalysis
          have hi3 : i + 1 < (markLastCrashPoint s.costAnalysis).length := hi
          rw [h1] at hi3
          exact hi3
        obtain ⟨h1, tid, t, h2, h3, h4⟩ := hca i hi2
        have hdc : ∀ j dd, ((markLastCrashPoint s.costAnalysis).getD j dd).directCost =
            (s.costAnalysis.getD j dd).directCost := fun j dd =>
          getD_proj_of_map_eq (fun c0 => c0.directCost)
            (markLastCrashPoint_proj (fun c0 => c0.directCost)
              (fun c0 => rfl) s.costAnalysis) j dd
        have hcc : ∀ j dd, ((markLastCrashPoint s.costAnalysis).getD j dd).crashCost =
            (s.costAnalysis.getD j dd).crashCost := fun j dd =>
          getD_proj_of_map_eq (fun c0 => c0.crashCost)
            (markLastCrashPoint_proj (fun c0 => c0.crashCost)
              (fun c0 => rfl) s.costAnalysis) j dd
        have hac : ∀ j dd,
            ((markLastCrashPoint s.costAnalysis).getD j dd).crashedActivities =
            (s.costAnalysis.getD j dd).crashedActivities := fun j dd =>
          getD_proj_of_map_eq (fun c0 => c0.crashedActivities)
            (markLastCrashPoint_proj (fun c0 => c0.crashedActivities)
              (fun c0 => rfl) s.costAnalysis) j dd
        refine ⟨?_, tid, t, ?_, h3, ?_⟩
        · show ((markLastCrashPoint s.costAnalysis).getD (i + 1) caDefault).directCost =
            ((markLastCrashPoint s.costAnalysis).getD i caDefault).directCost +
            ((markLastCrashPoint s.costAnalysis).getD (i + 1) caDefault).crashCost
          rw [hdc (i + 1) caDefault, hdc i caDefault, hcc (i + 1) caDefault]
          exact h1
        · show tid ∈
            ((markLastCrashPoint s.costAnalysis).getD (i + 1) caDefault).crashedActivities
          rw [hac (i + 1) caDefault]
          exact h2
        · show ((markLastCrashPoint s.costAnalysis).getD (i + 1) caDefault).crashCost =
            slopeOrZero t
          rw [hcc (i + 1) caDefault]
          exact h4
  · intro s s' hstep ⟨hne, hlen, hlast, hca⟩
    obtain ⟨nts, ids, rep, hcs, rfl⟩ := crashStep_next_spec hstep
    obtain ⟨hfind, _, hidmem, _, _⟩ := hcs
    have hsne : s.crashedTasks ≠ [] := by
      intro h0
      rw [h0] at hlast
      cases hlast
    have hcane : 0 < s.costAnalysis.length := List.length_pos.2 hne
    refine ⟨by simp, by simp [hlen], by simp, ?_⟩
    intro i hi
    simp only [List.length_append, List.length_cons, List.length_nil] at hi
    by_cases hilt : i + 1 < s.costAnalysis.length
    · have hi0 : i < s.costAnalysis.length := Nat.lt_of_succ_lt hilt
      have his : i < s.crashedTasks.length := hlen ▸ hi0
      obtain ⟨h1, tid, t, h2, h3, h4⟩ := hca i hilt
      rw [List.getD_append _ _ _ _ hilt, List.getD_append _ _ _ _ hi0,
        List.getD_append _ _ _ _ his]
      exact ⟨h1, tid, t, h2, h3, h4⟩
    · have hieq : i + 1 = s.costAnalysis.length := by omega
      have hi0 : i < s.costAnalysis.length := by omega
      have his : i < s.crashedTasks.length := hlen ▸ hi0
      have hgetnew : (s.costAnalysis ++
          [stepEntry a b c s rep ids (stepNewMax nts)]).getD (i + 1) caDefault =
          stepEntry a b c s rep ids (stepNewMax nts) := by
        rw [List.getD_append_right _ _ _ _ (le_of_eq hieq.symm), hieq]
        simp
      have hgetold : (s.costAnalysis ++
          [stepEntry a b c s rep ids (stepNewMax nts)]).getD i caDefault =
          s.costAnalysis.getD i caDefault :=
        List.getD_append _ _ _ _ hi0
      have hsnap : (s.crashedTasks ++ [nts]).getD i [] = s.currentTasks := by
        rw [List.getD_append _ _ _ _ his]
        have hieq2 : i = s.crashedTasks.length - 1 := by omega
        rw [hieq2]
        exact getD_last_of_getLast? hlast []
      have hlastd : s.costAnalysis.getLastD caDefault =
          s.costAnalysis.getD i caDefault := by
        rw [getLastD_eq_getD_of_ne hne]
        have : s.costAnalysis.length - 1 = i := by omega
        rw [this]
      refine ⟨?_, rep.id, rep, ?_, ?_, ?_⟩
      · rw [hgetnew, hgetold]
        show (s.costAnalysis.getLastD caDefault).directCost + slopeOrZero rep = _
        rw [hlastd]
        rfl
      · rw [hgetnew]
        exact hidmem
      · rw [hsnap]
        exact hfind
      · rw [hgetnew]
        rfl

theorem cpFinalState_c2Inv (tasks : List CrashTask)
    (indirectCost reductionPerUnit : ℚ) :
    C2Inv (cpFinalState tasks indirectCost reductionPerUnit) := by
  refine c2Inv_preserved indirectCost reductionPerUnit (cpInitialDuration tasks)
    (cpInitialTasksState tasks) (crashFuel tasks)
    (cpInitialState tasks indirectCost) ⟨?_, ?_, ?_, ?_⟩
  · intro h
    exact List.cons_ne_nil _ _ h
  · rfl
  · rfl
  · intro i hi
    have hi2 : i + 1 < 1 := hi
    exact absurd hi2 (by omega)

theorem qint_one_le {q : ℚ} (h : q.den = 1) (hpos : 0 < q) : 1 ≤ q := by
  have hq : (q.num : ℚ) = q := Rat.coe_int_num_of_den_eq_one h
  have hnum : 0 < q.num := Rat.num_pos.mpr hpos
  have h2 : (1 : ℚ) ≤ (q.num : ℚ) := by exact_mod_cast hnum
  linarith

theorem qint_sub_one {q : ℚ} (h : q.den = 1) : (q - 1).den = 1 := by
  have hq : (q.num : ℚ) = q := Rat.coe_int_num_of_den_eq_one h
  have h2 : q - 1 = ((q.num - 1 : ℤ) : ℚ) := by push_cast; linarith
  rw [h2]
  exact Rat.den_intCast _

/-- Task-level invariant of the crashing loop under integral capacities:
the remaining capacity is exactly `duration - crashTime`, it is an integer,
and the duration has not dropped below the crash time. -/
def TaskOK (t : CrashTask) : Prop :=
  t.crashTime ≤ t.duration ∧
  t.maxCrashTime = some (t.duration - t.crashTime) ∧
  (t.duration - t.crashTime).den = 1

theorem taskOK_decrement1 {t : CrashTask} (h : TaskOK t)
    (hc : isCrashable t = true) : TaskOK (decrement1 t) := by
  obtain ⟨h1, h2, h3⟩ := h
  have hpos : 0 < t.duration - t.crashTime := by
    simp only [isCrashable, h2, decide_eq_true_eq] at hc
    exact hc
  have hone : 1 ≤ t.duration - t.crashTime := qint_one_le h3 hpos
  refine ⟨?_, ?_, ?_⟩
  · show t.crashTime ≤ t.duration - 1
    linarith
  · show some (t.maxCrashTime.getD 0 - 1) = some (t.duration - 1 - t.crashTime)
    rw [h2]
    show some (t.duration - t.crashTime - 1) = _
    rw [sub_right_comm]
  · show (t.duration - 1 - t.crashTime).den = 1
    rw [sub_right_comm]
    exact qint_sub_one h3

theorem nextRel_taskOK {cur nts : List CrashTask} (hrel : NextRel cur nts)
    (hcur : ∀ t ∈ cur, TaskOK t) : ∀ t ∈ nts, TaskOK t := by
  intro t ht
  obtain ⟨j, hj, hor⟩ := hrel.mem t ht
  rcases hor with he | ⟨hc, he⟩
  · rw [he]
    exact hcur _ (List.get_mem cur j hj)
  · rw [he]
    exact taskOK_decrement1 (hcur _ (List.get_mem cur j hj)) hc

theorem commitShape_nextRel {s : LoopState} {nts : List CrashTask}
    {ids : List String} {rep : CrashTask}
    (hnodup : (s.currentTasks.map (fun t => t.id)).Nodup)
    (hcs : CommitShape s nts ids rep) : NextRel s.currentTasks nts := by
  obtain ⟨hfind, hcr, _, hbranch, _⟩ := hcs
  rcases hbranch with he | ⟨picked, st0, st1, strest, _, hcomb, he⟩
  · rw [he]
    exact updateFirst_nextRel hfind hcr
  · rw [he]
    refine mergeStates_nextRel hnodup ?_ ?_
    · exact combStates_nextRel s.currentTasks picked st0
        (by rw [hcomb]; exact List.mem_cons_self _ _)
    · intro st hst
      exact combStates_nextRel s.currentTasks picked st
        (by rw [hcomb]; exact List.mem_cons_of_mem _ hst)

/-- Loop invariant for the history claim: current task ids stay nodup,
current tasks satisfy the task invariant, and so does every task in every
recorded snapshot. -/
def C8Inv (s : LoopState) : Prop :=
  (s.currentTasks.map (fun t => t.id)).Nodup ∧
  (∀ t ∈ s.currentTasks, TaskOK t) ∧
  (∀ snap ∈ s.crashedTasks, ∀ t ∈ snap, TaskOK t)

theorem c8Inv_preserved (a b c : ℚ) (d : List CrashTask) :
    ∀ fuel s, C8Inv s → C8Inv (crashLoop a b c d fuel s) := by
  refine crashLoop_inv C8Inv a b c d ?_ ?_
  · intro s s' hstep ⟨hnodup, hcur, hhist⟩
    rcases crashStep_halt_spec hstep with rfl | rfl
    · exact ⟨hnodup, hcur, hhist⟩
    · exact ⟨hnodup, hcur, hhist⟩
  · intro s s' hstep ⟨hnodup, hcur, hhist⟩
    obtain ⟨nts, ids, rep, hcs, rfl⟩ := crashStep_next_spec hstep
    have hrel : NextRel s.currentTasks nts := commitShape_nextRel hnodup hcs
    have hnts : ∀ t ∈ nts, TaskOK t := nextRel_taskOK hrel hcur
    refine ⟨?_, hnts, ?_⟩
    · show (nts.map (fun t => t.id)).Nodup
      rw [hrel.map_id]
      exact hnodup
    · intro snap hsnap
      rcases List.mem_append.1 hsnap with h1 | h2
      · exact hhist snap h1
      · rw [List.mem_singleton.1 h2]
        exact hnts

theorem cpInitialTasksState_map_id (tasks : List CrashTask) :
    ((cpInitialTasksState tasks).map (fun t => t.id)) =
      tasks.map (fun t => t.id) := by
  show ((tasks.map (fun t => { t with duration := t.normalTime })).map
    (fun t => t.id)) = _
  rw [List.map_map]
  rfl

theorem cpInitialState_c8Inv (tasks : List CrashTask) (indirectCost : ℚ)
    (hnodup : (tasks.map (fun t => t.id)).Nodup)
    (hok : ∀ t ∈ tasks, t.maxCrashTime = some (t.normalTime - t.crashTime) ∧
      t.crashTime ≤ t.normalTime ∧ (t.normalTime - t.crashTime).den = 1) :
    C8Inv (cpInitialState tasks indirectCost) := by
  have hcur : ∀ t ∈ cpInitialTasksState tasks, TaskOK t := by
    intro t2 ht2
    obtain ⟨t, ht, rfl⟩ := List.mem_map.1 ht2
    obtain ⟨h1, h2, h3⟩ := hok t ht
    exact ⟨h2, h1, h3⟩
  refine ⟨?_, hcur, ?_⟩
  · show ((cpInitialTasksState tasks).map (fun t => t.id)).Nodup
    rw [cpInitialTasksState_map_id]
    exact hnodup
  · intro snap hsnap
    rw [List.mem_singleton.1 hsnap]
    exact hcur

theorem cpFinalState_c8Inv (tasks : List CrashTask)
    (indirectCost reductionPerUnit : ℚ)
    (hnodup : (tasks.map (fun t => t.id)).Nodup)
    (hok : ∀ t ∈ tasks, t.maxCrashTime = some (t.normalTime - t.crashTime) ∧
      t.crashTime ≤ t.normalTime ∧ (t.normalTime - t.crashTime).den = 1) :
    C8Inv (cpFinalState tasks indirectCost reductionPerUnit) :=
  c8Inv_preserved indirectCost reductionPerUnit (cpInitialDuration tasks)
    (cpInitialTasksState tasks) (crashFuel tasks)
    (cpInitialState tasks indirectCost)
    (cpInitialState_c8Inv tasks indirectCost hnodup hok)

/-- The dependency skeleton of a task list: ids and predecessor edges,
which is all the path enumeration reads. -/
def skeleton (ts : List CrashTask) : List (String × List Predecessor) :=
  ts.map (fun t => (t.id, t.predecessors))

theorem NextRel.skeleton_eq {cur nts : List CrashTask} (h : NextRel cur nts) :
    skeleton nts = skeleton cur := by
  obtain ⟨hlen, hpt⟩ := h
  apply List.ext_getElem (by simpa [skeleton] using hlen)
  intro j h1 h2
  simp only [skeleton, List.getElem_map]
  rcases hpt j (by simpa [skeleton] using h2) (by simpa [skeleton] using h1)
    with he | ⟨_, he⟩
  · simp only [List.get_eq_getElem] at he
    rw [he]
  · simp only [List.get_eq_getElem] at he
    rw [he]
    rfl

theorem filter_map_skel {A B : String × List Predecessor → Bool}
    (hF : ∀ b, A b = B b) {γ : Type} (G : String × List Predecessor → γ)
    {l1 l2 : List CrashTask} (h : skeleton l1 = skeleton l2) :
    (l1.filter (fun t => A (t.id, t.predecessors))).map
      (fun t => G (t.id, t.predecessors)) =
    (l2.filter (fun t => B (t.id, t.predecessors))).map
      (fun t => G (t.id, t.predecessors)) := by
  induction l1 generalizing l2 with
  | nil =>
    cases l2 with
    | nil => rfl
    | cons b bs => cases h
  | cons a as ih =>
    cases l2 with
    | nil => cases h
    | cons b bs =>
      have h1 : (a.id, a.predecessors) = (b.id, b.predecessors) := by
        have := congrArg List.head? h
        simpa [skeleton] using this
      have h2 : skeleton as = skeleton bs := by
        have := congrArg List.tail h
        simpa [skeleton] using this
      by_cases hf : A (a.id, a.predecessors)
      · rw [List.filter_cons_of_pos (by simpa using hf),
          List.filter_cons_of_pos (by simp only [← h1, ← hF]; simpa using hf)]
        simp only [List.map_cons]
        rw [h1, ih h2]
      · rw [List.filter_cons_of_neg (by simpa using hf),
          List.filter_cons_of_neg (by simp only [← h1, ← hF]; simpa using hf)]
        exact ih h2

theorem any_skel {F : String × List Predecessor → Bool}
    {l1 l2 : List CrashTask} (h : skeleton l1 = skeleton l2) :
    l1.any (fun t => F (t.id, t.predecessors)) =
      l2.any (fun t => F (t.id, t.predecessors)) := by
  induction l1 generalizing l2 with
  | nil =>
    cases l2 with
    | nil => rfl
    | cons b bs => cases h
  | cons a as ih =>
    cases l2 with
    | nil => cases h
    | cons b bs =>
      have h1 : (a.id, a.predecessors) = (b.id, b.predecessors) := by
        have := congrArg List.head? h
        simpa [skeleton] using this
      have h2 : skeleton as = skeleton bs := by
        have := congrArg List.tail h
        simpa [skeleton] using this
      simp only [List.any_cons]
      rw [h1, ih h2]

theorem foldl_congr_ids {f1 f2 : List CrashPath → String → List CrashPath}
    (hf : ∀ acc s, f1 acc s = f2 acc s) {l1 l2 : List CrashTask}
    (h : l1.map (fun t => t.id) = l2.map (fun t => t.id)) :
    ∀ acc, l1.foldl (fun acc t => f1 acc t.id) acc =
      l2.foldl (fun acc t => f2 acc t.id) acc := by
  induction l1 generalizing l2 with
  | nil =>
    cases l2 with
    | nil => intro acc; rfl
    | cons b bs => cases h
  | cons a as ih =>
    cases l2 with
    | nil => cases h
    | cons b bs =>
      intro acc
      injection h with h1 h2
      have h1' : a.id = b.id := h1
      simp only [List.foldl_cons]
      rw [hf acc a.id, h1', ih h2]

theorem findPaths_skeleton {ts1 ts2 : List CrashTask}
    (hsk : skeleton ts1 = skeleton ts2) :
    ∀ fuel cur path vis acc,
      findPaths ts1 fuel cur path vis acc = findPaths ts2 fuel cur path vis acc := by
  intro fuel
  induction fuel with
  | zero => intro cur path vis acc; rfl
  | succ n ih =>
    intro cur path vis acc
    show (if cur ∈ vis then acc else
      if ts1.filter (fun t =>
          t.predecessors.any (fun p => p.taskId = cur)) = [] then
        acc ++ [{ tasks := path ++ [cur], durations := [0], isCritical := false }]
      else
        (ts1.filter (fun t =>
          t.predecessors.any (fun p => p.taskId = cur))).foldl (fun acc t =>
            findPaths ts1 n t.id (path ++ [cur]) (cur :: vis) acc) acc) =
      (if cur ∈ vis then acc else
      if ts2.filter (fun t =>
          t.predecessors.any (fun p => p.taskId = cur)) = [] then
        acc ++ [{ tasks := path ++ [cur], durations := [0], isCritical := false }]
      else
        (ts2.filter (fun t =>
          t.predecessors.any (fun p => p.taskId = cur))).foldl (fun acc t =>
            findPaths ts2 n t.id (path ++ [cur]) (cur :: vis) acc) acc)
    by_cases hv : cur ∈ vis
    · rw [if_pos hv, if_pos hv]
    · rw [if_neg hv, if_neg hv]
      have hmap : (ts1.filter (fun t =>
          t.predecessors.any (fun p => p.taskId = cur))).map (fun t => t.id) =
        (ts2.filter (fun t =>
          t.predecessors.any (fun p => p.taskId = cur))).map (fun t => t.id) :=
        filter_map_skel (A := fun b => b.2.any (fun p => p.taskId = cur))
          (B := fun b => b.2.any (fun p => p.taskId = cur)) (fun b => rfl)
          (fun b => b.1) hsk
      have hemp : (ts1.filter (fun t =>
          t.predecessors.any (fun p => p.taskId = cur)) = []) ↔
        (ts2.filter (fun t =>
          t.predecessors.any (fun p => p.taskId = cur)) = []) := by
        constructor
        · intro h0
          rw [h0] at hmap
          exact List.map_eq_nil.1 hmap.symm
        · intro h0
          rw [h0] at hmap
          exact List.map_eq_nil.1 hmap
      by_cases he : ts1.filter (fun t =>
          t.predecessors.any (fun p => p.taskId = cur)) = []
      · rw [if_pos he, if_pos (hemp.1 he)]
      · rw [if_neg he, if_neg (fun h0 => he (hemp.2 h0))]
        exact foldl_congr_ids
          (fun acc2 s => ih s (path ++ [cur]) (cur :: vis) acc2) hmap acc

/-- The raw path enumeration of `calculateAllPaths`, before the duration
computation. -/
def rawPaths (ts : List CrashTask) : List CrashPath :=
  (ts.filter (fun t => t.predecessors = [])).foldl (fun acc s =>
    findPaths ts (ts.length + 1) s.id [] [] acc) []

theorem calculateAllPaths_eq (ts : List CrashTask) :
    calculateAllPaths ts =
      if ts.filter (fun t => t.predecessors = []) = [] then []
      else if ts.filter (fun t =>
          ¬ ts.any (fun u => u.predecessors.any (fun p => p.taskId = t.id))) = [] then []
      else calculatePathDurations (rawPaths ts) ts := rfl

theorem skeleton_length {ts1 ts2 : List CrashTask}
    (hsk : skeleton ts1 = skeleton ts2) : ts1.length = ts2.length := by
  have := congrArg List.length hsk
  simpa [skeleton] using this

theorem rawPaths_skeleton {ts1 ts2 : List CrashTask}
    (hsk : skeleton ts1 = skeleton ts2) : rawPaths ts1 = rawPaths ts2 := by
  unfold rawPaths
  have hmap : (ts1.filter (fun t => t.predecessors = [])).map (fun t => t.id) =
      (ts2.filter (fun t => t.predecessors = [])).map (fun t => t.id) :=
    filter_map_skel (A := fun b => decide (b.2 = []))
      (B := fun b => decide (b.2 = [])) (fun b => rfl) (fun b => b.1) hsk
  rw [skeleton_length hsk]
  exact foldl_congr_ids
    (fun acc s => findPaths_skeleton hsk (ts2.length + 1) s [] [] acc) hmap []

theorem starts_empty_skeleton {ts1 ts2 : List CrashTask}
    (hsk : skeleton ts1 = skeleton ts2) :
    (ts1.filter (fun t => t.predecessors = []) = []) ↔
      (ts2.filter (fun t => t.predecessors = []) = []) := by
  have hmap : (ts1.filter (fun t => t.predecessors = [])).map (fun t => t.id) =
      (ts2.filter (fun t => t.predecessors = [])).map (fun t => t.id) :=
    filter_map_skel (A := fun b => decide (b.2 = []))
      (B := fun b => decide (b.2 = [])) (fun b => rfl) (fun b => b.1) hsk
  constructor
  · intro h0
    rw [h0] at hmap
    exact List.map_eq_nil.1 hmap.symm
  · intro h0
    rw [h0] at hmap
    exact List.map_eq_nil.1 hmap

theorem ends_empty_skeleton {ts1 ts2 : List CrashTask}
    (hsk : skeleton ts1 = skeleton ts2) :
    (ts1.filter (fun t =>
      ¬ ts1.any (fun u => u.predecessors.any (fun p => p.taskId = t.id))) = []) ↔
    (ts2.filter (fun t =>
      ¬ ts2.any (fun u => u.predecessors.any (fun p => p.taskId = t.id))) = []) := by
  have hF : ∀ b : String × List Predecessor,
      decide (¬ ts1.any (fun u => u.predecessors.any (fun p => p.taskId = b.1)) = true) =
      decide (¬ ts2.any (fun u => u.predecessors.any (fun p => p.taskId = b.1)) = true) := by
    intro b
    have h2 : ts1.any (fun u => u.predecessors.any (fun p => p.taskId = b.1)) =
        ts2.any (fun u => u.predecessors.any (fun p => p.taskId = b.1)) :=
      any_skel (F := fun c => c.2.any (fun p => p.taskId = b.1)) hsk
    rw [h2]
  have hmap : (ts1.filter (fun t =>
      ¬ ts1.any (fun u => u.predecessors.any (fun p => p.taskId = t.id)))).map
        (fun t => t.id) =
    (ts2.filter (fun t =>
      ¬ ts2.any (fun u => u.predecessors.any (fun p => p.taskId = t.id)))).map
        (fun t => t.id) :=
    filter_map_skel
      (A := fun b => decide
        (¬ ts1.any (fun u => u.predecessors.any (fun p => p.taskId = b.1)) = true))
      (B := fun b => decide
        (¬ ts2.any (fun u => u.predecessors.any (fun p => p.taskId = b.1)) = true))
      hF (fun b => b.1) hsk
  constructor
  · intro h0
    rw [h0] at hmap
    exact List.map_eq_nil.1 hmap.symm
  · intro h0
    rw [h0] at hmap
    exact List.map_eq_nil.1 hmap

/-- The maximum enumerated path duration: the quantity the fallback branch
of the recorded project duration computes. -/
def maxPathDur (ts : List CrashTask) : ℚ :=
  match (calculateAllPaths ts).map (fun p => p.durations.headD 0) with
  | [] => 0
  | d :: ds => qmax d ds

theorem calculatePathDurations_heads (paths : List CrashPath)
    (ts : List CrashTask) :
    (calculatePathDurations paths ts).map (fun p => p.durations.headD 0) =
      paths.map (fun p => sumPathDurations ts p.tasks) := by
  unfold calculatePathDurations
  simp only [List.map_map]
  rfl

theorem calculatePathDurations_tasks (paths : List CrashPath)
    (ts : List CrashTask) :
    (calculatePathDurations paths ts).map (fun p => p.tasks) =
      paths.map (fun p => p.tasks) := by
  unfold calculatePathDurations
  simp only [List.map_map]
  rfl

theorem calculatePathDurations_mem (paths : List CrashPath)
    (ts : List CrashTask) :
    ∀ p ∈ calculatePathDurations paths ts,
      p.durations = [sumPathDurations ts p.tasks] ∧
      p.isCritical = decide (|sumPathDurations ts p.tasks -
        (match (paths.map (fun p =>
            { p with durations := [sumPathDurations ts p.tasks] })).map
              (fun p => p.durations.headD 0) with
         | [] => 0
         | d :: ds => qmax d ds)| < EPSILON) := by
  intro p hp
  unfold calculatePathDurations at hp
  obtain ⟨q1, hq1, rfl⟩ := List.mem_map.1 hp
  obtain ⟨q, _, rfl⟩ := List.mem_map.1 hq1
  exact ⟨rfl, rfl⟩

theorem pathSums_maps_eq (paths : List CrashPath) (ts : List CrashTask) :
    (paths.map (fun p =>
      { p with durations := [sumPathDurations ts p.tasks] })).map
        (fun p => p.durations.headD 0) =
      paths.map (fun q => sumPathDurations ts q.tasks) := by
  simp only [List.map_map]
  rfl

theorem qmax_mem (seed : ℚ) (l : List ℚ) :
    qmax seed l = seed ∨ qmax seed l ∈ l := by
  unfold qmax
  induction l generalizing seed with
  | nil => exact Or.inl rfl
  | cons x xs ih =>
    rw [List.foldl_cons]
    rcases ih (max seed x) with h | h
    · rcases max_choice seed x with hm | hm
      · exact Or.inl (by rw [h, hm])
      · exact Or.inr (by rw [h, hm]; exact List.mem_cons_self _ _)
    · exact Or.inr (List.mem_cons_of_mem _ h)

theorem qint_add {a b : ℚ} (ha : a.den = 1) (hb : b.den = 1) :
    (a + b).den = 1 := by
  have ha2 : (a.num : ℚ) = a := Rat.coe_int_num_of_den_eq_one ha
  have hb2 : (b.num : ℚ) = b := Rat.coe_int_num_of_den_eq_one hb
  have h2 : a + b = ((a.num + b.num : ℤ) : ℚ) := by push_cast; linarith
  rw [h2]
  exact Rat.den_intCast _

theorem qint_sub {a b : ℚ} (ha : a.den = 1) (hb : b.den = 1) :
    (a - b).den = 1 := by
  have ha2 : (a.num : ℚ) = a := Rat.coe_int_num_of_den_eq_one ha
  have hb2 : (b.num : ℚ) = b := Rat.coe_int_num_of_den_eq_one hb
  have h2 : a - b = ((a.num - b.num : ℤ) : ℚ) := by push_cast; linarith
  rw [h2]
  exact Rat.den_intCast _

theorem qint_eps_eq {x M : ℚ} (hx : x.den = 1) (hM : M.den = 1)
    (h : |x - M| < EPSILON) : x = M := by
  have hsub : (x - M).den = 1 := qint_sub hx hM
  have hs2 : ((x - M).num : ℚ) = x - M := Rat.coe_int_num_of_den_eq_one hsub
  have habs : |((x - M).num : ℚ)| < 1 := by
    rw [hs2]
    calc |x - M| < EPSILON := h
    _ < 1 := by norm_num [EPSILON]
  have habs2 : |(x - M).num| < 1 := by exact_mod_cast habs
  have hz : (x - M).num = 0 := by
    rcases abs_lt.1 habs2 with ⟨h1, h2⟩
    omega
  have : x - M = 0 := by
    rw [← hs2, hz]
    norm_num
  linarith

theorem taskMapGet_mem {ts : List CrashTask} {tid : String} {t : CrashTask}
    (h : taskMapGet ts tid = some t) : t ∈ ts :=
  List.mem_reverse.1 (List.mem_of_find?_eq_some h)

theorem sumPathDurations_den (ts : List CrashTask)
    (hden : ∀ t ∈ ts, t.duration.den = 1) (ids : List String) :
    (sumPathDurations ts ids).den = 1 := by
  unfold sumPathDurations
  suffices H : ∀ (l : List String) (acc : ℚ), acc.den = 1 →
      (l.foldl (fun total tid =>
        total + (match taskMapGet ts tid with
                 | some t => t.duration
                 | none => 0)) acc).den = 1 by
    exact H ids 0 rfl
  intro l
  induction l with
  | nil => intro acc hacc; exact hacc
  | cons tid rest ih =>
    intro acc hacc
    rw [List.foldl_cons]
    refine ih _ (qint_add hacc ?_)
    cases hfind : taskMapGet ts tid with
    | some t => exact hden t (taskMapGet_mem hfind)
    | none => rfl

theorem maxPathDur_heads_mem (ts : List CrashTask)
    (hden : ∀ t ∈ ts, t.duration.den = 1) :
    ∀ x ∈ (calculateAllPaths ts).map (fun p => p.durations.headD 0),
      x.den = 1 := by
  intro x hx
  rw [calculateAllPaths_eq ts] at hx
  by_cases h1 : ts.filter (fun t => t.predecessors = []) = []
  · rw [if_pos h1] at hx
    exact absurd hx (List.not_mem_nil x)
  · rw [if_neg h1] at hx
    by_cases h2 : ts.filter (fun t =>
        ¬ ts.any (fun u => u.predecessors.any (fun p => p.taskId = t.id))) = []
    · rw [if_pos h2] at hx
      exact absurd hx (List.not_mem_nil x)
    · rw [if_neg h2, calculatePathDurations_heads] at hx
      obtain ⟨q, _, rfl⟩ := List.mem_map.1 hx
      exact sumPathDurations_den ts hden q.tasks

theorem maxPathDur_den (ts : List CrashTask)
    (hden : ∀ t ∈ ts, t.duration.den = 1) : (maxPathDur ts).den = 1 := by
  cases hm : (calculateAllPaths ts).map (fun p => p.durations.headD 0) with
  | nil =>
    unfold maxPathDur
    rw [hm]
    rfl
  | cons d ds =>
    have hall := maxPathDur_heads_mem ts hden
    rw [hm] at hall
    have hg : maxPathDur ts = qmax d ds := by
      unfold maxPathDur
      rw [hm]
    rw [hg]
    rcases qmax_mem d ds with h | h
    · rw [h]
      exact hall d (List.mem_cons_self _ _)
    · exact hall _ (List.mem_cons_of_mem _ h)

theorem maxPathDur_eq_raw (ts : List CrashTask)
    (h1 : ts.filter (fun t => t.predecessors = []) ≠ [])
    (h2 : ts.filter (fun t =>
      ¬ ts.any (fun u => u.predecessors.any (fun p => p.taskId = t.id))) ≠ []) :
    maxPathDur ts =
      (match (rawPaths ts).map (fun q => sumPathDurations ts q.tasks) with
       | [] => 0
       | d :: ds => qmax d ds) := by
  unfold maxPathDur
  rw [calculateAllPaths_eq ts, if_neg h1, if_neg h2, calculatePathDurations_heads]

theorem crit_filter_ne_nil (ts : List CrashTask)
    (h : calculateAllPaths ts ≠ []) :
    (calculateAllPaths ts).filter (fun q => q.isCritical) ≠ [] := by
  rw [calculateAllPaths_eq ts] at h ⊢
  by_cases h1 : ts.filter (fun t => t.predecessors = []) = []
  · rw [if_pos h1] at h
    exact absurd rfl h
  · rw [if_neg h1] at h ⊢
    by_cases h2 : ts.filter (fun t =>
        ¬ ts.any (fun u => u.predecessors.any (fun p => p.taskId = t.id))) = []
    · rw [if_pos h2] at h
      exact absurd rfl h
    · rw [if_neg h2] at h ⊢
      cases hr : (rawPaths ts).map (fun q => sumPathDurations ts q.tasks) with
      | nil =>
        exfalso
        apply h
        have hraw : rawPaths ts = [] := List.map_eq_nil.1 hr
        unfold calculatePathDurations
        rw [hraw]
        rfl
      | cons s0 srest =>
        have hM : (match (rawPaths ts).map (fun q => sumPathDurations ts q.tasks) with
            | [] => 0
            | d :: ds => qmax d ds) ∈
            (rawPaths ts).map (fun q => sumPathDurations ts q.tasks) := by
          rw [hr]
          show qmax s0 srest ∈ s0 :: srest
          rcases qmax_mem s0 srest with hq | hq
          · rw [hq]
            exact List.mem_cons_self _ _
          · exact List.mem_cons_of_mem _ hq
        have hM2 : (match (rawPaths ts).map (fun q => sumPathDurations ts q.tasks) with
            | [] => 0
            | d :: ds => qmax d ds) ∈
            (calculatePathDurations (rawPaths ts) ts).map
              (fun p => p.durations.headD 0) := by
          rw [calculatePathDurations_heads]
          exact hM
        obtain ⟨p, hpmem, hphead⟩ := List.mem_map.1 hM2
        obtain ⟨hdur, hcr⟩ := calculatePathDurations_mem (rawPaths ts) ts p hpmem
        refine List.ne_nil_of_mem (List.mem_filter.2 ⟨hpmem, ?_⟩)
        show p.isCritical = true
        rw [hcr, pathSums_maps_eq]
        have hsum : sumPathDurations ts p.tasks =
            (match (rawPaths ts).map (fun q => sumPathDurations ts q.tasks) with
             | [] => 0
             | d :: ds => qmax d ds) := by
          rw [← hphead, hdur]
          rfl
        rw [hsum]
        simp only [sub_self, abs_zero, decide_eq_true_eq]
        norm_num [EPSILON]

theorem crit_head_eq_max (ts : List CrashTask)
    (hden : ∀ t ∈ ts, t.duration.den = 1) {p : CrashPath}
    (hp : ((calculateAllPaths ts).filter (fun q => q.isCritical)).head? = some p) :
    p.durations.headD 0 = maxPathDur ts := by
  have hp2 : p ∈ (calculateAllPaths ts).filter (fun q => q.isCritical) := by
    cases hfl : (calculateAllPaths ts).filter (fun q => q.isCritical) with
    | nil =>
      rw [hfl] at hp
      cases hp
    | cons a as =>
      rw [hfl] at hp
      injection hp with hp
      rw [← hp]
      exact List.mem_cons_self _ _
  obtain ⟨hpmem, hcrit⟩ := List.mem_filter.1 hp2
  rw [calculateAllPaths_eq ts] at hpmem
  by_cases h1 : ts.filter (fun t => t.predecessors = []) = []
  · rw [if_pos h1] at hpmem
    exact absurd hpmem (List.not_mem_nil p)
  · rw [if_neg h1] at hpmem
    by_cases h2 : ts.filter (fun t =>
        ¬ ts.any (fun u => u.predecessors.any (fun p => p.taskId = t.id))) = []
    · rw [if_pos h2] at hpmem
      exact absurd hpmem (List.not_mem_nil p)
    · rw [if_neg h2] at hpmem
      obtain ⟨hdur, hcr⟩ := calculatePathDurations_mem (rawPaths ts) ts p hpmem
      rw [pathSums_maps_eq] at hcr
      rw [hcr] at hcrit
      rw [decide_eq_true_eq] at hcrit
      rw [← maxPathDur_eq_raw ts h1 h2] at hcrit
      have hsden : (sumPathDurations ts p.tasks).den = 1 :=
        sumPathDurations_den ts hden p.tasks
      have hMden : (maxPathDur ts).den = 1 := maxPathDur_den ts hden
      have heq := qint_eps_eq hsden hMden hcrit
      rw [hdur]
      exact heq

theorem stepNewMax_eq_maxPathDur (ts : List CrashTask)
    (hden : ∀ t ∈ ts, t.duration.den = 1) :
    stepNewMax ts = maxPathDur ts := by
  show jsOr (((calculateAllPaths ts).filter (fun p => p.isCritical)).head?.map
      (fun p => p.durations.headD 0))
    (match (calculateAllPaths ts).map (fun p => p.durations.headD 0) with
     | [] => 0
     | d :: ds => qmax d ds) = maxPathDur ts
  cases hh : ((calculateAllPaths ts).filter (fun p => p.isCritical)).head? with
  | none => rfl
  | some p =>
    show jsOr (some (p.durations.headD 0))
      (match (calculateAllPaths ts).map (fun p => p.durations.headD 0) with
       | [] => 0
       | d :: ds => qmax d ds) = maxPathDur ts
    rw [crit_head_eq_max ts hden hh]
    show (if maxPathDur ts = 0 then
      (match (calculateAllPaths ts).map (fun p => p.durations.headD 0) with
       | [] => 0
       | d :: ds => qmax d ds) else maxPathDur ts) = maxPathDur ts
    by_cases h0 : maxPathDur ts = 0
    · rw [if_pos h0]
      rfl
    · rw [if_neg h0]

theorem initialDur_eq_maxPathDur (ts : List CrashTask)
    (hden : ∀ t ∈ ts, t.duration.den = 1) :
    jsOr (((calculateAllPaths ts).filter (fun p => p.isCritical)).head?.map
      (fun p => p.durations.headD 0)) 0 = maxPathDur ts := by
  cases hh : ((calculateAllPaths ts).filter (fun p => p.isCritical)).head? with
  | none =>
    have hfe : (calculateAllPaths ts).filter (fun p => p.isCritical) = [] := by
      cases hfl : (calculateAllPaths ts).filter (fun p => p.isCritical) with
      | nil => rfl
      | cons a as =>
        rw [hfl] at hh
        cases hh
    have hce : calculateAllPaths ts = [] := by
      by_contra hne
      exact (crit_filter_ne_nil ts hne) hfe
    have hmz : maxPathDur ts = 0 := by
      unfold maxPathDur
      rw [show (calculateAllPaths ts).map (fun p => p.durations.headD 0) = []
        from by rw [hce]; rfl]
    rw [hmz]
    rfl
  | some p =>
    show jsOr (some (p.durations.headD 0)) 0 = maxPathDur ts
    rw [crit_head_eq_max ts hden hh]
    show (if maxPathDur ts = 0 then 0 else maxPathDur ts) = maxPathDur ts
    by_cases h0 : maxPathDur ts = 0
    · rw [if_pos h0, h0]
    · rw [if_neg h0]

/-- Pointwise comparison of two task states: same ids in the same
positions, durations no larger on the left. -/
def PointwiseLE (l1 l2 : List CrashTask) : Prop :=
  l1.length = l2.length ∧
  ∀ j, ∀ hj : j < l1.length, ∀ hj2 : j < l2.length,
    (l1.get ⟨j, hj⟩).id = (l2.get ⟨j, hj2⟩).id ∧
    (l1.get ⟨j, hj⟩).duration ≤ (l2.get ⟨j, hj2⟩).duration

theorem nextRel_pointwiseLE {cur nts : List CrashTask} (h : NextRel cur nts) :
    PointwiseLE nts cur := by
  obtain ⟨hlen, hpt⟩ := h
  refine ⟨hlen, ?_⟩
  intro j hj hj2
  rcases hpt j hj2 hj with he | ⟨_, he⟩
  · rw [he]
    exact ⟨rfl, le_refl _⟩
  · rw [he]
    refine ⟨rfl, ?_⟩
    show (cur.get ⟨j, hj2⟩).duration - 1 ≤ (cur.get ⟨j, hj2⟩).duration
    linarith

theorem pointwiseLE_reverse {l1 l2 : List CrashTask} (h : PointwiseLE l1 l2) :
    PointwiseLE l1.reverse l2.reverse := by
  obtain ⟨hlen, hpt⟩ := h
  refine ⟨by simp [hlen], ?_⟩
  intro j hj hj2
  have hj3 : j < l1.length := by simpa using hj
  have hj4 : j < l2.length := by simpa using hj2
  have hk3 : l1.length - 1 - j < l1.length := by omega
  have hk4 : l2.length - 1 - j < l2.length := by omega
  have he1 : l1.reverse.get ⟨j, hj⟩ = l1.get ⟨l1.length - 1 - j, hk3⟩ := by
    simp only [List.get_eq_getElem]
    exact List.getElem_reverse _
  have he2 : l2.reverse.get ⟨j, hj2⟩ = l2.get ⟨l2.length - 1 - j, hk4⟩ := by
    simp only [List.get_eq_getElem]
    exact List.getElem_reverse _
  have hidx : l2.length - 1 - j = l1.length - 1 - j := by omega
  have hfin : (⟨l2.length - 1 - j, hk4⟩ : Fin l2.length) =
      ⟨l1.length - 1 - j, by omega⟩ := Fin.ext hidx
  rw [he1, he2, hfin]
  exact hpt (l1.length - 1 - j) hk3 (by omega)

theorem find?_pointwiseLE {l1 l2 : List CrashTask} (h : PointwiseLE l1 l2)
    (tid : String) :
    (l1.find? (fun t => t.id = tid) = none ∧
      l2.find? (fun t => t.id = tid) = none) ∨
    (∃ t1 t2, l1.find? (fun t => t.id = tid) = some t1 ∧
      l2.find? (fun t => t.id = tid) = some t2 ∧ t1.duration ≤ t2.duration) := by
  induction l1 generalizing l2 with
  | nil =>
    cases l2 with
    | nil => exact Or.inl ⟨rfl, rfl⟩
    | cons b bs => obtain ⟨hlen, _⟩ := h; cases hlen
  | cons a as ih =>
    cases l2 with
    | nil => obtain ⟨hlen, _⟩ := h; cases hlen
    | cons b bs =>
      obtain ⟨hlen, hpt⟩ := h
      have hhead : a.id = b.id ∧ a.duration ≤ b.duration :=
        hpt 0 (by simp) (by simp)
      have htail : PointwiseLE as bs := by
        refine ⟨by simpa using hlen, ?_⟩
        intro j hj hj2
        exact hpt (j + 1) (by simpa using Nat.succ_lt_succ hj)
          (by simpa using Nat.succ_lt_succ hj2)
      by_cases hid : a.id = tid
      · rw [List.find?_cons_of_pos _ (by simpa using hid),
          List.find?_cons_of_pos _ (by simp [← hhead.1, hid])]
        exact Or.inr ⟨a, b, rfl, rfl, hhead.2⟩
      · rw [List.find?_cons_of_neg _ (by simpa using hid),
          List.find?_cons_of_neg _ (by simp [← hhead.1, hid])]
        exact ih htail

theorem sumPathDurations_mono {l1 l2 : List CrashTask} (h : PointwiseLE l1 l2)
    (ids : List String) :
    sumPathDurations l1 ids ≤ sumPathDurations l2 ids := by
  unfold sumPathDurations
  suffices H : ∀ (l : List String) (acc1 acc2 : ℚ), acc1 ≤ acc2 →
      l.foldl (fun total tid =>
        total + (match taskMapGet l1 tid with
                 | some t => t.duration
                 | none => 0)) acc1 ≤
      l.foldl (fun total tid =>
        total + (match taskMapGet l2 tid with
                 | some t => t.duration
                 | none => 0)) acc2 by
    exact H ids 0 0 (le_refl 0)
  intro l
  induction l with
  | nil => intro acc1 acc2 hacc; exact hacc
  | cons tid rest ih =>
    intro acc1 acc2 hacc
    rw [List.foldl_cons, List.foldl_cons]
    refine ih _ _ ?_
    rcases find?_pointwiseLE (pointwiseLE_reverse h) tid with
      ⟨hn1, hn2⟩ | ⟨t1, t2, hs1, hs2, hle⟩
    · show acc1 + (match taskMapGet l1 tid with
        | some t => t.duration
        | none => 0) ≤ acc2 + (match taskMapGet l2 tid with
        | some t => t.duration
        | none => 0)
      have he1 : taskMapGet l1 tid = none := hn1
      have he2 : taskMapGet l2 tid = none := hn2
      rw [he1, he2]
      simpa using hacc
    · show acc1 + (match taskMapGet l1 tid with
        | some t => t.duration
        | none => 0) ≤ acc2 + (match taskMapGet l2 tid with
        | some t => t.duration
        | none => 0)
      have he1 : taskMapGet l1 tid = some t1 := hs1
      have he2 : taskMapGet l2 tid = some t2 := hs2
      rw [he1, he2]
      show acc1 + t1.duration ≤ acc2 + t2.duration
      linarith

theorem qmax_mono : ∀ {xs ys : List ℚ}, List.Forall₂ (· ≤ ·) xs ys →
    ∀ {a1 a2 : ℚ}, a1 ≤ a2 → xs.foldl max a1 ≤ ys.foldl max a2 := by
  intro xs ys h
  induction h with
  | nil => intro a1 a2 h12; exact h12
  | cons hxy _ ih =>
    intro a1 a2 h12
    rw [List.foldl_cons, List.foldl_cons]
    exact ih (max_le_max h12 hxy)

theorem forall₂_map_same {α : Type} (f g : α → ℚ) (h : ∀ x, f x ≤ g x) :
    ∀ l : List α, List.Forall₂ (· ≤ ·) (l.map f) (l.map g) := by
  intro l
  induction l with
  | nil => exact List.Forall₂.nil
  | cons a as ih => exact List.Forall₂.cons (h a) ih

theorem maxPathDur_mono {cur nts : List CrashTask} (hrel : NextRel cur nts) :
    maxPathDur nts ≤ maxPathDur cur := by
  have hsk : skeleton nts = skeleton cur := hrel.skeleton_eq
  have hple : PointwiseLE nts cur := nextRel_pointwiseLE hrel
  unfold maxPathDur
  rw [calculateAllPaths_eq nts, calculateAllPaths_eq cur]
  by_cases h1 : cur.filter (fun t => t.predecessors = []) = []
  · rw [if_pos h1, if_pos ((starts_empty_skeleton hsk).2 h1)]
  · rw [if_neg h1, if_neg (fun h0 => h1 ((starts_empty_skeleton hsk).1 h0))]
    by_cases h2 : cur.filter (fun t =>
        ¬ cur.any (fun u => u.predecessors.any (fun p => p.taskId = t.id))) = []
    · rw [if_pos h2, if_pos ((ends_empty_skeleton hsk).2 h2)]
    · rw [if_neg h2, if_neg (fun h0 => h2 ((ends_empty_skeleton hsk).1 h0))]
      rw [calculatePathDurations_heads, calculatePathDurations_heads,
        rawPaths_skeleton hsk]
      cases hraw : rawPaths cur with
      | nil => exact le_refl 0
      | cons q qs =>
        show qmax (sumPathDurations nts q.tasks)
            (qs.map (fun q2 => sumPathDurations nts q2.tasks)) ≤
          qmax (sumPathDurations cur q.tasks)
            (qs.map (fun q2 => sumPathDurations cur q2.tasks))
        unfold qmax
        exact qmax_mono
          (forall₂_map_same _ _ (fun x => sumPathDurations_mono hple x.tasks) qs)
          (sumPathDurations_mono hple q.tasks)

theorem nextRel_den {cur nts : List CrashTask} (hrel : NextRel cur nts)
    (hden : ∀ t ∈ cur, t.duration.den = 1) :
    ∀ t ∈ nts, t.duration.den = 1 := by
  intro t ht
  obtain ⟨j, hj, hor⟩ := hrel.mem t ht
  rcases hor with he | ⟨_, he⟩
  · rw [he]
    exact hden _ (List.get_mem cur j hj)
  · rw [he]
    show ((cur.get ⟨j, hj⟩).duration - 1).den = 1
    exact qint_sub_one (hden _ (List.get_mem cur j hj))

/-- Loop invariant for the recorded project durations: ids stay nodup,
durations stay integral, the last cost row records the current maximum path
duration, and the recorded durations are non-increasing. -/
def C1Inv (s : LoopState) : Prop :=
  (s.currentTasks.map (fun t => t.id)).Nodup ∧
  (∀ t ∈ s.currentTasks, t.duration.den = 1) ∧
  s.costAnalysis ≠ [] ∧
  (s.costAnalysis.getLastD caDefault).projectDuration =
    maxPathDur s.currentTasks ∧
  (∀ i, i + 1 < s.costAnalysis.length →
    (s.costAnalysis.getD (i + 1) caDefault).projectDuration ≤
      (s.costAnalysis.getD i caDefault).projectDuration)

theorem c1Inv_preserved (a b c : ℚ) (d : List CrashTask) :
    ∀ fuel s, C1Inv s → C1Inv (crashLoop a b c d fuel s) := by
  refine crashLoop_inv C1Inv a b c d ?_ ?_
  · intro s s' hstep ⟨hnodup, hden, hne, hlast, hmono⟩
    rcases crashStep_halt_spec hstep with rfl | rfl
    · exact ⟨hnodup, hden, hne, hlast, hmono⟩
    · have hpd : ∀ j dd, ((markLastCrashPoint s.costAnalysis).getD j dd).projectDuration =
          (s.costAnalysis.getD j dd).projectDuration := fun j dd =>
        getD_proj_of_map_eq (fun c0 => c0.projectDuration)
          (markLastCrashPoint_proj (fun c0 => c0.projectDuration)
            (fun c0 => rfl) s.costAnalysis) j dd
      have hlen := markLastCrashPoint_length s.costAnalysis
      have hne2 : markLastCrashPoint s.costAnalysis ≠ [] := by
        intro h0
        rw [h0] at hlen
        exact hne (List.length_eq_zero.1 hlen.symm)
      refine ⟨hnodup, hden, hne2, ?_, ?_⟩
      · show ((markLastCrashPoint s.costAnalysis).getLastD caDefault).projectDuration = _
        rw [getLastD_eq_getD_of_ne hne2, hlen, hpd _ caDefault,
          ← getLastD_eq_getD_of_ne hne]
        exact hlast
      · intro i hi
        have hi2 : i + 1 < s.costAnalysis.length := by
          have hi3 : i + 1 < (markLastCrashPoint s.costAnalysis).length := hi
          rw [hlen] at hi3
          exact hi3
        show ((markLastCrashPoint s.costAnalysis).getD (i + 1) caDefault).projectDuration ≤
          ((markLastCrashPoint s.costAnalysis).getD i caDefault).projectDuration
        rw [hpd (i + 1) caDefault, hpd i caDefault]
        exact hmono i hi2
  · intro s s' hstep ⟨hnodup, hden, hne, hlast, hmono⟩
    obtain ⟨nts, ids, rep, hcs, rfl⟩ := crashStep_next_spec hstep
    have hrel : NextRel s.currentTasks nts := commitShape_nextRel hnodup hcs
    have hden2 : ∀ t ∈ nts, t.duration.den = 1 := nextRel_den hrel hden
    have hcane : 0 < s.costAnalysis.length := List.length_pos.2 hne
    refine ⟨?_, hden2, by simp, ?_, ?_⟩
    · show (nts.map (fun t => t.id)).Nodup
      rw [hrel.map_id]
      exact hnodup
    · show ((s.costAnalysis ++
        [stepEntry a b c s rep ids (stepNewMax nts)]).getLastD caDefault).projectDuration =
        maxPathDur nts
      rw [List.getLastD_concat]
      show stepNewMax nts = maxPathDur nts
      exact stepNewMax_eq_maxPathDur nts hden2
    · intro i hi
      simp only [List.length_append, List.length_cons, List.length_nil] at hi
      by_cases hilt : i + 1 < s.costAnalysis.length
      · have hi0 : i < s.costAnalysis.length := Nat.lt_of_succ_lt hilt
        rw [List.getD_append _ _ _ _ hilt, List.getD_append _ _ _ _ hi0]
        exact hmono i hilt
      · have hieq : i + 1 = s.costAnalysis.length := by omega
        have hi0 : i < s.costAnalysis.length := by omega
        have hgetnew : (s.costAnalysis ++
            [stepEntry a b c s rep ids (stepNewMax nts)]).getD (i + 1) caDefault =
            stepEntry a b c s rep ids (stepNewMax nts) := by
          rw [List.getD_append_right _ _ _ _ (le_of_eq hieq.symm), hieq]
          simp
        rw [hgetnew, List.getD_append _ _ _ _ hi0]
        show stepNewMax nts ≤ (s.costAnalysis.getD i caDefault).projectDuration
        rw [stepNewMax_eq_maxPathDur nts hden2]
        have hmo : maxPathDur nts ≤ maxPathDur s.currentTasks := maxPathDur_mono hrel
        have hlast2 : (s.costAnalysis.getD i caDefault).projectDuration =
            maxPathDur s.currentTasks := by
          rw [← hlast, getLastD_eq_getD_of_ne hne]
          have : s.costAnalysis.length - 1 = i := by omega
          rw [this]
        rw [hlast2]
        exact hmo

theorem cpFinalState_c1Inv (tasks : List CrashTask)
    (indirectCost reductionPerUnit : ℚ)
    (hnodup : (tasks.map (fun t => t.id)).Nodup)
    (hden : ∀ t ∈ tasks, t.normalTime.den = 1) :
    C1Inv (cpFinalState tasks indirectCost reductionPerUnit) := by
  refine c1Inv_preserved indirectCost reductionPerUnit (cpInitialDuration tasks)
    (cpInitialTasksState tasks) (crashFuel tasks)
    (cpInitialState tasks indirectCost) ⟨?_, ?_, ?_, ?_, ?_⟩
  · show ((cpInitialTasksState tasks).map (fun t => t.id)).Nodup
    rw [cpInitialTasksState_map_id]
    exact hnodup
  · intro t2 ht2
    obtain ⟨t, ht, rfl⟩ := List.mem_map.1 ht2
    exact hden t ht
  · intro h
    exact List.cons_ne_nil _ _ h
  · show ((cpInitialState tasks indirectCost).costAnalysis.getLastD
        caDefault).projectDuration = maxPathDur (cpInitialTasksState tasks)
    have hden2 : ∀ t ∈ cpInitialTasksState tasks, t.duration.den = 1 := by
      intro t2 ht2
      obtain ⟨t, ht, rfl⟩ := List.mem_map.1 ht2
      exact hden t ht
    show cpInitialDuration tasks = maxPathDur (cpInitialTasksState tasks)
    exact initialDur_eq_maxPathDur (cpInitialTasksState tasks) hden2
  · intro i hi
    have hi2 : i + 1 < 1 := hi
    exact absurd hi2 (by omega)

theorem find?_reverse_nodup {l : List CrashTask}
    (h : (l.map (fun t => t.id)).Nodup) (tid : String) :
    l.reverse.find? (fun t => t.id = tid) = l.find? (fun t => t.id = tid) := by
  cases hf : l.find? (fun t => t.id = tid) with
  | none =>
    have hall := List.find?_eq_none.1 hf
    exact List.find?_eq_none.2 (fun x hx => hall x (List.mem_reverse.1 hx))
  | some t =>
    have hmem : t ∈ l := List.mem_of_find?_eq_some hf
    have hpt : t.id = tid := by simpa using List.find?_some hf
    have hsome : (l.reverse.find? (fun u => u.id = tid)).isSome := by
      rw [List.find?_isSome]
      exact ⟨t, List.mem_reverse.2 hmem, by simpa using hpt⟩
    obtain ⟨t2, ht2⟩ := Option.isSome_iff_exists.1 hsome
    have hmem2 : t2 ∈ l := List.mem_reverse.1 (List.mem_of_find?_eq_some ht2)
    have hpt2 : t2.id = tid := by simpa using List.find?_some ht2
    have heq : t2 = t :=
      List.inj_on_of_nodup_map h hmem2 hmem (by rw [hpt2, hpt])
    rw [ht2, heq]

theorem taskMapGet_eq_find? {l : List CrashTask}
    (h : (l.map (fun t => t.id)).Nodup) (tid : String) :
    taskMapGet l tid = l.find? (fun t => t.id = tid) :=
  find?_reverse_nodup h tid

theorem updateFirst_map_id {f : CrashTask → CrashTask}
    (hf : ∀ t, (f t).id = t.id) (l : List CrashTask) (id0 : String) :
    (updateFirst l id0 f).map (fun t => t.id) = l.map (fun t => t.id) := by
  induction l with
  | nil => rfl
  | cons x xs ih =>
    show (if x.id = id0 then f x :: xs else x :: updateFirst xs id0 f).map
      (fun t => t.id) = _
    by_cases hx : x.id = id0
    · rw [if_pos hx]
      simp only [List.map_cons]
      rw [hf x]
    · rw [if_neg hx]
      simp only [List.map_cons]
      rw [ih]

theorem find?_updateFirst {f : CrashTask → CrashTask}
    (hf : ∀ t, (f t).id = t.id) (l : List CrashTask) (id0 tid : String) :
    (updateFirst l id0 f).find? (fun u => u.id = tid) =
      if id0 = tid then (l.find? (fun u => u.id = tid)).map f
      else l.find? (fun u => u.id = tid) := by
  induction l with
  | nil =>
    show (List.find? _ []) = if id0 = tid then Option.map f (List.find? _ []) else _
    by_cases h0 : id0 = tid
    · rw [if_pos h0]
      rfl
    · rw [if_neg h0]
  | cons x xs ih =>
    show (if x.id = id0 then f x :: xs else x :: updateFirst xs id0 f).find?
      (fun u => u.id = tid) = _
    by_cases hx : x.id = id0
    · rw [if_pos hx]
      by_cases h0 : id0 = tid
      · rw [if_pos h0]
        rw [List.find?_cons_of_pos _ (by simp [hf x, hx, h0]),
          List.find?_cons_of_pos _ (by simp [hx, h0])]
        rfl
      · rw [if_neg h0]
        rw [List.find?_cons_of_neg _ (by simp [hf x, hx, h0]),
          List.find?_cons_of_neg _ (by simp [hx, h0])]
    · rw [if_neg hx]
      by_cases hxt : x.id = tid
      · rw [List.find?_cons_of_pos _ (by simpa using hxt),
          List.find?_cons_of_pos _ (by simpa using hxt)]
        have h0 : ¬ id0 = tid := fun h0 => hx (by rw [hxt, h0])
        rw [if_neg h0]
      · rw [List.find?_cons_of_neg _ (by simpa using hxt),
          List.find?_cons_of_neg _ (by simpa using hxt), ih]

theorem taskMapGet_updateFirst {l : List CrashTask}
    (hnodup : (l.map (fun t => t.id)).Nodup) {f : CrashTask → CrashTask}
    (hf : ∀ t, (f t).id = t.id) (id0 tid : String) :
    taskMapGet (updateFirst l id0 f) tid =
      if id0 = tid then (l.find? (fun u => u.id = tid)).map f
      else l.find? (fun u => u.id = tid) := by
  rw [taskMapGet_eq_find? (by rw [updateFirst_map_id hf]; exact hnodup) tid,
    find?_updateFirst hf l id0 tid]

theorem foldl_add_shift (f : String → ℚ) :
    ∀ (l : List String) (acc : ℚ),
      l.foldl (fun a x => a + f x) acc = acc + l.foldl (fun a x => a + f x) 0 := by
  intro l
  induction l with
  | nil => intro acc; simp
  | cons x xs ih =>
    intro acc
    rw [List.foldl_cons, List.foldl_cons, ih (acc + f x), ih (0 + f x)]
    ring

theorem foldl_add_congr {f g : String → ℚ} :
    ∀ {l : List String}, (∀ x ∈ l, f x = g x) → ∀ acc,
      l.foldl (fun a x => a + f x) acc = l.foldl (fun a x => a + g x) acc := by
  intro l
  induction l with
  | nil => intro _ acc; rfl
  | cons x xs ih =>
    intro h acc
    rw [List.foldl_cons, List.foldl_cons, h x (List.mem_cons_self _ _)]
    exact ih (fun y hy => h y (List.mem_cons_of_mem _ hy)) _

/-- The duration contributed by one path entry: the looked-up duration or 0
when the id does not resolve. -/
def durOf (ts : List CrashTask) (tid : String) : ℚ :=
  match taskMapGet ts tid with
  | some t => t.duration
  | none => 0

theorem sumPathDurations_eq_fold (ts : List CrashTask) (ids : List String) :
    sumPathDurations ts ids = ids.foldl (fun a tid => a + durOf ts tid) 0 := rfl

theorem sumPathDurations_cons (ts : List CrashTask) (tid : String)
    (rest : List String) :
    sumPathDurations ts (tid :: rest) = durOf ts tid + sumPathDurations ts rest := by
  rw [sumPathDurations_eq_fold, sumPathDurations_eq_fold, List.foldl_cons,
    foldl_add_shift]
  ring

theorem durOf_updateFirst_ne {l : List CrashTask}
    (hnodup : (l.map (fun t => t.id)).Nodup) {rid tid : String}
    (hne : ¬ rid = tid) :
    durOf (updateFirst l rid decrement1) tid = durOf l tid := by
  unfold durOf
  rw [taskMapGet_updateFirst hnodup (f := decrement1) (fun t => rfl) rid tid, if_neg hne,
    taskMapGet_eq_find? hnodup]

theorem durOf_updateFirst_self {l : List CrashTask}
    (hnodup : (l.map (fun t => t.id)).Nodup) {rep : CrashTask}
    (hfind : l.find? (fun u => u.id = rep.id) = some rep) :
    durOf (updateFirst l rep.id decrement1) rep.id = durOf l rep.id - 1 := by
  unfold durOf
  rw [taskMapGet_updateFirst hnodup (f := decrement1) (fun t => rfl) rep.id rep.id, if_pos rfl,
    hfind, taskMapGet_eq_find? hnodup, hfind]
  rfl

theorem sumPathDurations_single_crash {cur : List CrashTask}
    (hnodup : (cur.map (fun t => t.id)).Nodup) {rep : CrashTask}
    (hfind : cur.find? (fun u => u.id = rep.id) = some rep) :
    ∀ ids : List String, ids.Nodup →
      sumPathDurations (updateFirst cur rep.id decrement1) ids =
        sumPathDurations cur ids - (if rep.id ∈ ids then 1 else 0) := by
  intro ids
  induction ids with
  | nil =>
    intro _
    rw [if_neg (List.not_mem_nil rep.id)]
    show (0 : ℚ) = 0 - 0
    ring
  | cons tid rest ih =>
    intro hnd
    obtain ⟨hnm, hnd2⟩ := List.nodup_cons.1 hnd
    rw [sumPathDurations_cons, sumPathDurations_cons]
    by_cases hid : rep.id = tid
    · subst hid
      rw [durOf_updateFirst_self hnodup hfind]
      have hrest : sumPathDurations (updateFirst cur rep.id decrement1) rest =
          sumPathDurations cur rest := by
        rw [sumPathDurations_eq_fold, sumPathDurations_eq_fold]
        refine foldl_add_congr ?_ 0
        intro x hx
        exact durOf_updateFirst_ne hnodup (fun he => hnm (by rw [he]; exact hx))
      rw [hrest, if_pos (List.mem_cons_self _ _)]
      ring
    · rw [durOf_updateFirst_ne hnodup hid, ih hnd2]
      by_cases hr : rep.id ∈ rest
      · rw [if_pos hr, if_pos (List.mem_cons_of_mem _ hr)]
        ring
      · rw [if_neg hr, if_neg (fun hm => by
          rcases List.mem_cons.1 hm with he | hm2
          · exact hid he
          · exact hr hm2)]
        ring

theorem findPaths_paths_ok (allTasks : List CrashTask) :
    ∀ fuel cur path vis acc,
    (∀ p ∈ acc, p.tasks.Nodup ∧
      ∀ tid ∈ p.tasks, (allTasks.find? (fun t => t.id = tid)).isSome) →
    path.Nodup →
    (∀ x ∈ path, x ∈ vis) →
    (∀ x ∈ path, (allTasks.find? (fun t => t.id = x)).isSome) →
    (allTasks.find? (fun t => t.id = cur)).isSome →
    ∀ p ∈ findPaths allTasks fuel cur path vis acc,
      p.tasks.Nodup ∧
      ∀ tid ∈ p.tasks, (allTasks.find? (fun t => t.id = tid)).isSome := by
  intro fuel
  induction fuel with
  | zero => intro cur path vis acc hacc _ _ _ _; exact hacc
  | succ n ih =>
    intro cur path vis acc hacc hnd hsub hres hcur
    show ∀ p ∈ (if cur ∈ vis then acc else
      if allTasks.filter (fun t =>
          t.predecessors.any (fun pr => pr.taskId = cur)) = [] then
        acc ++ [{ tasks := path ++ [cur], durations := [0], isCritical := false }]
      else
        (allTasks.filter (fun t =>
          t.predecessors.any (fun pr => pr.taskId = cur))).foldl (fun acc2 t =>
            findPaths allTasks n t.id (path ++ [cur]) (cur :: vis) acc2) acc), _
    by_cases hv : cur ∈ vis
    · rw [if_pos hv]
      exact hacc
    · rw [if_neg hv]
      have hnd2 : (path ++ [cur]).Nodup := by
        rw [List.nodup_append]
        exact ⟨hnd, List.nodup_singleton _,
          fun x hx => by
            rw [List.mem_singleton]
            intro he
            exact hv (he ▸ hsub x hx)⟩
      have hres2 : ∀ x ∈ path ++ [cur],
          (allTasks.find? (fun t => t.id = x)).isSome := by
        intro x hx
        rcases List.mem_append.1 hx with h1 | h2
        · exact hres x h1
        · rw [List.mem_singleton.1 h2]
          exact hcur
      by_cases he : allTasks.filter (fun t =>
          t.predecessors.any (fun pr => pr.taskId = cur)) = []
      · rw [if_pos he]
        intro p hp
        rcases List.mem_append.1 hp with h1 | h2
        · exact hacc p h1
        · rw [List.mem_singleton.1 h2]
          exact ⟨hnd2, hres2⟩
      · rw [if_neg he]
        have hsub2 : ∀ x ∈ path ++ [cur], x ∈ cur :: vis := by
          intro x hx
          rcases List.mem_append.1 hx with h1 | h2
          · exact List.mem_cons_of_mem _ (hsub x h1)
          · rw [List.mem_singleton.1 h2]
            exact List.mem_cons_self _ _
        suffices H : ∀ (l : List CrashTask) (acc2 : List CrashPath),
            (∀ t ∈ l, t ∈ allTasks) →
            (∀ p ∈ acc2, p.tasks.Nodup ∧
              ∀ tid ∈ p.tasks, (allTasks.find? (fun t => t.id = tid)).isSome) →
            ∀ p ∈ l.foldl (fun acc2 t =>
              findPaths allTasks n t.id (path ++ [cur]) (cur :: vis) acc2) acc2,
              p.tasks.Nodup ∧
              ∀ tid ∈ p.tasks, (allTasks.find? (fun t => t.id = tid)).isSome by
          exact H _ acc (fun t ht => List.mem_of_mem_filter ht) hacc
        intro l
        induction l with
        | nil => intro acc2 _ hacc2; exact hacc2
        | cons t ts ihl =>
          intro acc2 hmem hacc2
          rw [List.foldl_cons]
          refine ihl _ (fun u hu => hmem u (List.mem_cons_of_mem _ hu)) ?_
          refine ih t.id (path ++ [cur]) (cur :: vis) acc2 hacc2 hnd2 hsub2 hres2 ?_
          rw [List.find?_isSome]
          exact ⟨t, hmem t (List.mem_cons_self _ _), by simp⟩

theorem calculatePathDurations_mem_tasks (paths : List CrashPath)
    (ts : List CrashTask) :
    ∀ p ∈ calculatePathDurations paths ts, ∃ q ∈ paths, p.tasks = q.tasks := by
  intro p hp
  unfold calculatePathDurations at hp
  obtain ⟨q1, hq1, rfl⟩ := List.mem_map.1 hp
  obtain ⟨q, hq, rfl⟩ := List.mem_map.1 hq1
  exact ⟨q, hq, rfl⟩

theorem calculateAllPaths_paths_ok (ts : List CrashTask) :
    ∀ p ∈ calculateAllPaths ts, p.tasks.Nodup ∧
      ∀ tid ∈ p.tasks, (ts.find? (fun t => t.id = tid)).isSome := by
  intro p hp
  rw [calculateAllPaths_eq ts] at hp
  by_cases h1 : ts.filter (fun t => t.predecessors = []) = []
  · rw [if_pos h1] at hp
    exact absurd hp (List.not_mem_nil p)
  · rw [if_neg h1] at hp
    by_cases h2 : ts.filter (fun t =>
        ¬ ts.any (fun u => u.predecessors.any (fun pr => pr.taskId = t.id))) = []
    · rw [if_pos h2] at hp
      exact absurd hp (List.not_mem_nil p)
    · rw [if_neg h2] at hp
      obtain ⟨q, hq, hpt⟩ := calculatePathDurations_mem_tasks _ _ p hp
      rw [hpt]
      suffices H : ∀ q2 ∈ rawPaths ts, q2.tasks.Nodup ∧
          ∀ tid ∈ q2.tasks, (ts.find? (fun t => t.id = tid)).isSome by
        exact H q hq
      unfold rawPaths
      suffices H : ∀ (l : List CrashTask) (acc : List CrashPath),
          (∀ t ∈ l, t ∈ ts) →
          (∀ p2 ∈ acc, p2.tasks.Nodup ∧
            ∀ tid ∈ p2.tasks, (ts.find? (fun t => t.id = tid)).isSome) →
          ∀ p2 ∈ l.foldl (fun acc s =>
            findPaths ts (ts.length + 1) s.id [] [] acc) acc,
            p2.tasks.Nodup ∧
            ∀ tid ∈ p2.tasks, (ts.find? (fun t => t.id = tid)).isSome by
        exact H _ [] (fun t ht => List.mem_of_mem_filter ht)
          (fun p2 hp2 => absurd hp2 (List.not_mem_nil p2))
      intro l
      induction l with
      | nil => intro acc _ hacc; exact hacc
      | cons s ss ihl =>
        intro acc hmem hacc
        rw [List.foldl_cons]
        refine ihl _ (fun u hu => hmem u (List.mem_cons_of_mem _ hu)) ?_
        refine findPaths_paths_ok ts (ts.length + 1) s.id [] [] acc hacc
          (List.nodup_nil) (fun x hx => absurd hx (List.not_mem_nil x))
          (fun x hx => absurd hx (List.not_mem_nil x)) ?_
        rw [List.find?_isSome]
        exact ⟨s, hmem s (List.mem_cons_self _ _), by simp⟩

theorem calculateAllPaths_durations (ts : List CrashTask) :
    ∀ p ∈ calculateAllPaths ts, p.durations = [sumPathDurations ts p.tasks] := by
  intro p hp
  rw [calculateAllPaths_eq ts] at hp
  by_cases h1 : ts.filter (fun t => t.predecessors = []) = []
  · rw [if_pos h1] at hp
    exact absurd hp (List.not_mem_nil p)
  · rw [if_neg h1] at hp
    by_cases h2 : ts.filter (fun t =>
        ¬ ts.any (fun u => u.predecessors.any (fun pr => pr.taskId = t.id))) = []
    · rw [if_pos h2] at hp
      exact absurd hp (List.not_mem_nil p)
    · rw [if_neg h2] at hp
      exact (calculatePathDurations_mem _ _ p hp).1

/-- The previous recorded duration of a path, as the history update of a
committed iteration computes it. -/
def prevDurFor (d cur : List CrashTask) (iteration : ℕ) (q : CrashPath) : ℚ :=
  if iteration = 1 then
    match q.tasks with
    | [] => 0
    | t0 :: _ =>
      if (d.find? (fun t => t.id = t0)).isSome then
        q.tasks.foldl (fun sum tid =>
          sum + jsOr ((d.find? (fun t => t.id = tid)).map
            (fun t => t.duration)) 0) 0
      else 0
  else if iteration - 1 < q.durations.length then
    q.durations.getD (iteration - 1) 0
  else
    q.tasks.foldl (fun sum tid =>
      sum + jsOr ((taskMapGet cur tid).map (fun t => t.duration)) 0) 0

theorem updatePathsForIteration_eq (paths : List CrashPath)
    (d cur : List CrashTask) (it : ℕ) (cid : String) :
    updatePathsForIteration paths d cur it cid = paths.map (fun q =>
      { q with durations := (listSetPad q.durations it
          (if cid ∈ q.tasks then prevDurFor d cur it q - 1
           else prevDurFor d cur it q)) }) := rfl

theorem stepPaths_mem {s : LoopState} {d : List CrashTask} {it : ℕ}
    {cid : String} {nmd : ℚ} :
    ∀ p ∈ stepPaths s d it cid nmd, ∃ q ∈ s.paths,
      p.tasks = q.tasks ∧
      p.durations = listSetPad q.durations it
        (if cid ∈ q.tasks then prevDurFor d s.currentTasks it q - 1
         else prevDurFor d s.currentTasks it q) := by
  intro p hp
  unfold stepPaths at hp
  obtain ⟨q1, hq1, rfl⟩ := List.mem_map.1 hp
  rw [updatePathsForIteration_eq] at hq1
  obtain ⟨q, hq, rfl⟩ := List.mem_map.1 hq1
  exact ⟨q, hq, rfl, rfl⟩

theorem listSetPad_spec {l : List ℚ} {i : ℕ} (h : l.length = i) (v : ℚ) :
    (listSetPad l i v).length = i + 1 ∧
    (∀ k, k < i → (listSetPad l i v).getD k 0 = l.getD k 0) ∧
    (listSetPad l i v).getD i 0 = v := by
  unfold listSetPad
  rw [if_neg (by omega)]
  have hrep : i - l.length = 0 := by omega
  rw [hrep]
  have hlen2 : (l ++ List.replicate 0 0).length = i := by
    simp [h]
  refine ⟨?_, ?_, ?_⟩
  · simp [h]
  · intro k hk
    rw [List.getD_append _ _ _ _ (by simp [h]; omega),
      List.getD_append _ _ _ _ (by omega)]
  · rw [List.getD_append_right _ _ _ _ (le_of_eq hlen2), hlen2]
    simp

theorem foldSum_jsOr_find_eq (d : List CrashTask)
    (hd : (d.map (fun t => t.id)).Nodup) (ids : List String) :
    ids.foldl (fun sum tid =>
      sum + jsOr ((d.find? (fun t => t.id = tid)).map
        (fun t => t.duration)) 0) 0 = sumPathDurations d ids := by
  rw [sumPathDurations_eq_fold]
  refine foldl_add_congr ?_ 0
  intro tid _
  unfold durOf
  rw [taskMapGet_eq_find? hd]
  cases hf : d.find? (fun t => t.id = tid) with
  | none => rfl
  | some t =>
    show (if t.duration = 0 then (0 : ℚ) else t.duration) = t.duration
    by_cases h0 : t.duration = 0
    · rw [if_pos h0, h0]
    · rw [if_neg h0]

/-- All committed rows after the initial one crash exactly one activity. -/
def SingletonPrefix (ca : List CostAnalysisResult) : Prop :=
  ∀ j, 1 ≤ j → j < ca.length →
    ((ca.getD j caDefault).crashedActivities).length = 1

/-- Loop invariant for the path-history claim: structural alignment of the
history, well-formed enumerated paths, and — whenever every committed row so
far crashed a single activity — recorded path durations equal to the sums
over the matching snapshots. -/
def C4Inv (d : List CrashTask) (s : LoopState) : Prop :=
  (s.currentTasks.map (fun t => t.id)).Nodup ∧
  s.crashedTasks.getD 0 [] = d ∧
  s.crashedTasks.length = s.iteration + 1 ∧
  s.crashedTasks.getLast? = some s.currentTasks ∧
  s.costAnalysis.length = s.iteration + 1 ∧
  (∀ p ∈ s.paths, p.tasks.Nodup ∧ p.durations.length = s.iteration + 1 ∧
    ∀ tid ∈ p.tasks, (d.find? (fun t => t.id = tid)).isSome) ∧
  (SingletonPrefix s.costAnalysis → ∀ p ∈ s.paths, ∀ k, k ≤ s.iteration →
    p.durations.getD k 0 = sumPathDurations (s.crashedTasks.getD k []) p.tasks)

theorem c4Inv_preserved (a b c : ℚ) (d : List CrashTask) :
    ∀ fuel s, C4Inv d s → C4Inv d (crashLoop a b c d fuel s) := by
  refine crashLoop_inv (C4Inv d) a b c d ?_ ?_
  · intro s s' hstep hinv
    obtain ⟨h1, h2, h3, h4, h5, h6, h7⟩ := hinv
    rcases crashStep_halt_spec hstep with rfl | rfl
    · exact ⟨h1, h2, h3, h4, h5, h6, h7⟩
    · refine ⟨h1, h2, h3, h4, ?_, h6, ?_⟩
      · show (markLastCrashPoint s.costAnalysis).length = _
        rw [markLastCrashPoint_length]
        exact h5
      · intro hsp
        refine h7 ?_
        intro j hj1 hjlen
        have hml := markLastCrashPoint_length s.costAnalysis
        have hj2 : j < (markLastCrashPoint s.costAnalysis).length := by
          rw [hml]
          exact hjlen
        have hone := hsp j hj1 hj2
        have hac : ((markLastCrashPoint s.costAnalysis).getD j
            caDefault).crashedActivities =
            (s.costAnalysis.getD j caDefault).crashedActivities :=
          getD_proj_of_map_eq (fun c0 => c0.crashedActivities)
            (markLastCrashPoint_proj (fun c0 => c0.crashedActivities)
              (fun c0 => rfl) s.costAnalysis) j caDefault
        rw [hac] at hone
        exact hone
  · intro s s' hstep hinv
    obtain ⟨h1, h2, h3, h4, h5, h6, h7⟩ := hinv
    obtain ⟨nts, ids, rep, hcs, rfl⟩ := crashStep_next_spec hstep
    have hrel : NextRel s.currentTasks nts := commitShape_nextRel h1 hcs
    obtain ⟨hfind, _, _, _, hsingbr⟩ := hcs
    have hsne : 0 < s.crashedTasks.length := by omega
    refine ⟨?_, ?_, ?_, ?_, ?_, ?_, ?_⟩
    · show (nts.map (fun t => t.id)).Nodup
      rw [hrel.map_id]
      exact h1
    · show (s.crashedTasks ++ [nts]).getD 0 [] = d
      rw [List.getD_append _ _ _ _ hsne]
      exact h2
    · show (s.crashedTasks ++ [nts]).length = s.iteration + 1 + 1
      simp only [List.length_append, List.length_cons, List.length_nil]
      omega
    · show (s.crashedTasks ++ [nts]).getLast? = some nts
      simp
    · show (s.costAnalysis ++ [stepEntry a b c s rep ids (stepNewMax nts)]).length =
        s.iteration + 1 + 1
      simp only [List.length_append, List.length_cons, List.length_nil]
      omega
    · intro p hp
      obtain ⟨q, hq, hpt, hpd⟩ := stepPaths_mem p hp
      obtain ⟨hqnd, hqlen, hqres⟩ := h6 q hq
      obtain ⟨hplen, _, _⟩ := listSetPad_spec hqlen
        (if rep.id ∈ q.tasks then
          prevDurFor d s.currentTasks (s.iteration + 1) q - 1
        else prevDurFor d s.currentTasks (s.iteration + 1) q)
      refine ⟨?_, ?_, ?_⟩
      · rw [hpt]
        exact hqnd
      · rw [hpd]
        exact hplen
      · rw [hpt]
        exact hqres
    · intro hsp p hp k hk
      have hk2 : k ≤ s.iteration + 1 := hk
      have hspold : SingletonPrefix s.costAnalysis := by
        intro j hj1 hjl
        have hj2 : j < (s.costAnalysis ++
            [stepEntry a b c s rep ids (stepNewMax nts)]).length := by
          simp only [List.length_append, List.length_cons, List.length_nil]
          omega
        have hone := hsp j hj1 hj2
        rw [List.getD_append _ _ _ _ hjl] at hone
        exact hone
      have hids1 : ids.length = 1 := by
        have hj1 : 1 ≤ s.costAnalysis.length := by omega
        have hj2 : s.costAnalysis.length < (s.costAnalysis ++
            [stepEntry a b c s rep ids (stepNewMax nts)]).length := by
          simp only [List.length_append, List.length_cons, List.length_nil]
          omega
        have hone := hsp s.costAnalysis.length hj1 hj2
        have hge : (s.costAnalysis ++
            [stepEntry a b c s rep ids (stepNewMax nts)]).getD
              s.costAnalysis.length caDefault =
            stepEntry a b c s rep ids (stepNewMax nts) := by
          rw [List.getD_append_right _ _ _ _ (le_refl _)]
          simp
        rw [hge] at hone
        exact hone
      have hnts : nts = updateFirst s.currentTasks rep.id decrement1 :=
        hsingbr hids1
      obtain ⟨q, hq, hpt, hpd⟩ := stepPaths_mem p hp
      obtain ⟨hqnd, hqlen, hqres⟩ := h6 q hq
      obtain ⟨hplen, hpold, hpnew⟩ := listSetPad_spec hqlen
        (if rep.id ∈ q.tasks then
          prevDurFor d s.currentTasks (s.iteration + 1) q - 1
        else prevDurFor d s.currentTasks (s.iteration + 1) q)
      have hprev : prevDurFor d s.currentTasks (s.iteration + 1) q =
          sumPathDurations s.currentTasks q.tasks := by
        unfold prevDurFor
        by_cases hit : s.iteration + 1 = 1
        · rw [if_pos hit]
          have hit0 : s.iteration = 0 := by omega
          have hcur : s.currentTasks = d := by
            have hgl := getD_last_of_getLast? h4 ([] : List CrashTask)
            have hidx : s.crashedTasks.length - 1 = 0 := by omega
            rw [hidx] at hgl
            rw [← hgl, h2]
          cases hqt : q.tasks with
          | nil =>
            show (0 : ℚ) = sumPathDurations s.currentTasks []
            rfl
          | cons t0 rest =>
            have ht0 : (d.find? (fun t => t.id = t0)).isSome := by
              refine hqres t0 ?_
              rw [hqt]
              exact List.mem_cons_self _ _
            show (if (d.find? (fun t => t.id = t0)).isSome then
                (t0 :: rest).foldl (fun sum tid =>
                  sum + jsOr ((d.find? (fun t => t.id = tid)).map
                    (fun t => t.duration)) 0) 0
              else 0) = sumPathDurations s.currentTasks (t0 :: rest)
            rw [if_pos ht0, hcur]
            have hd : (d.map (fun t => t.id)).Nodup := by
              rw [← hcur]
              exact h1
            exact foldSum_jsOr_find_eq d hd (t0 :: rest)
        · rw [if_neg hit]
          have hlt : s.iteration + 1 - 1 < q.durations.length := by
            rw [hqlen]
            omega
          rw [if_pos hlt]
          have hidx : s.iteration + 1 - 1 = s.iteration := by omega
          rw [hidx]
          have hold := h7 hspold q hq s.iteration (le_refl _)
          rw [hold]
          have hgl := getD_last_of_getLast? h4 ([] : List CrashTask)
          have hidx2 : s.crashedTasks.length - 1 = s.iteration := by omega
          rw [hidx2] at hgl
          rw [hgl]
      by_cases hkle : k ≤ s.iteration
      · have hkd : k < s.iteration + 1 := by omega
        rw [hpd, hpt, hpold k hkd]
        have hsget : (s.crashedTasks ++ [nts]).getD k [] =
            s.crashedTasks.getD k [] :=
          List.getD_append _ _ _ _ (by omega)
        rw [hsget]
        exact h7 hspold q hq k hkle
      · have hkeq : k = s.iteration + 1 := by omega
        subst hkeq
        rw [hpd, hpt, hpnew]
        have hsget : (s.crashedTasks ++ [nts]).getD (s.iteration + 1) [] = nts := by
          rw [List.getD_append_right _ _ _ _ (by omega)]
          have hidx : s.iteration + 1 - s.crashedTasks.length = 0 := by omega
          rw [hidx]
          rfl
        rw [hsget, hnts,
          sumPathDurations_single_crash h1 hfind q.tasks hqnd, hprev]
        by_cases hon : rep.id ∈ q.tasks
        · rw [if_pos hon, if_pos hon]
        · rw [if_neg hon, if_neg hon]
          ring

theorem cpInitialState_c4Inv (tasks : List CrashTask) (indirectCost : ℚ)
    (hnodup : (tasks.map (fun t => t.id)).Nodup) :
    C4Inv (cpInitialTasksState tasks) (cpInitialState tasks indirectCost) := by
  have hnodup2 : ((cpInitialTasksState tasks).map (fun t => t.id)).Nodup := by
    rw [cpInitialTasksState_map_id]
    exact hnodup
  refine ⟨hnodup2, rfl, rfl, rfl, rfl, ?_, ?_⟩
  · intro p hp
    have hp2 : p ∈ calculateAllPaths (cpInitialTasksState tasks) := hp
    obtain ⟨hnd, hres⟩ := calculateAllPaths_paths_ok _ p hp2
    have hdur := calculateAllPaths_durations _ p hp2
    refine ⟨hnd, ?_, hres⟩
    rw [hdur]
    rfl
  · intro _ p hp k hkle
    have hk0 : k ≤ 0 := hkle
    have hk1 : k = 0 := Nat.le_zero.1 hk0
    subst hk1
    have hp2 : p ∈ calculateAllPaths (cpInitialTasksState tasks) := hp
    have hdur := calculateAllPaths_durations _ p hp2
    show p.durations.getD 0 0 =
      sumPathDurations (cpInitialTasksState tasks) p.tasks
    rw [hdur]
    rfl

theorem cpFinalState_c4Inv (tasks : List CrashTask)
    (indirectCost reductionPerUnit : ℚ)
    (hnodup : (tasks.map (fun t => t.id)).Nodup) :
    C4Inv (cpInitialTasksState tasks)
      (cpFinalState tasks indirectCost reductionPerUnit) :=
  c4Inv_preserved indirectCost reductionPerUnit (cpInitialDuration tasks)
    (cpInitialTasksState tasks) (crashFuel tasks)
    (cpInitialState tasks indirectCost)
    (cpInitialState_c4Inv tasks indirectCost hnodup)

end Crashing

/-- Scheduler example with a positive lag: A takes 2, B takes 3 and starts
5 after A finishes. -/
def exLagA : Scheduler.Task := { id := "A", duration := 2, predecessors := [] }

/-- Second task of the lag example. -/
def exLagB : Scheduler.Task :=
  { id := "B", duration := 3, predecessors := [{ taskId := "A", lag := 5 }] }

/-- First task of a two-task dependency cycle. -/
def exCycA : Scheduler.Task :=
  { id := "A", duration := 1, predecessors := [{ taskId := "B", lag := 0 }] }

/-- Second task of the two-task dependency cycle. -/
def exCycB : Scheduler.Task :=
  { id := "B", duration := 1, predecessors := [{ taskId := "A", lag := 0 }] }

/-- Scheduler example with a negative lag: A takes 2. -/
def exNegA : Scheduler.Task := { id := "A", duration := 2, predecessors := [] }

/-- Second task of the negative-lag example: B takes 3 and may start 10
before A finishes, so its unclamped early start would be 2 - 10 = -8. -/
def exNegB : Scheduler.Task :=
  { id := "B", duration := 3, predecessors := [{ taskId := "A", lag := -10 }] }

/-- Source task of a zero-lag diamond example: A takes 3. -/
def exZA : Scheduler.Task := { id := "A", duration := 3, predecessors := [] }

/-- Upper branch of the zero-lag diamond: B takes 2 after A. -/
def exZB : Scheduler.Task :=
  { id := "B", duration := 2, predecessors := [{ taskId := "A", lag := 0 }] }

/-- Lower branch of the zero-lag diamond: C takes 4 after A. -/
def exZC : Scheduler.Task :=
  { id := "C", duration := 4, predecessors := [{ taskId := "A", lag := 0 }] }

/-- Sink of the zero-lag diamond: D takes 1 after both B and C. -/
def exZD : Scheduler.Task :=
  { id := "D", duration := 1,
    predecessors := [{ taskId := "B", lag := 0 }, { taskId := "C", lag := 0 }] }

namespace Scheduler

/-- The predecessor edge relation the cycle checker walks: from a task id to
each id among its predecessors. -/
def Edge (tasks : List Task) (a b : String) : Prop :=
  ∃ t, findTaskById tasks a = some t ∧ b ∈ t.predecessors.map (fun p => p.taskId)

/-- A dependency cycle: some task id reaches itself along predecessor
edges. -/
def HasCycle (tasks : List Task) : Prop :=
  ∃ t ∈ tasks, Relation.TransGen (Edge tasks) t.id t.id

/-- The invariant of the depth-first cycle check: every fully processed id
(visited and off the recursion stack) has all its predecessor edges leading
to fully processed ids, and no fully processed id reaches itself. -/
def DfsGood (tasks : List Task) (v rs : List String) : Prop :=
  (∀ a, a ∈ v → a ∉ rs → ∀ b, Edge tasks a b → b ∈ v ∧ b ∉ rs) ∧
  (∀ a, a ∈ v → a ∉ rs → ¬ Relation.TransGen (Edge tasks) a a)

theorem dfsGood_reach {tasks : List Task} {v rs : List String}
    (hg : DfsGood tasks v rs) {a c : String}
    (ha : a ∈ v) (har : a ∉ rs)
    (h : Relation.ReflTransGen (Edge tasks) a c) : c ∈ v ∧ c ∉ rs := by
  induction h with
  | refl => exact ⟨ha, har⟩
  | tail _ hedge ih => exact hg.1 _ ih.1 ih.2 _ hedge

theorem dfsGood_extend {tasks : List Task} {v : List String} {id : String}
    {rs : List String} (hg : DfsGood tasks v (id :: rs)) (hid : id ∈ v)
    (hsucc : ∀ b, Edge tasks id b → b ∈ v ∧ b ∉ (id :: rs)) :
    DfsGood tasks v rs := by
  constructor
  · intro a ha har b hedge
    by_cases haid : a = id
    · subst haid
      obtain ⟨hb1, hb2⟩ := hsucc b hedge
      have hb3 : ¬ (b = a ∨ b ∈ rs) := by simpa using hb2
      exact ⟨hb1, fun hm => hb3 (Or.inr hm)⟩
    · obtain ⟨hb1, hb2⟩ := hg.1 a ha (by simp [haid, har]) b hedge
      have hb3 : ¬ (b = id ∨ b ∈ rs) := by simpa using hb2
      exact ⟨hb1, fun hm => hb3 (Or.inr hm)⟩
  · intro a ha har hcyc
    by_cases haid : a = id
    · subst haid
      obtain ⟨b, hedge, hreach⟩ := Relation.TransGen.head'_iff.1 hcyc
      obtain ⟨hb1, hb2⟩ := hsucc b hedge
      obtain ⟨_, hfin⟩ := dfsGood_reach hg hb1 hb2 hreach
      exact hfin (List.mem_cons_self _ _)
    · exact hg.2 a ha (by simp [haid, har]) hcyc

theorem foldl_none_of {α β : Type} (f : Option α → β → Option α)
    (hf : ∀ b, f none b = none) : ∀ l : List β, l.foldl f none = none := by
  intro l
  induction l with
  | nil => rfl
  | cons x xs ih =>
    rw [List.foldl_cons, hf x]
    exact ih

theorem isCyclicAux_sound (tasks : List Task) :
    ∀ fuel id rs v v', rs ⊆ v → DfsGood tasks v rs → id ∉ rs →
      isCyclicAux tasks fuel id rs v = some v' →
      (∀ x ∈ v, x ∈ v') ∧ id ∈ v' ∧ DfsGood tasks v' rs := by
  intro fuel
  induction fuel with
  | zero => intro id rs v v' _ _ _ h; cases h
  | succ n ih =>
    intro id rs v v' hsub hg hidrs h
    by_cases hv : id ∈ v
    · have h2 : (if id ∈ v then some v else
        (match findTaskById tasks id with
         | none => some (id :: v)
         | some task => task.predecessors.foldl (fun acc p =>
            match acc with
            | none => none
            | some w =>
              if p.taskId ∈ w then
                if p.taskId ∈ (id :: rs) then none else some w
              else
                match isCyclicAux tasks n p.taskId (id :: rs) w with
                | none => none
                | some v2 => if p.taskId ∈ (id :: rs) then none else some v2)
            (some (id :: v)))) = some v' := h
      rw [if_pos hv] at h2
      injection h2 with h2
      subst h2
      exact ⟨fun x hx => hx, hv, hg⟩
    · have h2 : (if id ∈ v then some v else
        (match findTaskById tasks id with
         | none => some (id :: v)
         | some task => task.predecessors.foldl (fun acc p =>
            match acc with
            | none => none
            | some w =>
              if p.taskId ∈ w then
                if p.taskId ∈ (id :: rs) then none else some w
              else
                match isCyclicAux tasks n p.taskId (id :: rs) w with
                | none => none
                | some v2 => if p.taskId ∈ (id :: rs) then none else some v2)
            (some (id :: v)))) = some v' := h
      rw [if_neg hv] at h2
      have hg1 : DfsGood tasks (id :: v) (id :: rs) := by
        constructor
        · intro a ha har b hedge
          have har2 : ¬ (a = id ∨ a ∈ rs) := by simpa using har
          have ha2 : a ∈ v := by
            rcases List.mem_cons.1 ha with he | h0
            · exact absurd (Or.inl he) har2
            · exact h0
          obtain ⟨hb1, hb2⟩ := hg.1 a ha2 (fun hm => har2 (Or.inr hm)) b hedge
          refine ⟨List.mem_cons_of_mem _ hb1, ?_⟩
          intro hbm
          rcases List.mem_cons.1 hbm with he | h0
          · exact hv (he ▸ hb1)
          · exact hb2 h0
        · intro a ha har hcyc
          have har2 : ¬ (a = id ∨ a ∈ rs) := by simpa using har
          have ha2 : a ∈ v := by
            rcases List.mem_cons.1 ha with he | h0
            · exact absurd (Or.inl he) har2
            · exact h0
          exact hg.2 a ha2 (fun hm => har2 (Or.inr hm)) hcyc
      have hsub1 : (id :: rs : List String) ⊆ (id :: v) := by
        intro x hx
        rcases List.mem_cons.1 hx with he | h0
        · rw [he]; exact List.mem_cons_self _ _
        · exact List.mem_cons_of_mem _ (hsub h0)
      cases hft : findTaskById tasks id with
      | none =>
        rw [hft] at h2
        have h3 : some (id :: v) = some v' := h2
        injection h3 with h3
        subst h3
        refine ⟨fun x hx => List.mem_cons_of_mem _ hx, List.mem_cons_self _ _, ?_⟩
        constructor
        · intro a ha har b hedge
          rcases List.mem_cons.1 ha with he | ha2
          · subst he
            obtain ⟨t, htf, _⟩ := hedge
            rw [hft] at htf
            cases htf
          · obtain ⟨hb1, hb2⟩ := hg.1 a ha2 har b hedge
            exact ⟨List.mem_cons_of_mem _ hb1, hb2⟩
        · intro a ha har hcyc
          rcases List.mem_cons.1 ha with he | ha2
          · subst he
            obtain ⟨b, hedge, _⟩ := Relation.TransGen.head'_iff.1 hcyc
            obtain ⟨t, htf, _⟩ := hedge
            rw [hft] at htf
            cases htf
          · exact hg.2 a ha2 har hcyc
      | some task =>
        rw [hft] at h2
        have h3 : task.predecessors.foldl (fun acc p =>
            match acc with
            | none => none
            | some w =>
              if p.taskId ∈ w then
                if p.taskId ∈ (id :: rs) then none else some w
              else
                match isCyclicAux tasks n p.taskId (id :: rs) w with
                | none => none
                | some v2 => if p.taskId ∈ (id :: rs) then none else some v2)
            (some (id :: v)) = some v' := h2
        suffices H : ∀ (l : List Predecessor) (w : List String),
            (∀ x ∈ (id :: rs : List String), x ∈ w) →
            DfsGood tasks w (id :: rs) →
            l.foldl (fun acc p =>
              match acc with
              | none => none
              | some w =>
                if p.taskId ∈ w then
                  if p.taskId ∈ (id :: rs) then none else some w
                else
                  match isCyclicAux tasks n p.taskId (id :: rs) w with
                  | none => none
                  | some v2 => if p.taskId ∈ (id :: rs) then none else some v2)
              (some w) = some v' →
            (∀ x ∈ w, x ∈ v') ∧ DfsGood tasks v' (id :: rs) ∧
              (∀ p ∈ l, p.taskId ∈ v' ∧ p.taskId ∉ (id :: rs : List String)) by
          obtain ⟨hmono, hgood, hsuccs⟩ :=
            H task.predecessors (id :: v) (fun x hx => hsub1 hx) hg1 h3
          have hidv : id ∈ v' := hmono id (List.mem_cons_self _ _)
          refine ⟨fun x hx => hmono x (List.mem_cons_of_mem _ hx), hidv, ?_⟩
          refine dfsGood_extend hgood hidv ?_
          intro b hedge
          obtain ⟨t2, htf2, hbmem⟩ := hedge
          rw [hft] at htf2
          injection htf2 with htf2
          subst htf2
          obtain ⟨p, hp, hpid⟩ := List.mem_map.1 hbmem
          obtain ⟨hp1, hp2⟩ := hsuccs p hp
          rw [← hpid]
          exact ⟨hp1, hp2⟩
        intro l
        induction l with
        | nil =>
          intro w hsubw hgw h0
          have h1 : some w = some v' := h0
          injection h1 with h1
          subst h1
          exact ⟨fun x hx => hx, hgw, fun p hp => absurd hp (List.not_mem_nil p)⟩
        | cons p ps ihl =>
          intro w hsubw hgw h0
          rw [List.foldl_cons] at h0
          by_cases hpw : p.taskId ∈ w
          · by_cases hprs : p.taskId ∈ (id :: rs : List String)
            · exfalso
              have hstep : (match (some w : Option (List String)) with
                | none => none
                | some w =>
                  if p.taskId ∈ w then
                    if p.taskId ∈ (id :: rs) then none else some w
                  else
                    match isCyclicAux tasks n p.taskId (id :: rs) w with
                    | none => none
                    | some v2 =>
                      if p.taskId ∈ (id :: rs) then none else some v2) =
                  (none : Option (List String)) := by
                show (if p.taskId ∈ w then
                  if p.taskId ∈ (id :: rs) then none else some w
                  else _) = (none : Option (List String))
                rw [if_pos hpw, if_pos hprs]
              rw [hstep, foldl_none_of _ (fun b => rfl)] at h0
              cases h0
            · have hstep : (match (some w : Option (List String)) with
                | none => none
                | some w =>
                  if p.taskId ∈ w then
                    if p.taskId ∈ (id :: rs) then none else some w
                  else
                    match isCyclicAux tasks n p.taskId (id :: rs) w with
                    | none => none
                    | some v2 =>
                      if p.taskId ∈ (id :: rs) then none else some v2) = some w := by
                show (if p.taskId ∈ w then
                  if p.taskId ∈ (id :: rs) then none else some w
                  else _) = some w
                rw [if_pos hpw, if_neg hprs]
              rw [hstep] at h0
              obtain ⟨hmono, hgood, hsuccs⟩ := ihl w hsubw hgw h0
              refine ⟨hmono, hgood, ?_⟩
              intro p2 hp2
              rcases List.mem_cons.1 hp2 with he | hp3
              · subst he
                exact ⟨hmono _ hpw, hprs⟩
              · exact hsuccs p2 hp3
          · have hprs : p.taskId ∉ (id :: rs : List String) :=
              fun hm => hpw (hsubw _ hm)
            cases haux : isCyclicAux tasks n p.taskId (id :: rs) w with
            | none =>
              exfalso
              have hstep : (match (some w : Option (List String)) with
                | none => none
                | some w =>
                  if p.taskId ∈ w then
                    if p.taskId ∈ (id :: rs) then none else some w
                  else
                    match isCyclicAux tasks n p.taskId (id :: rs) w with
                    | none => none
                    | some v2 =>
                      if p.taskId ∈ (id :: rs) then none else some v2) =
                  (none : Option (List String)) := by
                show (if p.taskId ∈ w then _
                  else match isCyclicAux tasks n p.taskId (id :: rs) w with
                    | none => (none : Option (List String))
                    | some v2 =>
                      if p.taskId ∈ (id :: rs) then none else some v2) =
                  (none : Option (List String))
                rw [if_neg hpw, haux]
              rw [hstep, foldl_none_of _ (fun b => rfl)] at h0
              cases h0
            | some w2 =>
              obtain ⟨hm2, hid2, hg2⟩ := ih p.taskId (id :: rs) w w2
                hsubw hgw hprs haux
              have hstep : (match (some w : Option (List String)) with
                | none => none
                | some w =>
                  if p.taskId ∈ w then
                    if p.taskId ∈ (id :: rs) then none else some w
                  else
                    match isCyclicAux tasks n p.taskId (id :: rs) w with
                    | none => none
                    | some v2 =>
                      if p.taskId ∈ (id :: rs) then none else some v2) =
                  some w2 := by
                show (if p.taskId ∈ w then _
                  else match isCyclicAux tasks n p.taskId (id :: rs) w with
                    | none => (none : Option (List String))
                    | some v2 =>
                      if p.taskId ∈ (id :: rs) then none else some v2) = some w2
                rw [if_neg hpw, haux]
                show (if p.taskId ∈ (id :: rs) then none else some w2) = some w2
                rw [if_neg hprs]
              rw [hstep] at h0
              obtain ⟨hmono, hgood, hsuccs⟩ := ihl w2
                (fun x hx => hm2 x (hsubw x hx)) hg2 h0
              refine ⟨fun x hx => hmono x (hm2 x hx), hgood, ?_⟩
              intro p2 hp2
              rcases List.mem_cons.1 hp2 with he | hp3
              · subst he
                exact ⟨hmono _ hid2, hprs⟩
              · exact hsuccs p2 hp3

theorem validate_sound {tasks : List Task} {v : List String}
    (h : validateNoCyclicDependencies tasks = some v) :
    DfsGood tasks v [] ∧ ∀ t ∈ tasks, t.id ∈ v := by
  unfold validateNoCyclicDependencies at h
  suffices H : ∀ (l : List Task) (w : List String), DfsGood tasks w [] →
      l.foldl (fun acc t =>
        match acc with
        | none => none
        | some v =>
          if t.id ∈ v then some v
          else isCyclicAux tasks (graphFuel tasks) t.id [] v) (some w) = some v →
      (∀ x ∈ w, x ∈ v) ∧ DfsGood tasks v [] ∧ ∀ t ∈ l, t.id ∈ v by
    obtain ⟨_, hgood, hmem⟩ := H tasks []
      ⟨fun a ha => absurd ha (List.not_mem_nil a),
       fun a ha => absurd ha (List.not_mem_nil a)⟩ h
    exact ⟨hgood, hmem⟩
  intro l
  induction l with
  | nil =>
    intro w hg h0
    have h1 : some w = some v := h0
    injection h1 with h1
    subst h1
    exact ⟨fun x hx => hx, hg, fun t ht => absurd ht (List.not_mem_nil t)⟩
  | cons t ts ihl =>
    intro w hg h0
    rw [List.foldl_cons] at h0
    by_cases htw : t.id ∈ w
    · have hstep : (match (some w : Option (List String)) with
        | none => none
        | some v =>
          if t.id ∈ v then some v
          else isCyclicAux tasks (graphFuel tasks) t.id [] v) = some w := by
        show (if t.id ∈ w then some w
          else isCyclicAux tasks (graphFuel tasks) t.id [] w) = some w
        rw [if_pos htw]
      rw [hstep] at h0
      obtain ⟨hmono, hgood, hmem⟩ := ihl w hg h0
      refine ⟨hmono, hgood, ?_⟩
      intro u hu
      rcases List.mem_cons.1 hu with he | hu2
      · subst he
        exact hmono _ htw
      · exact hmem u hu2
    · cases haux : isCyclicAux tasks (graphFuel tasks) t.id [] w with
      | none =>
        exfalso
        have hstep : (match (some w : Option (List String)) with
          | none => none
          | some v =>
            if t.id ∈ v then some v
            else isCyclicAux tasks (graphFuel tasks) t.id [] v) =
            (none : Option (List String)) := by
          show (if t.id ∈ w then some w
            else isCyclicAux tasks (graphFuel tasks) t.id [] w) =
            (none : Option (List String))
          rw [if_neg htw, haux]
        rw [hstep, foldl_none_of _ (fun b => rfl)] at h0
        cases h0
      | some w2 =>
        obtain ⟨hm2, hid2, hg2⟩ := isCyclicAux_sound tasks (graphFuel tasks)
          t.id [] w w2 (fun x hx => absurd hx (List.not_mem_nil x)) hg
          (List.not_mem_nil _) haux
        have hstep : (match (some w : Option (List String)) with
          | none => none
          | some v =>
            if t.id ∈ v then some v
            else isCyclicAux tasks (graphFuel tasks) t.id [] v) = some w2 := by
          show (if t.id ∈ w then some w
            else isCyclicAux tasks (graphFuel tasks) t.id [] w) = some w2
          rw [if_neg htw, haux]
        rw [hstep] at h0
        obtain ⟨hmono, hgood, hmem⟩ := ihl w2 hg2 h0
        refine ⟨fun x hx => hmono x (hm2 x hx), hgood, ?_⟩
        intro u hu
        rcases List.mem_cons.1 hu with he | hu2
        · subst he
          exact hmono _ hid2
        · exact hmem u hu2

/-- The task ids of a task list. -/
def taskIds (tasks : List Task) : List String := tasks.map (fun t => t.id)

theorem validate_acyclic {tasks : List Task} {v : List String}
    (h : validateNoCyclicDependencies tasks = some v) :
    ∀ a, ¬ Relation.TransGen (Edge tasks) a a := by
  obtain ⟨hgood, hmem⟩ := validate_sound h
  intro a hcyc
  obtain ⟨b, hedge, _⟩ := Relation.TransGen.head'_iff.1 hcyc
  obtain ⟨t, htf, _⟩ := hedge
  have hta : t.id = a := by simpa using List.find?_some htf
  have htm : t ∈ tasks := List.mem_of_find?_eq_some htf
  exact hgood.2 a (hta ▸ hmem t htm) (List.not_mem_nil a) hcyc

theorem nodup_subset_length_le {l1 l2 : List String} (h1 : l1.Nodup)
    (h : l1 ⊆ l2) : l1.length ≤ l2.length := by
  calc l1.length = l1.toFinset.card := (List.toFinset_card_of_nodup h1).symm
  _ ≤ l2.toFinset.card := by
    refine Finset.card_le_card ?_
    intro x hx
    rw [List.mem_toFinset] at hx ⊢
    exact h hx
  _ ≤ l2.length := l2.toFinset_card_le

/-- All ids a traversal of the task graph can ever visit. -/
def idUniverse (tasks : List Task) : List String :=
  tasks.map (fun t => t.id) ++
    tasks.flatMap (fun t => t.predecessors.map (fun p => p.taskId))

theorem graphFuel_eq (tasks : List Task) :
    graphFuel tasks = (idUniverse tasks).length + 1 := by
  unfold graphFuel idUniverse
  simp only [List.length_append, List.length_map, List.length_flatMap]
  congr 1
  congr 1
  induction tasks with
  | nil => rfl
  | cons t ts ih => simp [ih]

/-- Every resolvable predecessor of a listed task appears earlier in the
list. -/
def PredsOrdered (tasks : List Task) (res : List Task) : Prop :=
  ∀ i, ∀ hi : i < res.length, ∀ p ∈ (res.get ⟨i, hi⟩).predecessors,
    p.taskId ∈ taskIds tasks →
    ∃ j, ∃ hj : j < res.length, j < i ∧ (res.get ⟨j, hj⟩).id = p.taskId

/-- State invariant of the depth-first topological sort: the visited set is
nodup and drawn from the id universe, emitted tasks are real tasks off the
current stack, every visited task id off the stack has been emitted, emitted
ids are distinct, and emitted tasks come after their predecessors. -/
def TopoState (tasks : List Task) (stack vis : List String)
    (res : List Task) : Prop :=
  vis.Nodup ∧ (∀ x ∈ vis, x ∈ idUniverse tasks) ∧
  (∀ t ∈ res, t ∈ tasks ∧ t.id ∈ vis ∧ t.id ∉ stack) ∧
  (∀ x ∈ vis, x ∉ stack → x ∈ taskIds tasks → ∃ t ∈ res, t.id = x) ∧
  (res.map (fun t => t.id)).Nodup ∧
  PredsOrdered tasks res

theorem predsOrdered_append {tasks : List Task} {res : List Task}
    (h : PredsOrdered tasks res) {task : Task}
    (hpred : ∀ p ∈ task.predecessors, p.taskId ∈ taskIds tasks →
      ∃ t ∈ res, t.id = p.taskId) :
    PredsOrdered tasks (res ++ [task]) := by
  intro i hi p hp hptid
  by_cases hlt : i < res.length
  · have hget : (res ++ [task]).get ⟨i, hi⟩ = res.get ⟨i, hlt⟩ := by
      simp only [List.get_eq_getElem]
      exact List.getElem_append_left hlt
    rw [hget] at hp
    obtain ⟨j, hj, hji, hjid⟩ := h i hlt p hp hptid
    refine ⟨j, by simp only [List.length_append]; omega, hji, ?_⟩
    have hget2 : (res ++ [task]).get ⟨j, by simp only [List.length_append]; omega⟩ =
        res.get ⟨j, hj⟩ := by
      simp only [List.get_eq_getElem]
      exact List.getElem_append_left hj
    rw [hget2]
    exact hjid
  · have hieq : i = res.length := by
      simp only [List.length_append, List.length_cons, List.length_nil] at hi
      omega
    have hget : (res ++ [task]).get ⟨i, hi⟩ = task := by
      simp only [List.get_eq_getElem, hieq]
      rw [List.getElem_append_right (le_refl _)]
      simp
    rw [hget] at hp
    obtain ⟨t, htmem, htid⟩ := hpred p hp hptid
    obtain ⟨⟨j, hj⟩, rfl⟩ := List.mem_iff_get.1 htmem
    refine ⟨j, by simp only [List.length_append]; omega, by omega, ?_⟩
    have hget2 : (res ++ [task]).get ⟨j, by simp only [List.length_append]; omega⟩ =
        res.get ⟨j, hj⟩ := by
      simp only [List.get_eq_getElem]
      exact List.getElem_append_left hj
    rw [hget2]
    exact htid

theorem topoVisit_sound (tasks : List Task)
    (hacyc : ∀ a, ¬ Relation.TransGen (Edge tasks) a a) :
    ∀ fuel id stack vis res,
      (idUniverse tasks).length + 1 ≤ fuel + vis.length →
      id ∈ idUniverse tasks →
      (∀ a ∈ stack, Relation.TransGen (Edge tasks) a id) →
      (∀ x ∈ stack, x ∈ vis) →
      TopoState tasks stack vis res →
      ∃ vis2 res2,
        topoVisit tasks fuel id (vis, res) = (vis2, res2) ∧
        (∀ x ∈ vis, x ∈ vis2) ∧ id ∈ vis2 ∧
        (∃ d2, res2 = res ++ d2) ∧
        TopoState tasks stack vis2 res2 := by
  intro fuel
  induction fuel with
  | zero =>
    intro id stack vis res hfuel _ _ _ hst
    exfalso
    have hle : vis.length ≤ (idUniverse tasks).length :=
      nodup_subset_length_le hst.1 (fun x hx => hst.2.1 x hx)
    omega
  | succ n ih =>
    intro id stack vis res hfuel hidU hstackreach hstackvis hst
    obtain ⟨hnd, hU, hA, hB, hrnd, hord⟩ := hst
    by_cases hv : id ∈ vis
    · refine ⟨vis, res, ?_, fun x hx => hx, hv, ⟨[], by simp⟩,
        hnd, hU, hA, hB, hrnd, hord⟩
      show (if id ∈ vis then (vis, res) else _) = (vis, res)
      rw [if_pos hv]
    · have hvlen : vis.length ≤ (idUniverse tasks).length :=
        nodup_subset_length_le hnd (fun x hx => hU x hx)
      have hnd1 : (id :: vis).Nodup := List.nodup_cons.2 ⟨hv, hnd⟩
      have hU1 : ∀ x ∈ (id :: vis : List String), x ∈ idUniverse tasks := by
        intro x hx
        rcases List.mem_cons.1 hx with he | h0
        · rw [he]; exact hidU
        · exact hU x h0
      cases hft : findTaskById tasks id with
      | none =>
        have heq : topoVisit tasks (n + 1) id (vis, res) = (id :: vis, res) := by
          show (if id ∈ vis then (vis, res) else
            match findTaskById tasks id with
            | none => (id :: vis, res)
            | some task =>
              ((task.predecessors.foldl
                (fun a p => topoVisit tasks n p.taskId a) (id :: vis, res)).1,
               (task.predecessors.foldl
                (fun a p => topoVisit tasks n p.taskId a) (id :: vis, res)).2
                 ++ [task])) = (id :: vis, res)
          rw [if_neg hv, hft]
        have hid_not_task : id ∉ taskIds tasks := by
          intro hm
          obtain ⟨t, htm, htid⟩ := List.mem_map.1 hm
          have := List.find?_eq_none.1 hft t htm
          simp [htid] at this
        refine ⟨id :: vis, res, heq, fun x hx => List.mem_cons_of_mem _ hx,
          List.mem_cons_self _ _, ⟨[], by simp⟩, hnd1, hU1, ?_, ?_, hrnd, hord⟩
        · intro t htm
          obtain ⟨h1, h2, h3⟩ := hA t htm
          exact ⟨h1, List.mem_cons_of_mem _ h2, h3⟩
        · intro x hx hxs hxt
          rcases List.mem_cons.1 hx with he | h0
          · exact absurd (he ▸ hxt) hid_not_task
          · exact hB x h0 hxs hxt
      | some task =>
        have htaskmem : task ∈ tasks := List.mem_of_find?_eq_some hft
        have htaskid : task.id = id := by simpa using List.find?_some hft
        have hidnotstack : id ∉ stack := by
          intro hm
          exact hacyc id (hstackreach id hm)
        have hedge_id : ∀ p ∈ task.predecessors, Edge tasks id p.taskId := by
          intro p hp
          exact ⟨task, hft, List.mem_map_of_mem _ hp⟩
        have hst1 : TopoState tasks (id :: stack) (id :: vis) res := by
          refine ⟨hnd1, hU1, ?_, ?_, hrnd, hord⟩
          · intro t htm
            obtain ⟨h1, h2, h3⟩ := hA t htm
            refine ⟨h1, List.mem_cons_of_mem _ h2, ?_⟩
            intro hm
            rcases List.mem_cons.1 hm with he | h0
            · exact hv (he ▸ h2)
            · exact h3 h0
          · intro x hx hxs hxt
            have hxid : x ≠ id := by
              intro he
              exact hxs (he ▸ List.mem_cons_self _ _)
            have hx0 : x ∈ vis := by
              rcases List.mem_cons.1 hx with he | h0
              · exact absurd he hxid
              · exact h0
            exact hB x hx0 (fun hm => hxs (List.mem_cons_of_mem _ hm)) hxt
        have hstackvis1 : ∀ x ∈ (id :: stack : List String),
            x ∈ (id :: vis : List String) := by
          intro x hx
          rcases List.mem_cons.1 hx with he | h0
          · rw [he]; exact List.mem_cons_self _ _
          · exact List.mem_cons_of_mem _ (hstackvis x h0)
        have Hfold : ∀ (l : List Predecessor),
            (∀ p ∈ l, p ∈ task.predecessors) → ∀ w resw,
            (∀ x ∈ (id :: vis : List String), x ∈ w) →
            TopoState tasks (id :: stack) w resw →
            (∃ d0, resw = res ++ d0) →
            ∃ w2 res2,
              l.foldl (fun a p => topoVisit tasks n p.taskId a) (w, resw) =
                (w2, res2) ∧
              (∀ x ∈ w, x ∈ w2) ∧ (∃ d3, res2 = resw ++ d3) ∧
              TopoState tasks (id :: stack) w2 res2 ∧
              (∀ p ∈ l, p.taskId ∈ w2) := by
          intro l
          induction l with
          | nil =>
            intro _ w resw _ hstw _
            exact ⟨w, resw, rfl, fun x hx => hx, ⟨[], by simp⟩, hstw,
              fun p hp => absurd hp (List.not_mem_nil p)⟩
          | cons p ps ihl =>
            intro hmem w resw hwsub hstw hd0
            have hp0 : p ∈ task.predecessors := hmem p (List.mem_cons_self _ _)
            have hwlen : (id :: vis).length ≤ w.length :=
              nodup_subset_length_le hnd1 hwsub
            have hfuel2 : (idUniverse tasks).length + 1 ≤ n + w.length := by
              simp only [List.length_cons] at hwlen
              omega
            have hpU : p.taskId ∈ idUniverse tasks := by
              unfold idUniverse
              refine List.mem_append.2 (Or.inr ?_)
              rw [List.mem_flatMap]
              exact ⟨task, htaskmem, List.mem_map_of_mem _ hp0⟩
            have hreach1 : ∀ a ∈ (id :: stack : List String),
                Relation.TransGen (Edge tasks) a p.taskId := by
              intro a ha
              rcases List.mem_cons.1 ha with he | h0
              · rw [he]
                exact Relation.TransGen.single (hedge_id p hp0)
              · exact Relation.TransGen.tail (hstackreach a h0) (hedge_id p hp0)
            have hsv1 : ∀ x ∈ (id :: stack : List String), x ∈ w :=
              fun x hx => hwsub x (hstackvis1 x hx)
            obtain ⟨w2, res2, heq2, hmono2, hid2, hd2, hst2⟩ :=
              ih p.taskId (id :: stack) w resw hfuel2 hpU hreach1 hsv1 hstw
            rw [List.foldl_cons, heq2]
            obtain ⟨w3, res3, heq3, hmono3, hd3, hst3, hsucc3⟩ :=
              ihl (fun u hu => hmem u (List.mem_cons_of_mem _ hu)) w2 res2
                (fun x hx => hmono2 x (hwsub x hx)) hst2
                (by
                  obtain ⟨d2, hd2e⟩ := hd2
                  obtain ⟨d0, hd0e⟩ := hd0
                  exact ⟨d0 ++ d2, by rw [hd2e, hd0e, List.append_assoc]⟩)
            refine ⟨w3, res3, heq3, fun x hx => hmono3 x (hmono2 x hx), ?_,
              hst3, ?_⟩
            · obtain ⟨d2, hd2e⟩ := hd2
              obtain ⟨d3, hd3e⟩ := hd3
              exact ⟨d2 ++ d3, by rw [hd3e, hd2e, List.append_assoc]⟩
            · intro u hu
              rcases List.mem_cons.1 hu with he | h0
              · rw [he]
                exact hmono3 _ hid2
              · exact hsucc3 u h0
        obtain ⟨wf, resf, heqf, hmonof, hdf, hstf, hsuccf⟩ :=
          Hfold task.predecessors (fun p hp => hp) (id :: vis) res
            (fun x hx => hx) hst1 ⟨[], by simp⟩
        obtain ⟨hndf, hUf, hAf, hBf, hrndf, hordf⟩ := hstf
        have heq : topoVisit tasks (n + 1) id (vis, res) = (wf, resf ++ [task]) := by
          show (if id ∈ vis then (vis, res) else
            match findTaskById tasks id with
            | none => (id :: vis, res)
            | some task =>
              ((task.predecessors.foldl
                (fun a p => topoVisit tasks n p.taskId a) (id :: vis, res)).1,
               (task.predecessors.foldl
                (fun a p => topoVisit tasks n p.taskId a) (id :: vis, res)).2
                 ++ [task])) = (wf, resf ++ [task])
          rw [if_neg hv, hft]
          show ((task.predecessors.foldl
              (fun a p => topoVisit tasks n p.taskId a) (id :: vis, res)).1,
            (task.predecessors.foldl
              (fun a p => topoVisit tasks n p.taskId a) (id :: vis, res)).2
              ++ [task]) = (wf, resf ++ [task])
          rw [heqf]
        have hsucc_black : ∀ p ∈ task.predecessors,
            p.taskId ∉ (id :: stack : List String) := by
          intro p hp hm
          rcases List.mem_cons.1 hm with he | h0
          · exact hacyc id (Relation.TransGen.single (he ▸ hedge_id p hp))
          · exact hacyc p.taskId (Relation.TransGen.tail
              (hstackreach p.taskId h0) (hedge_id p hp))
        have hsucc_res : ∀ p ∈ task.predecessors,
            p.taskId ∈ taskIds tasks → ∃ t ∈ resf, t.id = p.taskId := by
          intro p hp hpt
          exact hBf p.taskId (hsuccf p hp) (hsucc_black p hp) hpt
        have hid_not_resf : ∀ t ∈ resf, t.id ≠ id := by
          intro t htm he
          exact (hAf t htm).2.2 (he ▸ List.mem_cons_self _ _)
        refine ⟨wf, resf ++ [task], heq,
          fun x hx => hmonof x (List.mem_cons_of_mem _ hx),
          hmonof id (List.mem_cons_self _ _), ?_, ?_⟩
        · obtain ⟨df, hdfe⟩ := hdf
          exact ⟨df ++ [task], by rw [hdfe, List.append_assoc]⟩
        · refine ⟨hndf, hUf, ?_, ?_, ?_, ?_⟩
          · intro t htm
            rcases List.mem_append.1 htm with h0 | h1
            · obtain ⟨h1, h2, h3⟩ := hAf t h0
              exact ⟨h1, h2, fun hm => h3 (List.mem_cons_of_mem _ hm)⟩
            · rw [List.mem_singleton.1 h1]
              exact ⟨htaskmem, htaskid ▸ hmonof id (List.mem_cons_self _ _),
                htaskid ▸ hidnotstack⟩
          · intro x hx hxs hxt
            by_cases hxid : x = id
            · refine ⟨task, List.mem_append.2 (Or.inr (List.mem_singleton.2 rfl)), ?_⟩
              rw [htaskid, hxid]
            · obtain ⟨t, htm, htid⟩ := hBf x hx
                (fun hm => by
                  rcases List.mem_cons.1 hm with he | h0
                  · exact hxid he
                  · exact hxs h0) hxt
              exact ⟨t, List.mem_append.2 (Or.inl htm), htid⟩
          · rw [List.map_append]
            refine List.Nodup.append hrndf (by simp) ?_
            intro x hx1 hx2
            simp only [List.map_cons, List.map_nil, List.mem_singleton] at hx2
            obtain ⟨t, htm, htid⟩ := List.mem_map.1 hx1
            rw [hx2, htaskid] at htid
            exact hid_not_resf t htm htid
          · exact predsOrdered_append hordf hsucc_res

theorem topologicalSort_sound (tasks : List Task)
    (hacyc : ∀ a, ¬ Relation.TransGen (Edge tasks) a a) :
    (∀ t ∈ topologicalSort tasks, t ∈ tasks) ∧
    ((topologicalSort tasks).map (fun t => t.id)).Nodup ∧
    PredsOrdered tasks (topologicalSort tasks) ∧
    (∀ t ∈ tasks, ∃ u ∈ topologicalSort tasks, u.id = t.id) := by
  unfold topologicalSort
  suffices H : ∀ (l : List Task), (∀ t ∈ l, t ∈ tasks) → ∀ vis res,
      TopoState tasks [] vis res →
      ∃ vis2 res2, l.foldl (fun acc t =>
        if t.id ∈ acc.1 then acc
        else topoVisit tasks (graphFuel tasks) t.id acc) (vis, res) = (vis2, res2) ∧
        (∀ x ∈ vis, x ∈ vis2) ∧ TopoState tasks [] vis2 res2 ∧
        (∀ t ∈ l, t.id ∈ vis2) by
    obtain ⟨vis2, res2, heq, _, hst, hall⟩ := H tasks (fun t ht => ht) [] []
      ⟨List.nodup_nil, fun x hx => absurd hx (List.not_mem_nil x),
       fun t ht => absurd ht (List.not_mem_nil t),
       fun x hx _ _ => absurd hx (List.not_mem_nil x),
       List.nodup_nil, fun i hi => absurd hi (Nat.not_lt_zero i)⟩
    rw [heq]
    obtain ⟨_, _, hA, hB, hrnd, hord⟩ := hst
    refine ⟨fun t ht => (hA t ht).1, hrnd, hord, ?_⟩
    intro t ht
    obtain ⟨u, hu, huid⟩ := hB t.id (hall t ht) (List.not_mem_nil _)
      (List.mem_map_of_mem _ ht)
    exact ⟨u, hu, huid⟩
  intro l
  induction l with
  | nil =>
    intro _ vis res hst
    exact ⟨vis, res, rfl, fun x hx => hx, hst,
      fun t ht => absurd ht (List.not_mem_nil t)⟩
  | cons t ts ihl =>
    intro hmem vis res hst
    rw [List.foldl_cons]
    by_cases htv : t.id ∈ vis
    · have hstep : (if t.id ∈ (vis, res).1 then (vis, res)
          else topoVisit tasks (graphFuel tasks) t.id (vis, res)) = (vis, res) := by
        show (if t.id ∈ vis then (vis, res) else _) = (vis, res)
        rw [if_pos htv]
      rw [hstep]
      obtain ⟨vis2, res2, heq2, hmono2, hst2, hall2⟩ :=
        ihl (fun u hu => hmem u (List.mem_cons_of_mem _ hu)) vis res hst
      refine ⟨vis2, res2, heq2, hmono2, hst2, ?_⟩
      intro u hu
      rcases List.mem_cons.1 hu with he | h0
      · rw [he]
        exact hmono2 _ htv
      · exact hall2 u h0
    · have hfuel : (idUniverse tasks).length + 1 ≤
          graphFuel tasks + vis.length := by
        rw [graphFuel_eq]
        omega
      have htU : t.id ∈ idUniverse tasks := by
        unfold idUniverse
        exact List.mem_append.2 (Or.inl
          (List.mem_map_of_mem _ (hmem t (List.mem_cons_self _ _))))
      obtain ⟨vis2, res2, heq2, hmono2, hid2, _, hst2⟩ :=
        topoVisit_sound tasks hacyc (graphFuel tasks) t.id [] vis res hfuel htU
          (fun a ha => absurd ha (List.not_mem_nil a))
          (fun x hx => absurd hx (List.not_mem_nil x)) hst
      have hstep : (if t.id ∈ (vis, res).1 then (vis, res)
          else topoVisit tasks (graphFuel tasks) t.id (vis, res)) = (vis2, res2) := by
        show (if t.id ∈ vis then (vis, res) else
          topoVisit tasks (graphFuel tasks) t.id (vis, res)) = (vis2, res2)
        rw [if_neg htv, heq2]
      rw [hstep]
      obtain ⟨vis3, res3, heq3, hmono3, hst3, hall3⟩ :=
        ihl (fun u hu => hmem u (List.mem_cons_of_mem _ hu)) vis2 res2 hst2
      refine ⟨vis3, res3, heq3, fun x hx => hmono3 x (hmono2 x hx), hst3, ?_⟩
      intro u hu
      rcases List.mem_cons.1 hu with he | h0
      · rw [he]
        exact hmono3 _ hid2
      · exact hall3 u h0

/-- The fields of a task the early-date computation never writes. -/
def sskel3 (t : Task) : String × List Predecessor × ℚ :=
  (t.id, t.predecessors, t.duration)

theorem map_id_of_sskel3 {l1 l2 : List Task}
    (h : l1.map sskel3 = l2.map sskel3) :
    l1.map (fun t => t.id) = l2.map (fun t => t.id) := by
  have h1 : (l1.map sskel3).map (fun x => x.1) =
      (l2.map sskel3).map (fun x => x.1) := by rw [h]
  rw [List.map_map, List.map_map] at h1
  exact h1

theorem find?_sskel3_corr {l1 l2 : List Task}
    (h : l1.map sskel3 = l2.map sskel3) (x : String) :
    Option.map sskel3 (l1.find? (fun t => t.id = x)) =
      Option.map sskel3 (l2.find? (fun t => t.id = x)) := by
  induction l1 generalizing l2 with
  | nil =>
    cases l2 with
    | nil => rfl
    | cons b bs => cases h
  | cons a as ih =>
    cases l2 with
    | nil => cases h
    | cons b bs =>
      injection h with h1 h2
      have hid : a.id = b.id := by
        have := congrArg (fun y => y.1) h1
        exact this
      by_cases hax : a.id = x
      · rw [List.find?_cons_of_pos _ (by simpa using hax),
          List.find?_cons_of_pos _ (by simp [← hid, hax])]
        show some (sskel3 a) = some (sskel3 b)
        rw [h1]
      · rw [List.find?_cons_of_neg _ (by simpa using hax),
          List.find?_cons_of_neg _ (by simp [← hid, hax])]
        exact ih h2

theorem find?_map_id_pres {F : Task → Task} (hF : ∀ t, (F t).id = t.id)
    (l : List Task) (x : String) :
    (l.map F).find? (fun t => t.id = x) =
      (l.find? (fun t => t.id = x)).map F := by
  induction l with
  | nil => rfl
  | cons a as ih =>
    by_cases hax : a.id = x
    · have h1 : ((a :: as).map F).find? (fun t => t.id = x) = some (F a) := by
        rw [List.map_cons]
        exact List.find?_cons_of_pos _ (by simp [hF a, hax])
      have h2 : (a :: as).find? (fun t => t.id = x) = some a :=
        List.find?_cons_of_pos _ (by simpa using hax)
      rw [h1, h2]
      rfl
    · have h1 : ((a :: as).map F).find? (fun t => t.id = x) =
          (as.map F).find? (fun t => t.id = x) := by
        rw [List.map_cons]
        exact List.find?_cons_of_neg _ (by simp [hF a, hax])
      have h2 : (a :: as).find? (fun t => t.id = x) =
          as.find? (fun t => t.id = x) :=
        List.find?_cons_of_neg _ (by simpa using hax)
      rw [h1, h2]
      exact ih

theorem fsCalculateEarlyDates_sskel3 (task ft : Task) (lag : ℚ) :
    sskel3 (fsCalculateEarlyDates task ft lag) = sskel3 ft := by
  unfold fsCalculateEarlyDates
  cases task.earlyFinish with
  | none => rfl
  | some ef =>
    cases ft.earlyStart with
    | none => rfl
    | some es =>
      by_cases hlt : es < ef + lag
      · show sskel3 (if es < ef + lag then _ else ft) = sskel3 ft
        rw [if_pos hlt]
        rfl
      · show sskel3 (if es < ef + lag then _ else ft) = sskel3 ft
        rw [if_neg hlt]

theorem fsCalculateEarlyDates_id (task ft : Task) (lag : ℚ) :
    (fsCalculateEarlyDates task ft lag).id = ft.id := by
  have := fsCalculateEarlyDates_sskel3 task ft lag
  exact congrArg (fun y => y.1) this

theorem foldl_pred_congr {f g : ℚ → Predecessor → ℚ} :
    ∀ {l : List Predecessor}, (∀ m, ∀ p ∈ l, f m p = g m p) →
    ∀ a, l.foldl f a = l.foldl g a := by
  intro l
  induction l with
  | nil => intro _ a; rfl
  | cons p ps ih =>
    intro h a
    rw [List.foldl_cons, List.foldl_cons, h a p (List.mem_cons_self _ _)]
    exact ih (fun m q hq => h m q (List.mem_cons_of_mem _ hq)) _

theorem foldl_es_ge (cur : List Task) :
    ∀ (l : List Predecessor) (m : ℚ), m ≤ l.foldl (fun m p =>
      match findTaskById cur p.taskId with
      | some predTask =>
        match predTask.earlyFinish with
        | some ef => max m (ef + p.lag)
        | none => m
      | none => m) m := by
  intro l
  induction l with
  | nil => intro m; exact le_refl m
  | cons p ps ih =>
    intro m
    rw [List.foldl_cons]
    refine le_trans ?_ (ih _)
    cases findTaskById cur p.taskId with
    | none => exact le_refl m
    | some u =>
      show m ≤ (match u.earlyFinish with
        | some ef => max m (ef + p.lag)
        | none => m)
      cases u.earlyFinish with
      | none => exact le_refl m
      | some ef =>
        show m ≤ max m (ef + p.lag)
        exact le_max_left _ _

theorem initEarly_sskel3 (tasks : List Task) :
    (initEarly tasks).map sskel3 = tasks.map sskel3 := by
  unfold initEarly
  rw [List.map_map, List.map_map]
  refine List.map_congr_left ?_
  intro t _
  show sskel3 (if t.predecessors = [] then _ else _) = sskel3 t
  by_cases h : t.predecessors = []
  · rw [if_pos h]
    rfl
  · rw [if_neg h]
    rfl

theorem taskIds_initEarly (tasks : List Task) :
    taskIds (initEarly tasks) = taskIds tasks :=
  map_id_of_sskel3 (initEarly_sskel3 tasks)

theorem edge_iff_of_sskel3 {l1 l2 : List Task}
    (h : l1.map sskel3 = l2.map sskel3) (a b : String) :
    Edge l1 a b ↔ Edge l2 a b := by
  have hc := find?_sskel3_corr h a
  unfold Edge findTaskById
  cases h1 : l1.find? (fun t => t.id = a) with
  | none =>
    cases h2 : l2.find? (fun t => t.id = a) with
    | none => simp
    | some u => rw [h1, h2] at hc; cases hc
  | some u =>
    cases h2 : l2.find? (fun t => t.id = a) with
    | none => rw [h1, h2] at hc; cases hc
    | some w =>
      rw [h1, h2] at hc
      have hw : sskel3 u = sskel3 w := by
        injection hc with h0
      have hpred : u.predecessors = w.predecessors := by
        have := congrArg (fun y => y.2.1) hw
        exact this
      constructor
      · rintro ⟨t, ht, hb⟩
        have htu : u = t := by injection ht with h0
        refine ⟨w, rfl, ?_⟩
        rw [← hpred, htu]
        exact hb
      · rintro ⟨t, ht, hb⟩
        have htu : w = t := by injection ht with h0
        refine ⟨u, rfl, ?_⟩
        rw [hpred, htu]
        exact hb

theorem find?_eq_of_nodup_mem {l : List Task}
    (hnd : (l.map (fun t => t.id)).Nodup)
    {t : Task} (ht : t ∈ l) {x : String} (hx : t.id = x) :
    l.find? (fun u => u.id = x) = some t := by
  cases hf : l.find? (fun u => u.id = x) with
  | none =>
    have := List.find?_eq_none.1 hf t ht
    simp [hx] at this
  | some u =>
    have hu : u ∈ l := List.mem_of_find?_eq_some hf
    have huid : u.id = x := by simpa using List.find?_some hf
    have heq : u = t :=
      List.inj_on_of_nodup_map hnd hu ht (by rw [huid, hx])
    rw [heq]

theorem predsOrdered_decomp {tasks res : List Task} (h : PredsOrdered tasks res)
    (pre : List Task) (u : Task) (post : List Task)
    (hres : res = pre ++ u :: post) :
    ∀ p ∈ u.predecessors, p.taskId ∈ taskIds tasks →
      ∃ w ∈ pre, w.id = p.taskId := by
  intro p hp hpt
  have hi : pre.length < res.length := by
    rw [hres]
    simp only [List.length_append, List.length_cons]
    omega
  have hget : res.get ⟨pre.length, hi⟩ = u := by
    simp only [List.get_eq_getElem, hres]
    rw [List.getElem_append_right (le_refl _)]
    simp
  obtain ⟨j, hj, hjlt, hjid⟩ := h pre.length hi p (by rw [hget]; exact hp) hpt
  have hjpre : j < pre.length := hjlt
  have hget2 : res.get ⟨j, hj⟩ = pre.get ⟨j, hjpre⟩ := by
    simp only [List.get_eq_getElem, hres]
    exact List.getElem_append_left hjpre
  exact ⟨pre.get ⟨j, hjpre⟩, List.get_mem _ _ _, by rw [← hget2]; exact hjid⟩

/-- The per-task function of `strategyPass` once the source task is
resolved. -/
def sfun (task : Task) (id : String) : Task → Task := fun fromTask =>
  match fromTask.predecessors.find? (fun p => p.taskId = id) with
  | none => fromTask
  | some dep => fsCalculateEarlyDates task fromTask dep.lag

/-- The early-start value `recomputeEarly` assigns: running maximum, seeded
with 0, of predecessor early finish plus lag over resolvable predecessors
with a defined early finish. -/
def esFormula (cur : List Task) (t : Task) : ℚ :=
  t.predecessors.foldl (fun m p =>
    match findTaskById cur p.taskId with
    | some predTask =>
      match predTask.earlyFinish with
      | some ef => max m (ef + p.lag)
      | none => m
    | none => m) 0

/-- The per-task function of `recomputeEarly`. -/
def rfun (cur : List Task) (id : String) : Task → Task := fun t =>
  if t.id = id ∧ t.predecessors ≠ [] then
    { t with earlyStart := some (esFormula cur t),
             earlyFinish := some (esFormula cur t + t.duration) }
  else t

theorem strategyPass_eq {cur : List Task} {id : String} {task : Task}
    (h : findTaskById cur id = some task) :
    strategyPass cur id = cur.map (sfun task id) := by
  unfold strategyPass
  rw [h]
  rfl

theorem recomputeEarly_eq (cur : List Task) (id : String) :
    recomputeEarly cur id = cur.map (rfun cur id) := rfl

theorem sfun_sskel3 (task : Task) (id : String) (t : Task) :
    sskel3 (sfun task id t) = sskel3 t := by
  unfold sfun
  cases t.predecessors.find? (fun p => p.taskId = id) with
  | none => rfl
  | some dep => exact fsCalculateEarlyDates_sskel3 _ _ _

theorem rfun_sskel3 (cur : List Task) (id : String) (t : Task) :
    sskel3 (rfun cur id t) = sskel3 t := by
  unfold rfun
  by_cases h : t.id = id ∧ t.predecessors ≠ []
  · rw [if_pos h]
    rfl
  · rw [if_neg h]

theorem sfun_id (task : Task) (id : String) (t : Task) :
    (sfun task id t).id = t.id :=
  congrArg (fun y => y.1) (sfun_sskel3 task id t)

theorem rfun_id (cur : List Task) (id : String) (t : Task) :
    (rfun cur id t).id = t.id :=
  congrArg (fun y => y.1) (rfun_sskel3 cur id t)

theorem sfun_eq_self {task : Task} {id : String} {t : Task}
    (h : ∀ p ∈ t.predecessors, p.taskId ≠ id) : sfun task id t = t := by
  have hn : t.predecessors.find? (fun p => p.taskId = id) = none :=
    List.find?_eq_none.2 (fun p hp => by simpa using h p hp)
  unfold sfun
  rw [hn]

theorem rfun_eq_self {cur : List Task} {id : String} {t : Task}
    (h : t.id ≠ id ∨ t.predecessors = []) : rfun cur id t = t := by
  unfold rfun
  rw [if_neg]
  rintro ⟨h1, h2⟩
  rcases h with h | h
  · exact h h1
  · exact h2 h

/-- The early finish stored at an id, `none` when the id is unresolvable. -/
def efAt (cur : List Task) (x : String) : Option ℚ :=
  match findTaskById cur x with
  | some u => u.earlyFinish
  | none => none

theorem esFormula_congr {cur1 cur2 : List Task} {t : Task}
    (h : ∀ p ∈ t.predecessors, efAt cur1 p.taskId = efAt cur2 p.taskId) :
    esFormula cur1 t = esFormula cur2 t := by
  unfold esFormula
  refine foldl_pred_congr ?_ 0
  intro m p hp
  have h1 := h p hp
  unfold efAt at h1
  show (match findTaskById cur1 p.taskId with
    | some predTask =>
      match predTask.earlyFinish with
      | some ef => max m (ef + p.lag)
      | none => m
    | none => m) = (match findTaskById cur2 p.taskId with
    | some predTask =>
      match predTask.earlyFinish with
      | some ef => max m (ef + p.lag)
      | none => m
    | none => m)
  cases hf1 : findTaskById cur1 p.taskId with
  | none =>
    rw [hf1] at h1
    cases hf2 : findTaskById cur2 p.taskId with
    | none => rfl
    | some w =>
      rw [hf2] at h1
      have h2 : (none : Option ℚ) = w.earlyFinish := h1
      show m = (match w.earlyFinish with
        | some ef => max m (ef + p.lag)
        | none => m)
      rw [← h2]
  | some u =>
    rw [hf1] at h1
    cases hf2 : findTaskById cur2 p.taskId with
    | none =>
      rw [hf2] at h1
      have h2 : u.earlyFinish = (none : Option ℚ) := h1
      show (match u.earlyFinish with
        | some ef => max m (ef + p.lag)
        | none => m) = m
      rw [h2]
    | some w =>
      rw [hf2] at h1
      have h2 : u.earlyFinish = w.earlyFinish := h1
      show (match u.earlyFinish with
        | some ef => max m (ef + p.lag)
        | none => m) = (match w.earlyFinish with
        | some ef => max m (ef + p.lag)
        | none => m)
      rw [h2]

theorem esFormula_nonneg (cur : List Task) (t : Task) :
    0 ≤ esFormula cur t :=
  foldl_es_ge cur t.predecessors 0

/-- Invariant of the topological sweep of `calculateEarlyDates`: the static
fields match the initial list, start tasks keep their initialization, and
every processed task with predecessors holds the recomputation formula read
from the current state, all its predecessors being resolvable with a defined
early finish. -/
def SweepInv (ts : List Task) (done : List String) (cur : List Task) : Prop :=
  cur.map sskel3 = ts.map sskel3 ∧
  (∀ t ∈ cur, t.predecessors = [] →
    t.earlyStart = some 0 ∧ t.earlyFinish = some t.duration) ∧
  (∀ t ∈ cur, t.id ∈ done → t.predecessors ≠ [] →
    t.earlyStart = some (esFormula cur t) ∧
    t.earlyFinish = some (esFormula cur t + t.duration) ∧
    (∀ p ∈ t.predecessors, ∃ u ef, findTaskById cur p.taskId = some u ∧
      u.earlyFinish = some ef))

theorem map_sskel3_pres {F : Task → Task} (hF : ∀ t, sskel3 (F t) = sskel3 t)
    (l : List Task) : (l.map F).map sskel3 = l.map sskel3 := by
  rw [List.map_map]
  exact List.map_congr_left (fun t _ => hF t)

theorem mem_corr_of_sskel3 {l1 l2 : List Task}
    (h : l1.map sskel3 = l2.map sskel3) :
    ∀ t ∈ l1, ∃ t0 ∈ l2, sskel3 t0 = sskel3 t := by
  intro t ht
  have hm : sskel3 t ∈ l2.map sskel3 := by
    rw [← h]
    exact List.mem_map_of_mem _ ht
  exact List.mem_map.1 hm

theorem sweep_step {ts : List Task}
    (hnodup : (ts.map (fun t => t.id)).Nodup)
    (hclosed : ∀ t ∈ ts, ∀ p ∈ t.predecessors, p.taskId ∈ taskIds ts)
    {done : List String} {cur : List Task} {id : String}
    (hid_ts : id ∈ taskIds ts)
    (hid_nd : id ∉ done)
    (hdc : ∀ x ∈ done, ∀ t0, findTaskById ts x = some t0 →
      ∀ p ∈ t0.predecessors, p.taskId ∈ done)
    (hpd : ∀ t0, findTaskById ts id = some t0 →
      ∀ p ∈ t0.predecessors, p.taskId ∈ done)
    (hinv : SweepInv ts done cur) :
    SweepInv ts (done ++ [id]) (recomputeEarly (strategyPass cur id) id) := by
  obtain ⟨hskel, hempty, hdone⟩ := hinv
  have hids : cur.map (fun t => t.id) = ts.map (fun t => t.id) :=
    map_id_of_sskel3 hskel
  have hcnd : (cur.map (fun t => t.id)).Nodup := by rw [hids]; exact hnodup
  have hfc : ∀ x, Option.map sskel3 (findTaskById cur x) =
      Option.map sskel3 (findTaskById ts x) := fun x => find?_sskel3_corr hskel x
  have hcorr : ∀ t ∈ cur, ∃ t0, findTaskById ts t.id = some t0 ∧
      sskel3 t0 = sskel3 t := by
    intro t ht
    have hft : findTaskById cur t.id = some t :=
      find?_eq_of_nodup_mem hcnd ht rfl
    have hx := hfc t.id
    rw [hft] at hx
    cases hgt : findTaskById ts t.id with
    | none => rw [hgt] at hx; cases hx
    | some t0 =>
      rw [hgt] at hx
      have hx2 : sskel3 t = sskel3 t0 := by injection hx with h0
      exact ⟨t0, rfl, hx2.symm⟩
  have hidc : id ∈ cur.map (fun t => t.id) := by rw [hids]; exact hid_ts
  obtain ⟨task, htask_mem, htask_id⟩ := List.mem_map.1 hidc
  have hft : findTaskById cur id = some task :=
    find?_eq_of_nodup_mem hcnd htask_mem htask_id
  obtain ⟨task0, htask0, hsk0⟩ := hcorr task htask_mem
  rw [htask_id] at htask0
  have hpreds0 : task0.predecessors = task.predecessors :=
    congrArg (fun y => y.2.1) hsk0
  have hpreds_done : ∀ p ∈ task.predecessors, p.taskId ∈ done := by
    intro p hp
    exact hpd task0 htask0 p (by rw [hpreds0]; exact hp)
  have hpid : ∀ p ∈ task.predecessors, p.taskId ≠ id := by
    intro p hp he
    exact hid_nd (he ▸ hpreds_done p hp)
  have hno_id_pred : ∀ t ∈ cur, t.id ∈ done → ∀ p ∈ t.predecessors,
      p.taskId ≠ id := by
    intro t ht htd p hp he
    obtain ⟨t0, ht0, hsk⟩ := hcorr t ht
    have hsk1 : t0.predecessors = t.predecessors := congrArg (fun y => y.2.1) hsk
    have hpp : p ∈ t0.predecessors := by
      rw [hsk1]
      exact hp
    exact hid_nd (he ▸ hdc t.id htd t0 ht0 p hpp)
  have hS_done : ∀ t ∈ cur, t.id ∈ done → sfun task id t = t := by
    intro t ht htd
    exact sfun_eq_self (hno_id_pred t ht htd)
  have hS_task : sfun task id task = task := sfun_eq_self hpid
  have hS_empty : ∀ t : Task, t.predecessors = [] → sfun task id t = t := by
    intro t h
    refine sfun_eq_self ?_
    rw [h]
    intro p hp
    exact absurd hp (List.not_mem_nil p)
  have hfind2 : ∀ x, findTaskById (cur.map (sfun task id)) x =
      Option.map (sfun task id) (findTaskById cur x) :=
    fun x => find?_map_id_pres (sfun_id task id) cur x
  have hfind3 : ∀ x, findTaskById ((cur.map (sfun task id)).map
      (rfun (cur.map (sfun task id)) id)) x =
      Option.map (rfun (cur.map (sfun task id)) id)
        (Option.map (sfun task id) (findTaskById cur x)) := by
    intro x
    have h1 : findTaskById ((cur.map (sfun task id)).map
        (rfun (cur.map (sfun task id)) id)) x =
        Option.map (rfun (cur.map (sfun task id)) id)
          (findTaskById (cur.map (sfun task id)) x) :=
      find?_map_id_pres (rfun_id _ id) _ x
    rw [h1, hfind2 x]
  have hunch : ∀ x ∈ done, findTaskById ((cur.map (sfun task id)).map
      (rfun (cur.map (sfun task id)) id)) x = findTaskById cur x := by
    intro x hx
    rw [hfind3 x]
    cases hf : findTaskById cur x with
    | none => rfl
    | some u =>
      have hu_mem : u ∈ cur := List.mem_of_find?_eq_some hf
      have hu_id : u.id = x := by simpa using List.find?_some hf
      have h1 : sfun task id u = u := hS_done u hu_mem (by rw [hu_id]; exact hx)
      have h2 : rfun (cur.map (sfun task id)) id u = u := by
        refine rfun_eq_self (Or.inl ?_)
        rw [hu_id]
        intro he
        exact hid_nd (he ▸ hx)
      show some (rfun (cur.map (sfun task id)) id (sfun task id u)) = some u
      rw [h1, h2]
  have hunch2 : ∀ x ∈ done, findTaskById (cur.map (sfun task id)) x =
      findTaskById cur x := by
    intro x hx
    rw [hfind2 x]
    cases hf : findTaskById cur x with
    | none => rfl
    | some u =>
      have hu_mem : u ∈ cur := List.mem_of_find?_eq_some hf
      have hu_id : u.id = x := by simpa using List.find?_some hf
      show some (sfun task id u) = some u
      rw [hS_done u hu_mem (by rw [hu_id]; exact hx)]
  have hefAt : ∀ x ∈ done, efAt ((cur.map (sfun task id)).map
      (rfun (cur.map (sfun task id)) id)) x = efAt cur x := by
    intro x hx
    unfold efAt
    rw [hunch x hx]
  have hefAt2 : ∀ x ∈ done, efAt (cur.map (sfun task id)) x = efAt cur x := by
    intro x hx
    unfold efAt
    rw [hunch2 x hx]
  rw [strategyPass_eq hft, recomputeEarly_eq]
  refine ⟨?_, ?_, ?_⟩
  · rw [map_sskel3_pres (rfun_sskel3 _ id), map_sskel3_pres (sfun_sskel3 task id)]
    exact hskel
  · intro tx htx hpe
    obtain ⟨t1, ht1, rfl⟩ := List.mem_map.1 htx
    obtain ⟨t, ht, rfl⟩ := List.mem_map.1 ht1
    have hsk_r : sskel3 (rfun (cur.map (sfun task id)) id (sfun task id t)) =
        sskel3 t := (rfun_sskel3 _ _ _).trans (sfun_sskel3 _ _ _)
    have hsk_r1 : (rfun (cur.map (sfun task id)) id
        (sfun task id t)).predecessors = t.predecessors :=
      congrArg (fun y => y.2.1) hsk_r
    have hpe2 : t.predecessors = [] := by
      rw [← hsk_r1]
      exact hpe
    have hs : sfun task id t = t := hS_empty t hpe2
    have hr : rfun (cur.map (sfun task id)) id t = t := rfun_eq_self (Or.inr hpe2)
    rw [hs, hr]
    exact hempty t ht hpe2
  · intro tx htx htd hpne
    obtain ⟨t1, ht1, rfl⟩ := List.mem_map.1 htx
    obtain ⟨t, ht, rfl⟩ := List.mem_map.1 ht1
    have hsk_r : sskel3 (rfun (cur.map (sfun task id)) id (sfun task id t)) =
        sskel3 t := (rfun_sskel3 _ _ _).trans (sfun_sskel3 _ _ _)
    have hid_eq : (rfun (cur.map (sfun task id)) id (sfun task id t)).id = t.id :=
      congrArg (fun y => y.1) hsk_r
    have hpr_eq : (rfun (cur.map (sfun task id)) id
        (sfun task id t)).predecessors = t.predecessors :=
      congrArg (fun y => y.2.1) hsk_r
    have hpne2 : t.predecessors ≠ [] := by
      rw [← hpr_eq]
      exact hpne
    rw [hid_eq] at htd
    rcases List.mem_append.1 htd with htdo | htid
    · have hs : sfun task id t = t := hS_done t ht htdo
      have hr : rfun (cur.map (sfun task id)) id t = t := by
        refine rfun_eq_self (Or.inl ?_)
        intro he
        exact hid_nd (he ▸ htdo)
      rw [hs, hr]
      obtain ⟨hES, hEF, hres⟩ := hdone t ht htdo hpne2
      have hpdone : ∀ p ∈ t.predecessors, p.taskId ∈ done := by
        intro p hp
        obtain ⟨t0, ht0, hsk⟩ := hcorr t ht
        have hsk1 : t0.predecessors = t.predecessors :=
          congrArg (fun y => y.2.1) hsk
        have hpp : p ∈ t0.predecessors := by
          rw [hsk1]
          exact hp
        exact hdc t.id htdo t0 ht0 p hpp
      have hesf : esFormula ((cur.map (sfun task id)).map
          (rfun (cur.map (sfun task id)) id)) t = esFormula cur t :=
        esFormula_congr (fun p hp => hefAt p.taskId (hpdone p hp))
      refine ⟨?_, ?_, ?_⟩
      · rw [hesf]
        exact hES
      · rw [hesf]
        exact hEF
      · intro p hp
        obtain ⟨u, ef, hfu, hef⟩ := hres p hp
        refine ⟨u, ef, ?_, hef⟩
        rw [hunch p.taskId (hpdone p hp)]
        exact hfu
    · have htideq : t.id = id := by simpa using htid
      have hteq : t = task :=
        List.inj_on_of_nodup_map hcnd ht htask_mem
          (by show t.id = task.id; rw [htideq, htask_id])
      rw [hteq] at hpne2 ⊢
      rw [hS_task]
      have hcond : task.id = id ∧ task.predecessors ≠ [] := ⟨htask_id, hpne2⟩
      have hr : rfun (cur.map (sfun task id)) id task =
          { task with
            earlyStart := some (esFormula (cur.map (sfun task id)) task),
            earlyFinish :=
              some (esFormula (cur.map (sfun task id)) task + task.duration) } := by
        unfold rfun
        rw [if_pos hcond]
      rw [hr]
      have hesf2 : esFormula (cur.map (sfun task id)) task =
          esFormula ((cur.map (sfun task id)).map
            (rfun (cur.map (sfun task id)) id)) task := by
        refine (esFormula_congr ?_).symm
        intro p hp
        exact (hefAt p.taskId (hpreds_done p hp)).trans
          (hefAt2 p.taskId (hpreds_done p hp)).symm
      refine ⟨?_, ?_, ?_⟩
      · show some (esFormula (cur.map (sfun task id)) task) =
          some (esFormula ((cur.map (sfun task id)).map
            (rfun (cur.map (sfun task id)) id)) task)
        rw [hesf2]
      · show some (esFormula (cur.map (sfun task id)) task + task.duration) =
          some (esFormula ((cur.map (sfun task id)).map
            (rfun (cur.map (sfun task id)) id)) task + task.duration)
        rw [hesf2]
      · intro p hp
        have hp2 : p ∈ task.predecessors := hp
        have hptid : p.taskId ∈ taskIds ts := by
          refine hclosed task0 (List.mem_of_find?_eq_some htask0) p ?_
          rw [hpreds0]
          exact hp2
        have hptc : p.taskId ∈ cur.map (fun t => t.id) := by
          rw [hids]
          exact hptid
        obtain ⟨u, hu_mem, hu_id⟩ := List.mem_map.1 hptc
        have hfu : findTaskById cur p.taskId = some u :=
          find?_eq_of_nodup_mem hcnd hu_mem hu_id
        have hefu : ∃ ef, u.earlyFinish = some ef := by
          by_cases hup : u.predecessors = []
          · exact ⟨u.duration, (hempty u hu_mem hup).2⟩
          · obtain ⟨_, hEF, _⟩ := hdone u hu_mem
              (by rw [hu_id]; exact hpreds_done p hp2) hup
            exact ⟨_, hEF⟩
        obtain ⟨ef, hef⟩ := hefu
        refine ⟨u, ef, ?_, hef⟩
        rw [hunch p.taskId (hpreds_done p hp2)]
        exact hfu

theorem sweep_fold {ts : List Task}
    (hnodup : (ts.map (fun t => t.id)).Nodup)
    (hclosed : ∀ t ∈ ts, ∀ p ∈ t.predecessors, p.taskId ∈ taskIds ts)
    {sorted : List Task}
    (hmem : ∀ t ∈ sorted, t ∈ ts)
    (hsnd : (sorted.map (fun t => t.id)).Nodup)
    (hord : PredsOrdered ts sorted) :
    ∀ post pre cur, sorted = pre ++ post →
      SweepInv ts (pre.map (fun t => t.id)) cur →
      SweepInv ts ((pre ++ post).map (fun t => t.id))
        (post.foldl (fun c t => recomputeEarly (strategyPass c t.id) t.id) cur) := by
  intro post
  induction post with
  | nil =>
    intro pre cur hres hinv
    rw [List.append_nil]
    exact hinv
  | cons u post ih =>
    intro pre cur hres hinv
    rw [List.foldl_cons]
    have humem : u ∈ sorted := by
      rw [hres]
      exact List.mem_append.2 (Or.inr (List.mem_cons_self _ _))
    have huts : u ∈ ts := hmem u humem
    have hid_ts : u.id ∈ taskIds ts := List.mem_map_of_mem _ huts
    have hsnd2 := hsnd
    rw [hres, List.map_append, List.map_cons] at hsnd2
    obtain ⟨hnd1, hnd2, hdisj⟩ := List.nodup_append.1 hsnd2
    have hid_nd : u.id ∉ pre.map (fun t => t.id) := by
      intro hmem2
      exact hdisj hmem2 (List.mem_cons_self _ _)
    have hdc : ∀ x ∈ pre.map (fun t => t.id), ∀ t0, findTaskById ts x = some t0 →
        ∀ p ∈ t0.predecessors, p.taskId ∈ pre.map (fun t => t.id) := by
      intro x hx t0 hft0 p hp
      obtain ⟨w, hw, hwid⟩ := List.mem_map.1 hx
      have hwts : w ∈ ts := hmem w (by rw [hres]; exact List.mem_append.2 (Or.inl hw))
      have hfw : findTaskById ts x = some w :=
        find?_eq_of_nodup_mem hnodup hwts hwid
      have ht0w : t0 = w := by
        rw [hfw] at hft0
        injection hft0 with h0
        exact h0.symm
      obtain ⟨pre1, pre2, hpre⟩ := List.append_of_mem hw
      have hdec : sorted = pre1 ++ w :: (pre2 ++ u :: post) := by
        rw [hres, hpre]
        simp [List.append_assoc]
      obtain ⟨vv, hv, hvid⟩ := predsOrdered_decomp hord pre1 w _ hdec p
        (by rw [← ht0w]; exact hp)
        (hclosed t0 (List.mem_of_find?_eq_some hft0) p hp)
      refine List.mem_map.2 ⟨vv, ?_, hvid⟩
      rw [hpre]
      exact List.mem_append.2 (Or.inl hv)
    have hpd : ∀ t0, findTaskById ts u.id = some t0 →
        ∀ p ∈ t0.predecessors, p.taskId ∈ pre.map (fun t => t.id) := by
      intro t0 hft0 p hp
      have hfu : findTaskById ts u.id = some u :=
        find?_eq_of_nodup_mem hnodup huts rfl
      have ht0u : t0 = u := by
        rw [hfu] at hft0
        injection hft0 with h0
        exact h0.symm
      obtain ⟨vv, hv, hvid⟩ := predsOrdered_decomp hord pre u post hres p
        (by rw [← ht0u]; exact hp)
        (hclosed t0 (List.mem_of_find?_eq_some hft0) p hp)
      exact List.mem_map.2 ⟨vv, hv, hvid⟩
    have hstep := sweep_step hnodup hclosed hid_ts hid_nd hdc hpd hinv
    have hres3 : sorted = (pre ++ [u]) ++ post := by
      rw [hres, List.append_assoc]
      rfl
    have hinv2 : SweepInv ts ((pre ++ [u]).map (fun t => t.id))
        (recomputeEarly (strategyPass cur u.id) u.id) := by
      rw [List.map_append]
      exact hstep
    have hcc := ih (pre ++ [u]) (recomputeEarly (strategyPass cur u.id) u.id)
      hres3 hinv2
    have hfix : (pre ++ [u]) ++ post = pre ++ u :: post := by
      rw [List.append_assoc]
      rfl
    rw [hfix] at hcc
    exact hcc

theorem initEarly_start (tasks : List Task) : ∀ t ∈ initEarly tasks,
    t.predecessors = [] →
    t.earlyStart = some 0 ∧ t.earlyFinish = some t.duration := by
  intro t ht hp
  unfold initEarly at ht
  obtain ⟨t1, ht1, heq⟩ := List.mem_map.1 ht
  have heq2 : (if t1.predecessors = [] then
      { t1 with earlyStart := some 0, earlyFinish := some t1.duration }
      else t1) = t := heq
  by_cases h : t1.predecessors = []
  · rw [if_pos h] at heq2
    rw [← heq2]
    exact ⟨rfl, rfl⟩
  · rw [if_neg h] at heq2
    rw [← heq2] at hp
    exact absurd hp h

theorem calculateEarlyDates_sound (tasks : List Task)
    (hnodup : (tasks.map (fun t => t.id)).Nodup)
    (hclosed : ∀ t ∈ tasks, ∀ p ∈ t.predecessors, p.taskId ∈ taskIds tasks)
    (hacyc : ∀ a, ¬ Relation.TransGen (Edge tasks) a a) :
    ∀ t ∈ calculateEarlyDates tasks,
      (t.predecessors = [] →
        t.earlyStart = some 0 ∧ t.earlyFinish = some t.duration) ∧
      (t.predecessors ≠ [] →
        t.earlyStart = some (esFormula (calculateEarlyDates tasks) t) ∧
        t.earlyFinish =
          some (esFormula (calculateEarlyDates tasks) t + t.duration) ∧
        ∀ p ∈ t.predecessors, ∃ u ef,
          findTaskById (calculateEarlyDates tasks) p.taskId = some u ∧
          u.earlyFinish = some ef) := by
  have hskel_init := initEarly_sskel3 tasks
  have hids_init : (initEarly tasks).map (fun t => t.id) =
      tasks.map (fun t => t.id) := map_id_of_sskel3 hskel_init
  have hnodup2 : ((initEarly tasks).map (fun t => t.id)).Nodup := by
    rw [hids_init]
    exact hnodup
  have hclosed2 : ∀ t ∈ initEarly tasks, ∀ p ∈ t.predecessors,
      p.taskId ∈ taskIds (initEarly tasks) := by
    intro t ht p hp
    obtain ⟨t0, ht0, hsk⟩ := mem_corr_of_sskel3 hskel_init t ht
    have hpr : t0.predecessors = t.predecessors := congrArg (fun y => y.2.1) hsk
    have hcc := hclosed t0 ht0 p (by rw [hpr]; exact hp)
    show p.taskId ∈ (initEarly tasks).map (fun t => t.id)
    rw [hids_init]
    exact hcc
  have hacyc2 : ∀ a, ¬ Relation.TransGen (Edge (initEarly tasks)) a a := by
    intro a hc
    refine hacyc a ?_
    refine Relation.TransGen.mono ?_ hc
    intro x y hxy
    exact (edge_iff_of_sskel3 hskel_init x y).1 hxy
  obtain ⟨hmem_s, hsnd, hord, hcompl⟩ :=
    topologicalSort_sound (initEarly tasks) hacyc2
  have hinit_inv : SweepInv (initEarly tasks) ([] : List String)
      (initEarly tasks) :=
    ⟨rfl, initEarly_start tasks, fun t _ htd => absurd htd (List.not_mem_nil _)⟩
  have hsweep := sweep_fold hnodup2 hclosed2 hmem_s hsnd hord
    (topologicalSort (initEarly tasks)) [] (initEarly tasks)
    (List.nil_append _).symm hinit_inv
  rw [List.nil_append] at hsweep
  have hceq : calculateEarlyDates tasks =
      (topologicalSort (initEarly tasks)).foldl
        (fun c t => recomputeEarly (strategyPass c t.id) t.id)
        (initEarly tasks) := by
    show ((topologicalSort (initEarly tasks)).map (fun t => t.id)).foldl
      (fun cur id => recomputeEarly (strategyPass cur id) id)
      (initEarly tasks) = _
    rw [List.foldl_map]
  obtain ⟨hskelF, hemptyF, hdoneF⟩ := hsweep
  intro t ht
  rw [hceq] at ht
  constructor
  · intro hpe
    exact hemptyF t ht hpe
  · intro hpne
    obtain ⟨t0, ht0, hsk⟩ := mem_corr_of_sskel3 hskelF t ht
    obtain ⟨u, hu, huid⟩ := hcompl t0 ht0
    have hid0 : t0.id = t.id := congrArg (fun y => y.1) hsk
    have htid : t.id ∈ (topologicalSort (initEarly tasks)).map
        (fun t => t.id) := by
      refine List.mem_map.2 ⟨u, hu, ?_⟩
      rw [huid]
      exact hid0
    obtain ⟨hES, hEF, hres⟩ := hdoneF t ht htid hpne
    rw [hceq]
    exact ⟨hES, hEF, hres⟩

/-- The fields of a task the backward pass and the slack marking never
write: static fields plus the early finish. -/
def sskel4 (t : Task) : String × List Predecessor × ℚ × Option ℚ :=
  (t.id, t.predecessors, t.duration, t.earlyFinish)

theorem sskel3_of_sskel4 {l1 l2 : List Task}
    (h : l1.map sskel4 = l2.map sskel4) :
    l1.map sskel3 = l2.map sskel3 := by
  have h1 : (l1.map sskel4).map (fun y => (y.1, y.2.1, y.2.2.1)) =
      (l2.map sskel4).map (fun y => (y.1, y.2.1, y.2.2.1)) := by rw [h]
  rw [List.map_map, List.map_map] at h1
  exact h1

theorem find?_sskel4_corr {l1 l2 : List Task}
    (h : l1.map sskel4 = l2.map sskel4) (x : String) :
    Option.map sskel4 (l1.find? (fun t => t.id = x)) =
      Option.map sskel4 (l2.find? (fun t => t.id = x)) := by
  induction l1 generalizing l2 with
  | nil =>
    cases l2 with
    | nil => rfl
    | cons b bs => cases h
  | cons a as ih =>
    cases l2 with
    | nil => cases h
    | cons b bs =>
      injection h with h1 h2
      have hid : a.id = b.id := by
        have := congrArg (fun y => y.1) h1
        exact this
      by_cases hax : a.id = x
      · rw [List.find?_cons_of_pos _ (by simpa using hax),
          List.find?_cons_of_pos _ (by simp [← hid, hax])]
        show some (sskel4 a) = some (sskel4 b)
        rw [h1]
      · rw [List.find?_cons_of_neg _ (by simpa using hax),
          List.find?_cons_of_neg _ (by simp [← hid, hax])]
        exact ih h2

theorem efAt_congr4 {l1 l2 : List Task}
    (h : l1.map sskel4 = l2.map sskel4) (x : String) :
    efAt l1 x = efAt l2 x := by
  have hc : Option.map sskel4 (findTaskById l1 x) =
      Option.map sskel4 (findTaskById l2 x) := find?_sskel4_corr h x
  unfold efAt
  cases h1 : findTaskById l1 x with
  | none =>
    cases h2 : findTaskById l2 x with
    | none => rfl
    | some u => rw [h1, h2] at hc; cases hc
  | some u =>
    cases h2 : findTaskById l2 x with
    | none => rw [h1, h2] at hc; cases hc
    | some w =>
      rw [h1, h2] at hc
      have hw : sskel4 u = sskel4 w := by injection hc with h0
      exact congrArg (fun y => y.2.2.2) hw

theorem esFormula_congr4 {l1 l2 : List Task}
    (h : l1.map sskel4 = l2.map sskel4) (t : Task) :
    esFormula l1 t = esFormula l2 t :=
  esFormula_congr (fun p _ => efAt_congr4 h p.taskId)

theorem map_sskel4_pres {F : Task → Task} (hF : ∀ t, sskel4 (F t) = sskel4 t)
    (l : List Task) : (l.map F).map sskel4 = l.map sskel4 := by
  rw [List.map_map]
  exact List.map_congr_left (fun t _ => hF t)

theorem lateStep_sskel4 (cur : List Task) (id : String) :
    (lateStep cur id).map sskel4 = cur.map sskel4 := by
  refine map_sskel4_pres ?_ cur
  intro t
  by_cases h1 : t.id = id
  · show sskel4 (if t.id = id then _ else t) = sskel4 t
    rw [if_pos h1]
    show sskel4 (if cur.filter (fun s =>
        s.predecessors.any (fun p => p.taskId = id)) = [] then t else _) =
      sskel4 t
    by_cases h2 : cur.filter (fun s =>
        s.predecessors.any (fun p => p.taskId = id)) = []
    · rw [if_pos h2]
    · rw [if_neg h2]
      cases (cur.filter (fun s =>
          s.predecessors.any (fun p => p.taskId = id))).foldl
          (fun (m : Option ℚ) s =>
            match s.lateStart with
            | some ls =>
              let lag := match s.predecessors.find? (fun p => p.taskId = id) with
                | some p => p.lag
                | none => 0
              let lf := ls - lag
              match m with
              | none => some lf
              | some m0 => some (min m0 lf)
            | none => m) none with
      | none => rfl
      | some lf => rfl
  · show sskel4 (if t.id = id then _ else t) = sskel4 t
    rw [if_neg h1]

theorem latefold_sskel4 (ids : List String) :
    ∀ cur, (ids.foldl (fun cur id => lateStep cur id) cur).map sskel4 =
      cur.map sskel4 := by
  induction ids with
  | nil => intro cur; rfl
  | cons i is ih =>
    intro cur
    rw [List.foldl_cons, ih (lateStep cur i), lateStep_sskel4]

theorem calculateLateDates_sskel4 (tasks : List Task) :
    (calculateLateDates tasks).map sskel4 = tasks.map sskel4 := by
  simp only [calculateLateDates]
  rw [latefold_sskel4, map_sskel4_pres, map_sskel4_pres]
  · intro t
    rfl
  · intro t
    by_cases h : t.id ∈ (findEndTasks tasks).map (fun t => t.id)
    · show sskel4 (if t.id ∈ (findEndTasks tasks).map (fun t => t.id)
        then _ else t) = sskel4 t
      rw [if_pos h]
      rfl
    · show sskel4 (if t.id ∈ (findEndTasks tasks).map (fun t => t.id)
        then _ else t) = sskel4 t
      rw [if_neg h]

theorem calculateSlack_sskel4 (tasks : List Task) :
    (calculateSlackAndMarkCriticalPath tasks).map sskel4 =
      tasks.map sskel4 := by
  refine map_sskel4_pres ?_ tasks
  intro t
  show sskel4 (match t.earlyStart, t.lateStart with
    | some es, some ls =>
      { t with slack := some (ls - es),
               isCritical := some (decide (ls - es = 0)) }
    | _, _ => t) = sskel4 t
  cases t.earlyStart with
  | none => cases t.lateStart <;> rfl
  | some es => cases t.lateStart <;> rfl

/-- What the forward pass guarantees about early finishes: start tasks carry
their duration, others the recomputation formula, with all predecessor reads
resolvable and defined. -/
def EFOK (l : List Task) : Prop :=
  ∀ t ∈ l,
    (t.predecessors = [] → t.earlyFinish = some t.duration) ∧
    (t.predecessors ≠ [] →
      t.earlyFinish = some (esFormula l t + t.duration) ∧
      ∀ p ∈ t.predecessors, ∃ u ef, findTaskById l p.taskId = some u ∧
        u.earlyFinish = some ef)

theorem calculateEarlyDates_EFOK (tasks : List Task)
    (hnodup : (tasks.map (fun t => t.id)).Nodup)
    (hclosed : ∀ t ∈ tasks, ∀ p ∈ t.predecessors, p.taskId ∈ taskIds tasks)
    (hacyc : ∀ a, ¬ Relation.TransGen (Edge tasks) a a) :
    EFOK (calculateEarlyDates tasks) := by
  intro t ht
  obtain ⟨hA, hB⟩ := calculateEarlyDates_sound tasks hnodup hclosed hacyc t ht
  refine ⟨fun hpe => (hA hpe).2, fun hpne => ?_⟩
  obtain ⟨_, hEF, hres⟩ := hB hpne
  exact ⟨hEF, hres⟩

theorem mem_corr_of_sskel4 {l1 l2 : List Task}
    (h : l1.map sskel4 = l2.map sskel4) :
    ∀ t ∈ l1, ∃ t0 ∈ l2, sskel4 t0 = sskel4 t := by
  intro t ht
  have hm : sskel4 t ∈ l2.map sskel4 := by
    rw [← h]
    exact List.mem_map_of_mem _ ht
  exact List.mem_map.1 hm

theorem EFOK_transfer {l1 l2 : List Task} (h : l1.map sskel4 = l2.map sskel4)
    (h1 : EFOK l1) : EFOK l2 := by
  intro t ht
  obtain ⟨t1, ht1, hsk⟩ := mem_corr_of_sskel4 h.symm t ht
  have hpr : t1.predecessors = t.predecessors := congrArg (fun y => y.2.1) hsk
  have hdu : t1.duration = t.duration := congrArg (fun y => y.2.2.1) hsk
  have hef : t1.earlyFinish = t.earlyFinish := congrArg (fun y => y.2.2.2) hsk
  obtain ⟨hA, hB⟩ := h1 t1 ht1
  constructor
  · intro hpe
    rw [← hef, hA (by rw [hpr]; exact hpe), hdu]
  · intro hpne
    obtain ⟨hEF, hres⟩ := hB (by rw [hpr]; exact hpne)
    constructor
    · rw [← hef, hEF, hdu]
      have e1 : esFormula l1 t1 = esFormula l1 t := by
        unfold esFormula
        rw [hpr]
      rw [e1, esFormula_congr4 h t]
    · intro p hp
      obtain ⟨u, ef, hfu, hefu⟩ := hres p (by rw [hpr]; exact hp)
      have hc : Option.map sskel4 (findTaskById l1 p.taskId) =
          Option.map sskel4 (findTaskById l2 p.taskId) :=
        find?_sskel4_corr h p.taskId
      rw [hfu] at hc
      cases hg : findTaskById l2 p.taskId with
      | none => rw [hg] at hc; cases hc
      | some w =>
        rw [hg] at hc
        have hw : sskel4 u = sskel4 w := by injection hc with h0
        have hefw : u.earlyFinish = w.earlyFinish :=
          congrArg (fun y => y.2.2.2) hw
        refine ⟨w, ef, rfl, ?_⟩
        rw [← hefw]
        exact hefu

theorem EFOK_ef_defined {l : List Task} (hok : EFOK l)
    (hdur : ∀ t ∈ l, 0 ≤ t.duration) :
    ∀ t ∈ l, ∃ ef, t.earlyFinish = some ef ∧ 0 ≤ ef := by
  intro t ht
  obtain ⟨hA, hB⟩ := hok t ht
  by_cases hpe : t.predecessors = []
  · exact ⟨t.duration, hA hpe, hdur t ht⟩
  · obtain ⟨hEF, _⟩ := hB hpe
    exact ⟨_, hEF, add_nonneg (esFormula_nonneg l t) (hdur t ht)⟩

theorem foldl_es_elem (cur : List Task) :
    ∀ (l : List Predecessor) (m : ℚ) (p : Predecessor), p ∈ l →
      ∀ u ef, findTaskById cur p.taskId = some u → u.earlyFinish = some ef →
      ef + p.lag ≤ l.foldl (fun m p =>
        match findTaskById cur p.taskId with
        | some predTask =>
          match predTask.earlyFinish with
          | some ef => max m (ef + p.lag)
          | none => m
        | none => m) m := by
  intro l
  induction l with
  | nil =>
    intro m p hp
    exact absurd hp (List.not_mem_nil p)
  | cons q qs ih =>
    intro m p hp u ef hfind hef
    rw [List.foldl_cons]
    rcases List.mem_cons.1 hp with he | h0
    · subst he
      refine le_trans ?_ (foldl_es_ge cur qs _)
      show ef + p.lag ≤ (match findTaskById cur p.taskId with
        | some predTask =>
          match predTask.earlyFinish with
          | some ef => max m (ef + p.lag)
          | none => m
        | none => m)
      rw [hfind]
      show ef + p.lag ≤ (match u.earlyFinish with
        | some ef => max m (ef + p.lag)
        | none => m)
      rw [hef]
      show ef + p.lag ≤ max m (ef + p.lag)
      exact le_max_right _ _
    · exact ih _ p h0 u ef hfind hef

theorem foldl_es_cases (cur : List Task) :
    ∀ (l : List Predecessor) (m : ℚ),
      l.foldl (fun m p =>
        match findTaskById cur p.taskId with
        | some predTask =>
          match predTask.earlyFinish with
          | some ef => max m (ef + p.lag)
          | none => m
        | none => m) m = m ∨
      ∃ p ∈ l, ∃ u ef, findTaskById cur p.taskId = some u ∧
        u.earlyFinish = some ef ∧
        l.foldl (fun m p =>
          match findTaskById cur p.taskId with
          | some predTask =>
            match predTask.earlyFinish with
            | some ef => max m (ef + p.lag)
            | none => m
          | none => m) m = ef + p.lag := by
  intro l
  induction l with
  | nil => intro m; exact Or.inl rfl
  | cons q qs ih =>
    intro m
    rw [List.foldl_cons]
    rcases ih ((fun m p =>
        match findTaskById cur p.taskId with
        | some predTask =>
          match predTask.earlyFinish with
          | some ef => max m (ef + p.lag)
          | none => m
        | none => m) m q) with hbase | ⟨p, hp, u, ef, hfind, hef, heq⟩
    · rw [hbase]
      cases hfq : findTaskById cur q.taskId with
      | none =>
        refine Or.inl ?_
        show (match findTaskById cur q.taskId with
          | some predTask =>
            match predTask.earlyFinish with
            | some ef => max m (ef + q.lag)
            | none => m
          | none => m) = m
        rw [hfq]
      | some u =>
        cases hefu : u.earlyFinish with
        | none =>
          refine Or.inl ?_
          show (match findTaskById cur q.taskId with
            | some predTask =>
              match predTask.earlyFinish with
              | some ef => max m (ef + q.lag)
              | none => m
            | none => m) = m
          rw [hfq]
          show (match u.earlyFinish with
            | some ef => max m (ef + q.lag)
            | none => m) = m
          rw [hefu]
        | some ef =>
          have hstep : (fun m p =>
              match findTaskById cur p.taskId with
              | some predTask =>
                match predTask.earlyFinish with
                | some ef => max m (ef + p.lag)
                | none => m
              | none => m) m q = max m (ef + q.lag) := by
            show (match findTaskById cur q.taskId with
              | some predTask =>
                match predTask.earlyFinish with
                | some ef => max m (ef + q.lag)
                | none => m
              | none => m) = max m (ef + q.lag)
            rw [hfq]
            show (match u.earlyFinish with
              | some ef => max m (ef + q.lag)
              | none => m) = max m (ef + q.lag)
            rw [hefu]
          rw [hstep]
          rcases max_choice m (ef + q.lag) with hmx | hmx
          · exact Or.inl hmx
          · exact Or.inr ⟨q, List.mem_cons_self _ _, u, ef, hfq, hefu, hmx⟩
    · exact Or.inr ⟨p, List.mem_cons_of_mem _ hp, u, ef, hfind, hef, heq⟩

theorem esFormula_attained {l : List Task} {t : Task}
    (hpne : t.predecessors ≠ [])
    (hres : ∀ p ∈ t.predecessors, ∃ u ef, findTaskById l p.taskId = some u ∧
      u.earlyFinish = some ef ∧ 0 ≤ ef)
    (hlag : ∀ p ∈ t.predecessors, p.lag = 0) :
    ∃ p ∈ t.predecessors, ∃ u ef, findTaskById l p.taskId = some u ∧
      u.earlyFinish = some ef ∧ esFormula l t = ef := by
  rcases foldl_es_cases l t.predecessors 0 with hbase | ⟨p, hp, u, ef, hfind, hef, heq⟩
  · cases hq : t.predecessors with
    | nil => exact absurd hq hpne
    | cons q qs =>
      obtain ⟨u, ef, hfind, hefu, hef0⟩ := hres q (by rw [hq]; exact List.mem_cons_self _ _)
      have hle : ef + q.lag ≤ esFormula l t := by
        unfold esFormula
        rw [hq]
        exact foldl_es_elem l _ 0 q (List.mem_cons_self _ _) u ef hfind hefu
      have hlag0 : q.lag = 0 := hlag q (by rw [hq]; exact List.mem_cons_self _ _)
      have hbase2 : esFormula l t = 0 := hbase
      have hef_le : ef ≤ 0 := by
        rw [hlag0, add_zero] at hle
        rw [hbase2] at hle
        exact hle
      have hef_eq : ef = 0 := le_antisymm hef_le hef0
      refine ⟨q, List.mem_cons_self _ _, u, ef, hfind, hefu, ?_⟩
      rw [hbase2, hef_eq]
  · obtain ⟨_, _, _, _, hef0⟩ := hres p hp
    have hlag0 : p.lag = 0 := hlag p hp
    refine ⟨p, hp, u, ef, hfind, hef, ?_⟩
    show esFormula l t = ef
    have heq2 : esFormula l t = ef + p.lag := heq
    rw [heq2, hlag0, add_zero]

theorem EF_succ_ge {l : List Task} (hok : EFOK l)
    (hnodup : (l.map (fun t => t.id)).Nodup)
    (hlag : ∀ t ∈ l, ∀ p ∈ t.predecessors, p.lag = 0)
    {t succ : Task} (ht : t ∈ l) (hsucc : succ ∈ l)
    {p : Predecessor} (hp : p ∈ succ.predecessors) (hpt : p.taskId = t.id)
    {ef : ℚ} (hef : t.earlyFinish = some ef) :
    ∃ efs, succ.earlyFinish = some efs ∧ ef + succ.duration ≤ efs := by
  have hpne : succ.predecessors ≠ [] := by
    intro h0
    rw [h0] at hp
    exact absurd hp (List.not_mem_nil p)
  obtain ⟨_, hB⟩ := hok succ hsucc
  obtain ⟨hEF, _⟩ := hB hpne
  have hfind : findTaskById l p.taskId = some t := by
    rw [hpt]
    exact find?_eq_of_nodup_mem hnodup ht rfl
  have helem : ef + p.lag ≤ esFormula l succ := by
    unfold esFormula
    exact foldl_es_elem l succ.predecessors 0 p hp t ef hfind hef
  have hlag0 : p.lag = 0 := hlag succ hsucc p hp
  rw [hlag0, add_zero] at helem
  exact ⟨esFormula l succ + succ.duration, hEF,
    add_le_add_right helem succ.duration⟩

theorem qmax_ge_seed (seed : ℚ) (l : List ℚ) : seed ≤ PMT.qmax seed l := by
  unfold PMT.qmax
  induction l generalizing seed with
  | nil => exact le_refl seed
  | cons x xs ih =>
    rw [List.foldl_cons]
    exact le_trans (le_max_left seed x) (ih (max seed x))

theorem qmax_ge_mem (seed : ℚ) {x : ℚ} {l : List ℚ} (hx : x ∈ l) :
    x ≤ PMT.qmax seed l := by
  unfold PMT.qmax
  induction l generalizing seed with
  | nil => exact absurd hx (List.not_mem_nil x)
  | cons y ys ih =>
    rw [List.foldl_cons]
    rcases List.mem_cons.1 hx with he | h0
    · subst he
      exact le_trans (le_max_right seed x) (qmax_ge_seed _ ys)
    · exact ih _ h0

theorem mem_findStartTasks {l : List Task} {t : Task} :
    t ∈ findStartTasks l ↔ t ∈ l ∧ t.predecessors = [] := by
  unfold findStartTasks
  rw [List.mem_filter]
  simp

theorem mem_findEndTasks {l : List Task} {e : Task} :
    e ∈ findEndTasks l ↔ e ∈ l ∧
      ∀ u ∈ l, ∀ p ∈ u.predecessors, p.taskId ≠ e.id := by
  unfold findEndTasks
  rw [List.mem_filter]
  constructor
  · rintro ⟨h1, h2⟩
    refine ⟨h1, ?_⟩
    intro u hu p hp he
    rw [decide_eq_true_iff] at h2
    exact h2 (List.mem_flatMap.2 ⟨u, hu, List.mem_map.2 ⟨p, hp, he⟩⟩)
  · rintro ⟨h1, h2⟩
    refine ⟨h1, ?_⟩
    rw [decide_eq_true_iff]
    intro hmem
    obtain ⟨u, hu, hm⟩ := List.mem_flatMap.1 hmem
    obtain ⟨p, hp, hpe⟩ := List.mem_map.1 hm
    exact h2 u hu p hp hpe

theorem getProjectDuration_ge {l : List Task} {e : Task}
    (he : e ∈ findEndTasks l) {ef : ℚ} (hef : e.earlyFinish = some ef) :
    ef ≤ getProjectDuration l := by
  unfold getProjectDuration
  cases hE : findEndTasks l with
  | nil =>
    rw [hE] at he
    exact absurd he (List.not_mem_nil e)
  | cons t ts =>
    rw [hE] at he
    rcases List.mem_cons.1 he with h0 | h0
    · subst h0
      have : e.earlyFinish.getD 0 = ef := by rw [hef]; rfl
      rw [← this]
      exact qmax_ge_seed _ _
    · have : ef ∈ ts.map (fun u => u.earlyFinish.getD 0) :=
        List.mem_map.2 ⟨e, h0, by rw [hef]; rfl⟩
      exact qmax_ge_mem _ this

theorem getProjectDuration_attained {l : List Task}
    (hne : findEndTasks l ≠ []) :
    ∃ e ∈ findEndTasks l,
      e.earlyFinish.getD 0 = getProjectDuration l := by
  unfold getProjectDuration
  cases hE : findEndTasks l with
  | nil => exact absurd hE hne
  | cons t ts =>
    rcases Crashing.qmax_mem (t.earlyFinish.getD 0)
        (ts.map (fun u => u.earlyFinish.getD 0)) with h | h
    · exact ⟨t, List.mem_cons_self _ _, h.symm⟩
    · obtain ⟨u, hu, hud⟩ := List.mem_map.1 h
      exact ⟨u, List.mem_cons_of_mem _ hu, hud⟩

theorem findEndTasks_ne_nil {l : List Task}
    (hnodup : (l.map (fun t => t.id)).Nodup)
    (hacyc : ∀ a, ¬ Relation.TransGen (Edge l) a a)
    (hne : l ≠ []) : findEndTasks l ≠ [] := by
  intro hE
  have hsucc : ∀ t ∈ l, ∃ u ∈ l, ∃ p ∈ u.predecessors, p.taskId = t.id := by
    intro t ht
    by_contra hno
    push_neg at hno
    have hmm : t ∈ findEndTasks l := mem_findEndTasks.2 ⟨ht, hno⟩
    rw [hE] at hmm
    exact absurd hmm (List.not_mem_nil t)
  obtain ⟨hmem_s, hsnd, hord, hcompl⟩ := topologicalSort_sound l hacyc
  obtain ⟨t0, ht0⟩ := List.exists_mem_of_ne_nil l hne
  obtain ⟨r0, hr0, _⟩ := hcompl t0 ht0
  have hslen : 0 < (topologicalSort l).length := by
    cases hS : topologicalSort l with
    | nil => rw [hS] at hr0; exact absurd hr0 (List.not_mem_nil r0)
    | cons a as => simp
  have hn1 : (topologicalSort l).length - 1 < (topologicalSort l).length := by
    omega
  have humem : (topologicalSort l).get
      ⟨(topologicalSort l).length - 1, hn1⟩ ∈ topologicalSort l :=
    List.get_mem _ _ _
  obtain ⟨v, hv, p, hp, hpt⟩ :=
    hsucc ((topologicalSort l).get ⟨(topologicalSort l).length - 1, hn1⟩)
      (hmem_s _ humem)
  obtain ⟨r, hr, hrid⟩ := hcompl v hv
  have hrv : r = v :=
    List.inj_on_of_nodup_map hnodup (hmem_s r hr) hv
      (by show r.id = v.id; exact hrid)
  obtain ⟨⟨j, hj⟩, hjr⟩ := List.mem_iff_get.1 hr
  have hpj : p ∈ ((topologicalSort l).get ⟨j, hj⟩).predecessors := by
    rw [hjr, hrv]
    exact hp
  have hpt_ids : p.taskId ∈ taskIds l := by
    rw [hpt]
    exact List.mem_map_of_mem _ (hmem_s _ humem)
  obtain ⟨k, hk, hkj, hkid⟩ := hord j hj p hpj hpt_ids
  have hklen : k < ((topologicalSort l).map (fun t => t.id)).length := by
    rw [List.length_map]
    exact hk
  have hnlen : (topologicalSort l).length - 1 <
      ((topologicalSort l).map (fun t => t.id)).length := by
    rw [List.length_map]
    exact hn1
  have hkid2 : ((topologicalSort l)[k]).id = p.taskId := hkid
  have hpt2 : p.taskId =
      ((topologicalSort l)[(topologicalSort l).length - 1]).id := hpt
  have heq : ((topologicalSort l).map (fun t => t.id))[k] =
      ((topologicalSort l).map
        (fun t => t.id))[(topologicalSort l).length - 1] := by
    rw [List.getElem_map, List.getElem_map, hkid2]
    exact hpt2
  have hkn : k = (topologicalSort l).length - 1 :=
    (List.Nodup.getElem_inj_iff hsnd).1 heq
  omega

/-- A dependency chain in a task list: it starts at a task with no
predecessors and every later task lists the previous one among its
predecessors.  The index is the task the chain currently ends at. -/
inductive IsChain (l : List Task) : Task → List Task → Prop
  | single (t : Task) (ht : t ∈ l) (hs : t.predecessors = []) :
      IsChain l t [t]
  | cons (t u : Task) (c : List Task) (hu : u ∈ l)
      (hlink : ∃ p ∈ u.predecessors, p.taskId = t.id)
      (hprev : IsChain l t c) : IsChain l u (c ++ [u])

/-- Total duration of a chain: the sum of the task durations along it. -/
def chainDur (c : List Task) : ℚ := (c.map (fun t => t.duration)).sum

theorem chainDur_append (c : List Task) (u : Task) :
    chainDur (c ++ [u]) = chainDur c + u.duration := by
  unfold chainDur
  simp

theorem chain_attains {l : List Task} (hok : EFOK l)
    (hnodup : (l.map (fun t => t.id)).Nodup)
    (hacyc : ∀ a, ¬ Relation.TransGen (Edge l) a a)
    (hlag : ∀ t ∈ l, ∀ p ∈ t.predecessors, p.lag = 0)
    (hdur : ∀ t ∈ l, 0 ≤ t.duration) :
    ∀ t ∈ l, ∀ ef, t.earlyFinish = some ef →
      ∃ c, IsChain l t c ∧ chainDur c = ef := by
  obtain ⟨hmem_s, hsnd, hord, hcompl⟩ := topologicalSort_sound l hacyc
  suffices H : ∀ i, ∀ hi : i < (topologicalSort l).length,
      ∀ t ∈ l, t.id = ((topologicalSort l).get ⟨i, hi⟩).id →
      ∀ ef, t.earlyFinish = some ef →
      ∃ c, IsChain l t c ∧ chainDur c = ef by
    intro t ht ef hef
    obtain ⟨r, hr, hrid⟩ := hcompl t ht
    obtain ⟨⟨i, hi⟩, hir⟩ := List.mem_iff_get.1 hr
    refine H i hi t ht ?_ ef hef
    rw [hir, hrid]
  intro i
  induction i using Nat.strong_induction_on with
  | _ i IH =>
    intro hi t ht htid ef hef
    by_cases hpe : t.predecessors = []
    · obtain ⟨hA, _⟩ := hok t ht
      have hefd : t.earlyFinish = some t.duration := hA hpe
      rw [hefd] at hef
      injection hef with h0
      refine ⟨[t], IsChain.single t ht hpe, ?_⟩
      show chainDur [t] = ef
      unfold chainDur
      simp [h0]
    · obtain ⟨_, hB⟩ := hok t ht
      obtain ⟨hEF, hres⟩ := hB hpe
      have hres2 : ∀ p ∈ t.predecessors, ∃ u ef,
          findTaskById l p.taskId = some u ∧
          u.earlyFinish = some ef ∧ 0 ≤ ef := by
        intro p hp
        obtain ⟨u, ef2, hfu, hefu⟩ := hres p hp
        have hu_mem : u ∈ l := List.mem_of_find?_eq_some hfu
        obtain ⟨ef3, hef3, h03⟩ := EFOK_ef_defined hok hdur u hu_mem
        rw [hefu] at hef3
        injection hef3 with h0
        refine ⟨u, ef2, hfu, hefu, ?_⟩
        rw [h0]
        exact h03
      obtain ⟨p, hp, u, efu, hfu, hefu, hesf⟩ :=
        esFormula_attained hpe hres2 (hlag t ht)
      have hu_mem : u ∈ l := List.mem_of_find?_eq_some hfu
      have hu_id : u.id = p.taskId := by simpa using List.find?_some hfu
      have hsit : (topologicalSort l).get ⟨i, hi⟩ = t :=
        List.inj_on_of_nodup_map hnodup
          (hmem_s _ (List.get_mem _ _ _)) ht
          (by show ((topologicalSort l).get ⟨i, hi⟩).id = t.id
              exact htid.symm)
      have hpi : p ∈ ((topologicalSort l).get ⟨i, hi⟩).predecessors := by
        rw [hsit]
        exact hp
      have hpt_ids : p.taskId ∈ taskIds l := by
        rw [← hu_id]
        exact List.mem_map_of_mem _ hu_mem
      obtain ⟨j, hj, hji, hjid⟩ := hord i hi p hpi hpt_ids
      have hujid : u.id = ((topologicalSort l).get ⟨j, hj⟩).id := by
        rw [hu_id, hjid]
      obtain ⟨c, hc, hcd⟩ := IH j hji hj u hu_mem hujid efu hefu
      refine ⟨c ++ [t], IsChain.cons u t c ht ⟨p, hp, hu_id.symm⟩ hc, ?_⟩
      rw [chainDur_append, hcd]
      rw [hEF] at hef
      injection hef with h0
      rw [← h0, hesf]

theorem isChain_mem {l : List Task} {t : Task} {c : List Task}
    (h : IsChain l t c) : ∀ x ∈ c, x ∈ l := by
  induction h with
  | single t ht hs =>
    intro x hx
    rw [List.mem_singleton.1 hx]
    exact ht
  | cons t u c hu hlink hprev ih =>
    intro x hx
    rcases List.mem_append.1 hx with h0 | h0
    · exact ih x h0
    · rw [List.mem_singleton.1 h0]
      exact hu

theorem isChain_last {l : List Task} {t : Task} {c : List Task}
    (h : IsChain l t c) : c.getLast? = some t := by
  induction h with
  | single t ht hs => rfl
  | cons t u c hu hlink hprev ih => exact List.getLast?_concat _

theorem isChain_head {l : List Task} {t : Task} {c : List Task}
    (h : IsChain l t c) : ∃ s, c.head? = some s ∧ s.predecessors = [] := by
  induction h with
  | single t ht hs => exact ⟨t, rfl, hs⟩
  | cons t u c hu hlink hprev ih =>
    obtain ⟨s, hs1, hs2⟩ := ih
    refine ⟨s, ?_, hs2⟩
    cases c with
    | nil => cases hs1
    | cons a as => exact hs1

theorem isChain_links {l : List Task} {t : Task} {c : List Task}
    (h : IsChain l t c) :
    List.Chain' (fun a b => ∃ p ∈ b.predecessors, p.taskId = a.id) c := by
  induction h with
  | single t ht hs => exact List.chain'_singleton _
  | cons t u c hu hlink hprev ih =>
    refine List.Chain'.append ih (List.chain'_singleton u) ?_
    intro x hx y hy
    have hxt : t = x := by
      have h1 := isChain_last hprev
      rw [h1] at hx
      exact Option.some_injective _ (Option.mem_def.1 hx)
    have hyu : u = y := by
      have h2 : ([u].head? : Option Task) = some u := rfl
      rw [h2] at hy
      exact Option.some_injective _ (Option.mem_def.1 hy)
    rw [← hxt, ← hyu]
    exact hlink

theorem isChain_reach {l : List Task}
    (hnodup : (l.map (fun t => t.id)).Nodup) :
    ∀ {t : Task} {c : List Task}, IsChain l t c → ∀ x ∈ c, x.id = t.id ∨
      Relation.TransGen (Edge l) t.id x.id := by
  intro t c h
  induction h with
  | single t ht hs =>
    intro x hx
    exact Or.inl (by rw [List.mem_singleton.1 hx])
  | cons t u c hu hlink hprev ih =>
    intro x hx
    have hedge : Edge l u.id t.id := by
      obtain ⟨p, hp, hpt⟩ := hlink
      exact ⟨u, find?_eq_of_nodup_mem hnodup hu rfl, by
        rw [← hpt]
        exact List.mem_map_of_mem _ hp⟩
    rcases List.mem_append.1 hx with h0 | h0
    · rcases ih x h0 with h1 | h1
      · refine Or.inr ?_
        rw [h1]
        exact Relation.TransGen.single hedge
      · exact Or.inr (Relation.TransGen.head hedge h1)
    · exact Or.inl (by rw [List.mem_singleton.1 h0])

theorem isChain_ids_nodup {l : List Task}
    (hnodup : (l.map (fun t => t.id)).Nodup)
    (hacyc : ∀ a, ¬ Relation.TransGen (Edge l) a a) :
    ∀ {t : Task} {c : List Task}, IsChain l t c →
      (c.map (fun t => t.id)).Nodup := by
  intro t c h
  induction h with
  | single t ht hs => simp
  | cons t u c hu hlink hprev ih =>
    rw [List.map_append, List.nodup_append]
    refine ⟨ih, by simp, ?_⟩
    intro a ha hb
    have hau : a = u.id := by simpa using hb
    obtain ⟨x, hxc, hxid⟩ := List.mem_map.1 ha
    have hedge : Edge l u.id t.id := by
      obtain ⟨p, hp, hpt⟩ := hlink
      exact ⟨u, find?_eq_of_nodup_mem hnodup hu rfl, by
        rw [← hpt]
        exact List.mem_map_of_mem _ hp⟩
    rcases isChain_reach hnodup hprev x hxc with h1 | h1
    · refine hacyc u.id ?_
      have h2 : t.id = u.id := by rw [← h1, hxid, hau]
      rw [h2] at hedge
      exact Relation.TransGen.single hedge
    · refine hacyc u.id ?_
      refine Relation.TransGen.head hedge ?_
      rw [hxid, hau] at h1
      exact h1

theorem findPathsHelper_mono (tasks : List Task) :
    ∀ (fuel : ℕ) (ct et : Task) (cp : List String) (cd : ℚ)
      (acc : List Path),
      ∃ d, findPathsHelper tasks fuel ct et cp cd acc = acc ++ d := by
  intro fuel
  induction fuel with
  | zero =>
    intro ct et cp cd acc
    exact ⟨[], (List.append_nil acc).symm⟩
  | succ f ih =>
    intro ct et cp cd acc
    show ∃ d, (if ct.id = et.id then
        acc ++ [{ tasks := cp, duration := cd + ct.duration,
                  isCritical := false }]
      else
        (tasks.filter (fun t =>
          t.predecessors.any (fun p => p.taskId = ct.id))).foldl
          (fun a successor =>
            if successor.id ∈ cp then a
            else findPathsHelper tasks f successor et (cp ++ [successor.id])
              (cd + ct.duration) a) acc) = acc ++ d
    by_cases he : ct.id = et.id
    · rw [if_pos he]
      exact ⟨[{ tasks := cp, duration := cd + ct.duration,
                isCritical := false }], rfl⟩
    · rw [if_neg he]
      have Hfold : ∀ (ss : List Task) (a : List Path), ∃ d,
          ss.foldl (fun a successor =>
            if successor.id ∈ cp then a
            else findPathsHelper tasks f successor et (cp ++ [successor.id])
              (cd + ct.duration) a) a = a ++ d := by
        intro ss
        induction ss with
        | nil =>
          intro a
          exact ⟨[], (List.append_nil a).symm⟩
        | cons s ss2 ih2 =>
          intro a
          rw [List.foldl_cons]
          show ∃ d, ss2.foldl _ (if s.id ∈ cp then a
            else findPathsHelper tasks f s et (cp ++ [s.id])
              (cd + ct.duration) a) = a ++ d
          by_cases hs : s.id ∈ cp
          · rw [if_pos hs]
            exact ih2 a
          · rw [if_neg hs]
            obtain ⟨d1, h1⟩ := ih s et (cp ++ [s.id]) (cd + ct.duration) a
            rw [h1]
            obtain ⟨d2, h2⟩ := ih2 (a ++ d1)
            rw [h2]
            exact ⟨d1 ++ d2, List.append_assoc _ _ _⟩
      exact Hfold _ acc

theorem foldPaths_mono (tasks : List Task) (f : ℕ) (et : Task)
    (cp : List String) (cd : ℚ) :
    ∀ (ss : List Task) (a : List Path) (q : Path), q ∈ a →
      q ∈ ss.foldl (fun a successor =>
        if successor.id ∈ cp then a
        else findPathsHelper tasks f successor et (cp ++ [successor.id])
          cd a) a := by
  intro ss
  induction ss with
  | nil =>
    intro a q hq
    exact hq
  | cons s ss2 ih =>
    intro a q hq
    rw [List.foldl_cons]
    refine ih _ q ?_
    show q ∈ (if s.id ∈ cp then a
      else findPathsHelper tasks f s et (cp ++ [s.id]) cd a)
    by_cases hs : s.id ∈ cp
    · rw [if_pos hs]
      exact hq
    · rw [if_neg hs]
      obtain ⟨d, hd⟩ := findPathsHelper_mono tasks f s et (cp ++ [s.id]) cd a
      rw [hd]
      exact List.mem_append.2 (Or.inl hq)

theorem findPathsHelper_complete (tasks : List Task) (e : Task) :
    ∀ (suf : List Task) (fuel : ℕ), suf.length + 1 ≤ fuel →
    ∀ (cur : Task) (pre : List Task) (acc : List Path),
      List.Chain' (fun a b => ∃ p ∈ b.predecessors, p.taskId = a.id)
        (cur :: suf) →
      (∀ x ∈ cur :: suf, x ∈ tasks) →
      (cur :: suf).getLast? = some e →
      ((pre ++ cur :: suf).map (fun t => t.id)).Nodup →
      { tasks := (pre ++ cur :: suf).map (fun t => t.id),
        duration := chainDur (pre ++ cur :: suf),
        isCritical := false } ∈
        findPathsHelper tasks fuel cur e
          ((pre ++ [cur]).map (fun t => t.id)) (chainDur pre) acc := by
  intro suf
  induction suf with
  | nil =>
    intro fuel hfuel cur pre acc hchain hmem hlast hnd
    cases fuel with
    | zero =>
      simp only [List.length_nil] at hfuel
      omega
    | succ f =>
      have hce : cur = e := by
        have h0 : ([cur].getLast? : Option Task) = some cur := rfl
        rw [h0] at hlast
        exact Option.some_injective _ hlast
      show _ ∈ (if cur.id = e.id then
          acc ++ [{ tasks := (pre ++ [cur]).map (fun t => t.id),
                    duration := chainDur pre + cur.duration,
                    isCritical := false }]
        else _)
      rw [if_pos (by rw [hce])]
      refine List.mem_append.2 (Or.inr ?_)
      rw [chainDur_append]
      exact List.mem_singleton.2 rfl
  | cons nxt rest ih =>
    intro fuel hfuel cur pre acc hchain hmem hlast hnd
    cases fuel with
    | zero =>
      simp only [List.length_cons] at hfuel
      omega
    | succ f =>
      have hlast2 : (nxt :: rest).getLast? = some e := by
        rw [← List.getLast?_cons_cons]
        exact hlast
      have hre : pre ++ cur :: nxt :: rest = (pre ++ [cur]) ++ nxt :: rest := by
        rw [List.append_assoc]
        rfl
      have hnd2 : (((pre ++ [cur]) ++ nxt :: rest).map
          (fun t => t.id)).Nodup := by
        rw [← hre]
        exact hnd
      have hne_ce : ¬ cur.id = e.id := by
        intro heq
        have hemem : e ∈ nxt :: rest :=
          List.mem_of_getLast?_eq_some hlast2
        have hnd3 := hnd2
        rw [List.map_append] at hnd3
        obtain ⟨_, hndr, hdisj⟩ := List.nodup_append.1 hnd3
        have hin1 : cur.id ∈ (pre ++ [cur]).map (fun t => t.id) :=
          List.mem_map.2 ⟨cur,
            List.mem_append.2 (Or.inr (List.mem_singleton.2 rfl)), rfl⟩
        have hin2 : cur.id ∈ (nxt :: rest).map (fun t => t.id) := by
          rw [heq]
          exact List.mem_map.2 ⟨e, hemem, rfl⟩
        exact hdisj hin1 hin2
      show _ ∈ (if cur.id = e.id then
          acc ++ [{ tasks := (pre ++ [cur]).map (fun t => t.id),
                    duration := chainDur pre + cur.duration,
                    isCritical := false }]
        else
          (tasks.filter (fun t =>
            t.predecessors.any (fun p => p.taskId = cur.id))).foldl
            (fun a successor =>
              if successor.id ∈ (pre ++ [cur]).map (fun t => t.id) then a
              else findPathsHelper tasks f successor e
                ((pre ++ [cur]).map (fun t => t.id) ++ [successor.id])
                (chainDur pre + cur.duration) a) acc)
      rw [if_neg hne_ce]
      have hnxt_succ : nxt ∈ tasks.filter (fun t =>
          t.predecessors.any (fun p => p.taskId = cur.id)) := by
        refine List.mem_filter.2 ⟨hmem nxt (by simp), ?_⟩
        obtain ⟨p, hp, hpt⟩ := (List.chain'_cons.1 hchain).1
        rw [List.any_eq_true]
        exact ⟨p, hp, by simpa using hpt⟩
      obtain ⟨ss1, ss2, hss⟩ := List.append_of_mem hnxt_succ
      rw [hss, List.foldl_append, List.foldl_cons]
      have hnotin : nxt.id ∉ (pre ++ [cur]).map (fun t => t.id) := by
        have hnd3 := hnd2
        rw [List.map_append] at hnd3
        obtain ⟨_, _, hdisj⟩ := List.nodup_append.1 hnd3
        intro hmem2
        exact hdisj hmem2 (by simp)
      have hfuel2 : rest.length + 1 ≤ f := by
        simp only [List.length_cons] at hfuel
        omega
      have htarget := ih f hfuel2 nxt (pre ++ [cur])
        (ss1.foldl (fun a successor =>
          if successor.id ∈ (pre ++ [cur]).map (fun t => t.id) then a
          else findPathsHelper tasks f successor e
            ((pre ++ [cur]).map (fun t => t.id) ++ [successor.id])
            (chainDur pre + cur.duration) a) acc)
        (List.chain'_cons.1 hchain).2
        (fun x hx => hmem x (List.mem_cons_of_mem _ hx))
        hlast2 hnd2
      have heqpath : ((pre ++ [cur]) ++ [nxt]).map (fun t => t.id) =
          (pre ++ [cur]).map (fun t => t.id) ++ [nxt.id] := by
        rw [List.map_append]
        rfl
      rw [heqpath, chainDur_append, ← hre] at htarget
      refine foldPaths_mono tasks f e ((pre ++ [cur]).map (fun t => t.id))
        (chainDur pre + cur.duration) ss2 _ _ ?_
      show _ ∈ (if nxt.id ∈ (pre ++ [cur]).map (fun t => t.id) then _ else _)
      rw [if_neg hnotin]
      exact htarget

theorem findPathsHelper_sound (l : List Task) (hok : EFOK l)
    (hnodup : (l.map (fun t => t.id)).Nodup)
    (hlag : ∀ t ∈ l, ∀ p ∈ t.predecessors, p.lag = 0)
    (e : Task) (he : e ∈ findEndTasks l) :
    ∀ (fuel : ℕ) (ct : Task) (cp : List String) (cd : ℚ) (acc : List Path),
      ct ∈ l → (∃ ef, ct.earlyFinish = some ef ∧ cd + ct.duration ≤ ef) →
      (∀ q ∈ acc, q.duration ≤ getProjectDuration l) →
      ∀ q ∈ findPathsHelper l fuel ct e cp cd acc,
        q.duration ≤ getProjectDuration l := by
  intro fuel
  induction fuel with
  | zero =>
    intro ct cp cd acc _ _ ha q hq
    exact ha q hq
  | succ f ih =>
    intro ct cp cd acc hct hbound ha q hq
    obtain ⟨ef, hef, hcd⟩ := hbound
    have hq2 : q ∈ (if ct.id = e.id then
        acc ++ [{ tasks := cp, duration := cd + ct.duration,
                  isCritical := false }]
      else
        (l.filter (fun t =>
          t.predecessors.any (fun p => p.taskId = ct.id))).foldl
          (fun a successor =>
            if successor.id ∈ cp then a
            else findPathsHelper l f successor e (cp ++ [successor.id])
              (cd + ct.duration) a) acc) := hq
    by_cases hce : ct.id = e.id
    · rw [if_pos hce] at hq2
      rcases List.mem_append.1 hq2 with h0 | h0
      · exact ha q h0
      · have hqd : q.duration = cd + ct.duration := by
          rw [List.mem_singleton.1 h0]
        rw [hqd]
        have hel : e ∈ l := (mem_findEndTasks.1 he).1
        have hcte : ct = e :=
          List.inj_on_of_nodup_map hnodup hct hel
            (by show ct.id = e.id; exact hce)
        rw [hcte] at hef
        exact le_trans hcd (getProjectDuration_ge he hef)
    · rw [if_neg hce] at hq2
      have Hfold : ∀ (ss : List Task),
          (∀ s ∈ ss, s ∈ l ∧ ∃ p ∈ s.predecessors, p.taskId = ct.id) →
          ∀ (a : List Path), (∀ q ∈ a, q.duration ≤ getProjectDuration l) →
          ∀ q ∈ ss.foldl (fun a successor =>
            if successor.id ∈ cp then a
            else findPathsHelper l f successor e (cp ++ [successor.id])
              (cd + ct.duration) a) a,
            q.duration ≤ getProjectDuration l := by
        intro ss
        induction ss with
        | nil =>
          intro _ a ha2 q2 hq3
          exact ha2 q2 hq3
        | cons s ss2 ihs =>
          intro hprop a ha2 q2 hq3
          rw [List.foldl_cons] at hq3
          refine ihs (fun x hx => hprop x (List.mem_cons_of_mem _ hx))
            _ ?_ q2 hq3
          intro q3 hq4
          have hq5 : q3 ∈ (if s.id ∈ cp then a
            else findPathsHelper l f s e (cp ++ [s.id])
              (cd + ct.duration) a) := hq4
          by_cases hs : s.id ∈ cp
          · rw [if_pos hs] at hq5
            exact ha2 q3 hq5
          · rw [if_neg hs] at hq5
            obtain ⟨hsl, p, hp, hpt⟩ := hprop s (List.mem_cons_self _ _)
            obtain ⟨efs, hefs, hbnd⟩ :=
              EF_succ_ge hok hnodup hlag hct hsl hp hpt hef
            refine ih s (cp ++ [s.id]) (cd + ct.duration) a hsl
              ⟨efs, hefs, ?_⟩ ha2 q3 hq5
            have h1 : cd + ct.duration + s.duration ≤ ef + s.duration :=
              add_le_add_right hcd _
            exact le_trans h1 hbnd
      refine Hfold (l.filter (fun t =>
        t.predecessors.any (fun p => p.taskId = ct.id))) ?_ acc ha q hq2
      intro s hs
      have hm := List.mem_filter.1 hs
      refine ⟨hm.1, ?_⟩
      have hany := hm.2
      rw [List.any_eq_true] at hany
      obtain ⟨p, hp, hpt⟩ := hany
      exact ⟨p, hp, by simpa using hpt⟩

theorem strategyPass_sskel3 (cur : List Task) (id : String) :
    (strategyPass cur id).map sskel3 = cur.map sskel3 := by
  unfold strategyPass
  cases h : findTaskById cur id with
  | none => rfl
  | some task => exact map_sskel3_pres (sfun_sskel3 task id) cur

theorem recomputeEarly_sskel3 (cur : List Task) (id : String) :
    (recomputeEarly cur id).map sskel3 = cur.map sskel3 :=
  map_sskel3_pres (rfun_sskel3 cur id) cur

theorem calculateEarlyDates_sskel3 (tasks : List Task) :
    (calculateEarlyDates tasks).map sskel3 = tasks.map sskel3 := by
  have H : ∀ (ids : List String) (cur : List Task),
      ((ids.foldl (fun cur id => recomputeEarly (strategyPass cur id) id)
        cur).map sskel3) = cur.map sskel3 := by
    intro ids
    induction ids with
    | nil => intro cur; rfl
    | cons i is ih =>
      intro cur
      rw [List.foldl_cons, ih, recomputeEarly_sskel3, strategyPass_sskel3]
  show ((((topologicalSort (initEarly tasks)).map (fun t => t.id)).foldl
    (fun cur id => recomputeEarly (strategyPass cur id) id)
    (initEarly tasks)).map sskel3) = tasks.map sskel3
  rw [H, initEarly_sskel3]

theorem foldEnds_mono (l : List Task) (fuel : ℕ) (s : Task) :
    ∀ (es : List Task) (a : List Path) (q : Path), q ∈ a →
      q ∈ es.foldl (fun acc2 e2 =>
        findPathsHelper l fuel s e2 [s.id] 0 acc2) a := by
  intro es
  induction es with
  | nil =>
    intro a q hq
    exact hq
  | cons e2 es2 ih =>
    intro a q hq
    rw [List.foldl_cons]
    refine ih _ q ?_
    obtain ⟨d, hd⟩ := findPathsHelper_mono l fuel s e2 [s.id] 0 a
    rw [hd]
    exact List.mem_append.2 (Or.inl hq)

theorem foldStarts_mono (l : List Task) (fuel : ℕ) (es : List Task) :
    ∀ (ss : List Task) (a : List Path) (q : Path), q ∈ a →
      q ∈ ss.foldl (fun acc s =>
        es.foldl (fun acc2 e2 =>
          findPathsHelper l fuel s e2 [s.id] 0 acc2) acc) a := by
  intro ss
  induction ss with
  | nil =>
    intro a q hq
    exact hq
  | cons s ss2 ih =>
    intro a q hq
    rw [List.foldl_cons]
    exact ih _ q (foldEnds_mono l fuel s es a q hq)

theorem findAllPaths_max (l : List Task) (hok : EFOK l)
    (hnodup : (l.map (fun t => t.id)).Nodup)
    (hacyc : ∀ a, ¬ Relation.TransGen (Edge l) a a)
    (hlag : ∀ t ∈ l, ∀ p ∈ t.predecessors, p.lag = 0)
    (hdur : ∀ t ∈ l, 0 ≤ t.duration)
    (hne : l ≠ []) :
    (∀ q ∈ (findAllPaths l).1, q.duration ≤ getProjectDuration l) ∧
    (∃ q ∈ (findAllPaths l).1, q.duration = getProjectDuration l) := by
  have hfst : (findAllPaths l).1 =
      ((findStartTasks l).foldl (fun acc s =>
        (findEndTasks l).foldl (fun acc2 e2 =>
          findPathsHelper l (l.length + 1) s e2 [s.id] 0 acc2) acc) []).map
        (fun p => if p.duration = getProjectDuration l then
          { p with isCritical := true } else p) := rfl
  have hmdur : ∀ p : Path, ((fun p =>
      if p.duration = getProjectDuration l then
        { p with isCritical := true } else p) p).duration = p.duration := by
    intro p
    show (if p.duration = getProjectDuration l then
      { p with isCritical := true } else p).duration = p.duration
    by_cases h : p.duration = getProjectDuration l
    · rw [if_pos h]
    · rw [if_neg h]
  have Hsound : ∀ q ∈ (findStartTasks l).foldl (fun acc s =>
      (findEndTasks l).foldl (fun acc2 e2 =>
        findPathsHelper l (l.length + 1) s e2 [s.id] 0 acc2) acc) [],
      q.duration ≤ getProjectDuration l := by
    suffices H : ∀ (ss : List Task), (∀ s ∈ ss, s ∈ findStartTasks l) →
        ∀ (a : List Path), (∀ q ∈ a, q.duration ≤ getProjectDuration l) →
        ∀ q ∈ ss.foldl (fun acc s =>
          (findEndTasks l).foldl (fun acc2 e2 =>
            findPathsHelper l (l.length + 1) s e2 [s.id] 0 acc2) acc) a,
          q.duration ≤ getProjectDuration l by
      exact H _ (fun s hs => hs) []
        (fun q hq => absurd hq (List.not_mem_nil q))
    intro ss
    induction ss with
    | nil =>
      intro _ a ha q hq
      exact ha q hq
    | cons s ss2 ih =>
      intro hss a ha q hq
      rw [List.foldl_cons] at hq
      refine ih (fun x hx => hss x (List.mem_cons_of_mem _ hx)) _ ?_ q hq
      obtain ⟨hsl, hsp⟩ := mem_findStartTasks.1 (hss s (List.mem_cons_self _ _))
      have hsef : s.earlyFinish = some s.duration := ((hok s hsl).1) hsp
      have hsbound : ∃ ef, s.earlyFinish = some ef ∧
          (0 : ℚ) + s.duration ≤ ef :=
        ⟨s.duration, hsef, by rw [zero_add]⟩
      have Hinner : ∀ (es : List Task), (∀ x ∈ es, x ∈ findEndTasks l) →
          ∀ (a2 : List Path), (∀ q ∈ a2, q.duration ≤ getProjectDuration l) →
          ∀ q ∈ es.foldl (fun acc2 e2 =>
            findPathsHelper l (l.length + 1) s e2 [s.id] 0 acc2) a2,
            q.duration ≤ getProjectDuration l := by
        intro es
        induction es with
        | nil =>
          intro _ a2 ha2 q2 hq2
          exact ha2 q2 hq2
        | cons e2 es2 ih2 =>
          intro hes a2 ha2 q2 hq2
          rw [List.foldl_cons] at hq2
          refine ih2 (fun x hx => hes x (List.mem_cons_of_mem _ hx))
            _ ?_ q2 hq2
          exact findPathsHelper_sound l hok hnodup hlag e2
            (hes e2 (List.mem_cons_self _ _)) (l.length + 1) s [s.id] 0 a2
            hsl hsbound ha2
      exact Hinner (findEndTasks l) (fun x hx => hx) a ha
  have hendne : findEndTasks l ≠ [] := findEndTasks_ne_nil hnodup hacyc hne
  obtain ⟨emax, hemax, hemaxd⟩ := getProjectDuration_attained hendne
  have hemaxl : emax ∈ l := (mem_findEndTasks.1 hemax).1
  obtain ⟨efm, hefm, hefm0⟩ := EFOK_ef_defined hok hdur emax hemaxl
  have hefml : emax.earlyFinish.getD 0 = efm := by rw [hefm]; rfl
  have hPD : efm = getProjectDuration l := by rw [← hemaxd, hefml]
  obtain ⟨c, hc, hcd⟩ :=
    chain_attains hok hnodup hacyc hlag hdur emax hemaxl efm hefm
  obtain ⟨s, hhead, hsp⟩ := isChain_head hc
  cases c with
  | nil => cases hhead
  | cons s0 ctail =>
    have hhead2 : some s0 = some s := hhead
    have hs0 : s0 = s := Option.some_injective _ hhead2
    rw [← hs0] at hsp
    have hcchain := isChain_links hc
    have hcmem := isChain_mem hc
    have hclast := isChain_last hc
    have hcnodup := isChain_ids_nodup hnodup hacyc hc
    have hclen : ctail.length + 1 ≤ l.length := by
      have h2 : ((s0 :: ctail).map (fun t => t.id)) ⊆
          l.map (fun t => t.id) := by
        intro x hx
        obtain ⟨y, hy, hyx⟩ := List.mem_map.1 hx
        exact List.mem_map.2 ⟨y, hcmem y hy, hyx⟩
      have h3 := nodup_subset_length_le hcnodup h2
      rw [List.length_map, List.length_map] at h3
      simpa using h3
    have hfuelbnd : ctail.length + 1 ≤ l.length + 1 := by omega
    have hs0start : s0 ∈ findStartTasks l :=
      mem_findStartTasks.2 ⟨hcmem s0 (List.mem_cons_self _ _), hsp⟩
    obtain ⟨st1, st2, hst⟩ := List.append_of_mem hs0start
    obtain ⟨en1, en2, hen⟩ := List.append_of_mem hemax
    have Hcomp : ({ tasks := (s0 :: ctail).map (fun t => t.id),
                    duration := chainDur (s0 :: ctail),
                    isCritical := false } : Path) ∈
        (findStartTasks l).foldl (fun acc s =>
          (findEndTasks l).foldl (fun acc2 e2 =>
            findPathsHelper l (l.length + 1) s e2 [s.id] 0 acc2) acc) [] := by
      rw [hst, List.foldl_append, List.foldl_cons]
      refine foldStarts_mono l (l.length + 1) (findEndTasks l) st2 _ _ ?_
      show _ ∈ (findEndTasks l).foldl (fun acc2 e2 =>
        findPathsHelper l (l.length + 1) s0 e2 [s0.id] 0 acc2) _
      rw [hen, List.foldl_append, List.foldl_cons]
      refine foldEnds_mono l (l.length + 1) s0 en2 _ _ ?_
      show _ ∈ findPathsHelper l (l.length + 1) s0 emax [s0.id] 0 _
      exact findPathsHelper_complete l emax ctail (l.length + 1) hfuelbnd
        s0 [] _ hcchain hcmem hclast hcnodup
    refine ⟨?_, ?_⟩
    · intro q hq
      rw [hfst] at hq
      obtain ⟨p0, hp0, hqp⟩ := List.mem_map.1 hq
      have hd : q.duration = p0.duration := by
        rw [← hqp]
        exact hmdur p0
      rw [hd]
      exact Hsound p0 hp0
    · refine ⟨(fun p => if p.duration = getProjectDuration l then
          { p with isCritical := true } else p)
          ({ tasks := (s0 :: ctail).map (fun t => t.id),
             duration := chainDur (s0 :: ctail),
             isCritical := false } : Path), ?_, ?_⟩
      · rw [hfst]
        exact List.mem_map_of_mem _ Hcomp
      · rw [hmdur]
        show chainDur (s0 :: ctail) = getProjectDuration l
        rw [hcd]
        exact hPD

set_option maxHeartbeats 1000000 in
theorem calculateSchedule_max (tasks : List Task) (v : List String)
    (hnodup : (tasks.map (fun t => t.id)).Nodup)
    (hclosed : ∀ t ∈ tasks, ∀ p ∈ t.predecessors, p.taskId ∈ taskIds tasks)
    (hval : validateNoCyclicDependencies tasks = some v)
    (hlag : ∀ t ∈ tasks, ∀ p ∈ t.predecessors, p.lag = 0)
    (hdur : ∀ t ∈ tasks, 0 ≤ t.duration)
    (hne : tasks ≠ []) :
    ∃ r, calculateSchedule tasks = .ok r ∧
      (∀ q ∈ r.allPaths, q.duration ≤ r.projectDuration) ∧
      (∃ q ∈ r.allPaths, q.duration = r.projectDuration) := by
  have hacyc := validate_acyclic hval
  have hsk4 : (calculateSlackAndMarkCriticalPath (calculateLateDates
      (calculateEarlyDates tasks))).map sskel4 =
      (calculateEarlyDates tasks).map sskel4 := by
    rw [calculateSlack_sskel4, calculateLateDates_sskel4]
  have hsk3a : (calculateSlackAndMarkCriticalPath (calculateLateDates
      (calculateEarlyDates tasks))).map sskel3 = tasks.map sskel3 := by
    have h1 := sskel3_of_sskel4 hsk4
    rw [h1, calculateEarlyDates_sskel3]
  have hok1 : EFOK (calculateEarlyDates tasks) :=
    calculateEarlyDates_EFOK tasks hnodup hclosed hacyc
  have hok3 : EFOK (calculateSlackAndMarkCriticalPath (calculateLateDates
      (calculateEarlyDates tasks))) := EFOK_transfer hsk4.symm hok1
  have hids3 : (calculateSlackAndMarkCriticalPath (calculateLateDates
      (calculateEarlyDates tasks))).map (fun t => t.id) =
      tasks.map (fun t => t.id) := map_id_of_sskel3 hsk3a
  have hnodup3 : ((calculateSlackAndMarkCriticalPath (calculateLateDates
      (calculateEarlyDates tasks))).map (fun t => t.id)).Nodup := by
    rw [hids3]
    exact hnodup
  have hacyc3 : ∀ a, ¬ Relation.TransGen (Edge
      (calculateSlackAndMarkCriticalPath (calculateLateDates
        (calculateEarlyDates tasks)))) a a := by
    intro a hcyc
    refine hacyc a ?_
    refine Relation.TransGen.mono ?_ hcyc
    intro x y hxy
    exact (edge_iff_of_sskel3 hsk3a x y).1 hxy
  have hlag3 : ∀ t ∈ calculateSlackAndMarkCriticalPath (calculateLateDates
      (calculateEarlyDates tasks)), ∀ p ∈ t.predecessors, p.lag = 0 := by
    intro t ht p hp
    obtain ⟨t0, ht0, hsk⟩ := mem_corr_of_sskel3 hsk3a t ht
    have hpr : t0.predecessors = t.predecessors :=
      congrArg (fun y => y.2.1) hsk
    exact hlag t0 ht0 p (by rw [hpr]; exact hp)
  have hdur3 : ∀ t ∈ calculateSlackAndMarkCriticalPath (calculateLateDates
      (calculateEarlyDates tasks)), 0 ≤ t.duration := by
    intro t ht
    obtain ⟨t0, ht0, hsk⟩ := mem_corr_of_sskel3 hsk3a t ht
    have hdu : t0.duration = t.duration := congrArg (fun y => y.2.2) hsk
    rw [← hdu]
    exact hdur t0 ht0
  have hne3 : calculateSlackAndMarkCriticalPath (calculateLateDates
      (calculateEarlyDates tasks)) ≠ [] := by
    intro h0
    have h1 := congrArg List.length hsk3a
    rw [h0, List.length_map, List.length_map] at h1
    exact hne (List.length_eq_zero.1 h1.symm)
  obtain ⟨hs, hc⟩ := findAllPaths_max
    (calculateSlackAndMarkCriticalPath (calculateLateDates
      (calculateEarlyDates tasks)))
    hok3 hnodup3 hacyc3 hlag3 hdur3 hne3
  have hlen0 : ¬ tasks.length = 0 := by
    intro h0
    exact hne (List.length_eq_zero.1 h0)
  refine ⟨{ tasks := calculateSlackAndMarkCriticalPath (calculateLateDates
              (calculateEarlyDates tasks)),
            allPaths := (findAllPaths (calculateSlackAndMarkCriticalPath
              (calculateLateDates (calculateEarlyDates tasks)))).1,
            criticalPaths := (findAllPaths (calculateSlackAndMarkCriticalPath
              (calculateLateDates (calculateEarlyDates tasks)))).2,
            projectDuration := getProjectDuration
              (calculateSlackAndMarkCriticalPath (calculateLateDates
                (calculateEarlyDates tasks))) }, ?_, hs, hc⟩
  unfold calculateSchedule
  rw [if_neg hlen0, hval]

end Scheduler


/-- C5, counterexample.  The claim says `crashProject` itself rejects an
empty task list (among other invalid inputs) with an error before any
iteration.  In fact `crashProject` performs no validation at all: on the
empty task list it returns an ordinary result containing the iteration-0
snapshot and one cost row, marked as crash point and optimum, and no error
is ever raised (the function is total). -/
theorem C5_no_validation_counterexample :
    Crashing.crashProject [] 7 3 =
      (⟨[[]], [], [], [⟨0, [], 0, 0, 7, 7, true, true⟩]⟩ : Crashing.CrashResult) := by
  with_unfolding_all decide

/-- C5, amended.  The validation described by the claim lives in the caller
`performCrashing` of `ProjectCrashingContext`, not in `crashProject`: it
rejects, in order, an empty task list, a negative indirect cost or
reduction-per-unit (these two share a single error kind), a task set with no
start task, and a task set with no end task, all before the service is
invoked, so on an error no history or cost row is produced; only when every
check passes is `crashProject` called. -/
theorem C5_wrapper_validation (tasks : List Crashing.CrashTask) (ic rpu : ℚ) :
    (tasks = [] →
      Crashing.performCrashing tasks ic rpu = .error "No tasks to crash") ∧
    (tasks ≠ [] → (ic < 0 ∨ rpu < 0) →
      Crashing.performCrashing tasks ic rpu =
        .error "Indirect cost and reduction per unit must be non-negative") ∧
    (tasks ≠ [] → ¬ (ic < 0 ∨ rpu < 0) →
      tasks.filter (fun t => t.predecessors = []) = [] →
      Crashing.performCrashing tasks ic rpu =
        .error "No start tasks found. At least one task must have no predecessors.") ∧
    (tasks ≠ [] → ¬ (ic < 0 ∨ rpu < 0) →
      tasks.filter (fun t => t.predecessors = []) ≠ [] →
      tasks.filter (fun t =>
        ¬ tasks.any (fun u => u.predecessors.any (fun p => p.taskId = t.id))) = [] →
      Crashing.performCrashing tasks ic rpu =
        .error "No end tasks found. At least one task must not be a predecessor for any task.") ∧
    (∀ r, Crashing.performCrashing tasks ic rpu = .ok r →
      r = Crashing.crashProject tasks ic rpu) := by
  unfold Crashing.performCrashing
  refine ⟨?_, ?_, ?_, ?_, ?_⟩
  · intro h
    subst h
    simp
  · intro hne hneg
    rw [if_neg (by simpa [List.length_eq_zero] using hne), if_pos hneg]
  · intro hne hneg hstart
    rw [if_neg (by simpa [List.length_eq_zero] using hne), if_neg hneg, if_pos hstart]
  · intro hne hneg hstart hend
    rw [if_neg (by simpa [List.length_eq_zero] using hne), if_neg hneg,
      if_neg hstart, if_pos hend]
  · intro r h
    by_cases h1 : tasks.length = 0
    · rw [if_pos h1] at h
      exact absurd h (by simp)
    · rw [if_neg h1] at h
      by_cases h2 : ic < 0 ∨ rpu < 0
      · rw [if_pos h2] at h
        exact absurd h (by simp)
      · rw [if_neg h2] at h
        by_cases h3 : tasks.filter (fun t => t.predecessors = []) = []
        · rw [if_pos h3] at h
          exact absurd h (by simp)
        · rw [if_neg h3] at h
          by_cases h4 : tasks.filter (fun t =>
              ¬ tasks.any (fun u => u.predecessors.any (fun p => p.taskId = t.id))) = []
          · rw [if_pos h4] at h
            exact absurd h (by simp)
          · rw [if_neg h4] at h
            exact (Except.ok.injEq _ _ ▸ h).symm

/-- C5, witness for the amended theorem: the empty task list is rejected by
the wrapper with the empty-list error. -/
theorem C5_wrapper_validation_witness :
    Crashing.performCrashing [] 1 1 = .error "No tasks to crash" :=
  (C5_wrapper_validation [] 1 1).1 rfl

/-- C1, counterexample.  Two parallel one-task paths of equal duration: X
has crash capacity and slope 1, Y has none.  No combination covers both
critical paths, so the fallback crashes X alone; the step does not shorten
the project (the Y path still takes 5) yet it is committed: the second cost
row has `crashedActivities = [X]` and the same `projectDuration` 5 as the
first row, refuting the strict decrease and the no-commit claim. -/
theorem C1_nonimproving_commit_counterexample :
    ((Crashing.crashProject [Crashing.exX, Crashing.exY] 20 1).costAnalysis.map
      (fun c => (c.projectDuration, c.crashedActivities))) = [(5, []), (5, ["X"])] := by
  with_unfolding_all decide

/-- C2, counterexample.  Two critical paths A-C and B-C; the cheapest cover
crashes A (slope 3) and B (slope 4) together.  The committed row records the
incremental `crashCost` 3 — the slope of the single representative task A —
rather than the sum 7, and `directCost` grows 30 to 33, not 37. -/
theorem C2_crash_cost_counterexample :
    Crashing.exA.slope = some 3 ∧ Crashing.exB.slope = some 4 ∧
    ((Crashing.crashProject [Crashing.exA, Crashing.exB, Crashing.exC] 20 0).costAnalysis.map
      (fun c => (c.crashedActivities, c.crashCost, c.directCost))) =
      [([], 0, 30), (["A", "B"], 3, 33), (["C"], 10, 43)] := by
  with_unfolding_all decide

/-- C3, counterexample.  At the first iteration both critical paths A-C and
B-C contain the crashable common task C (slope 10), but the combination
crashing A and B has total slope 7 < 10, and the service selects the
combination: `crashedActivities` of the committed step is `[A, B]`, not the
singleton `[C]`, so the common-task shortcut does not have priority. -/
theorem C3_common_task_counterexample :
    (Crashing.commonTasks
        ((Crashing.calculateAllPaths ([Crashing.exA, Crashing.exB, Crashing.exC].map
          (fun t => { t with duration := t.normalTime }))).filter (fun p => p.isCritical))
        (Crashing.crashableTasks
          ((Crashing.calculateAllPaths ([Crashing.exA, Crashing.exB, Crashing.exC].map
            (fun t => { t with duration := t.normalTime }))).filter (fun p => p.isCritical))
          ([Crashing.exA, Crashing.exB, Crashing.exC].map
            (fun t => { t with duration := t.normalTime })))).map (fun t => t.id) = ["C"] ∧
    ((Crashing.crashProject [Crashing.exA, Crashing.exB, Crashing.exC] 20 0).costAnalysis.getD 1
      Crashing.caDefault).crashedActivities = ["A", "B"] := by
  with_unfolding_all decide

/-- C4, counterexample.  In the simultaneous A-and-B step of the same run,
only the paths containing the representative task A are decremented in the
recorded history: the B-C path records duration 10 at iteration 1 although
the post-crash durations along it sum to 9 (and records 9 at iteration 2
against a true sum of 8). -/
theorem C4_path_history_counterexample :
    ((Crashing.crashProject [Crashing.exA, Crashing.exB, Crashing.exC] 20 0).paths.map
      (fun p => (p.tasks, p.durations))) =
      [(["A", "C"], [10, 9, 8]), (["B", "C"], [10, 10, 9])] ∧
    Crashing.sumPathDurations
      ((Crashing.crashProject [Crashing.exA, Crashing.exB, Crashing.exC] 20 0).crashedTasks.getD 1 [])
      ["B", "C"] = 9 ∧
    Crashing.sumPathDurations
      ((Crashing.crashProject [Crashing.exA, Crashing.exB, Crashing.exC] 20 0).crashedTasks.getD 2 [])
      ["B", "C"] = 8 := by
  with_unfolding_all decide

/-- C6, counterexample.  With a non-zero lag the scheduler computes project
duration 10 (early finish of B = 2 + 5 + 3), while path enumeration sums
only the task durations and reports a single path of duration 5: the claimed
equality fails on valid acyclic task sets with non-zero lags. -/
theorem C6_lag_counterexample :
    (Scheduler.calculateSchedule [exLagA, exLagB]).toOption.map
      (fun r => (r.projectDuration, r.allPaths.map (fun p => p.duration))) =
      some (10, [5]) := by
  with_unfolding_all decide

/-- C9.  In the cost analysis array returned by `crashProject`, exactly one
entry has `isOptimum = true`: there is an index `i` whose entry is marked,
every other entry is unmarked, the marked entry attains the minimum
`totalCost` over the whole array, and every earlier entry has a strictly
larger `totalCost` (the first of several minima wins). -/
theorem C9_exactly_one_optimum (tasks : List Crashing.CrashTask)
    (indirectCost reductionPerUnit : ℚ) :
    ∃ i, i < (Crashing.crashProject tasks indirectCost
        reductionPerUnit).costAnalysis.length ∧
      (((Crashing.crashProject tasks indirectCost
          reductionPerUnit).costAnalysis.getD i Crashing.caDefault).isOptimum = true) ∧
      (∀ j, j < (Crashing.crashProject tasks indirectCost
          reductionPerUnit).costAnalysis.length → j ≠ i →
        ((Crashing.crashProject tasks indirectCost
          reductionPerUnit).costAnalysis.getD j Crashing.caDefault).isOptimum = false) ∧
      (∀ j, j < (Crashing.crashProject tasks indirectCost
          reductionPerUnit).costAnalysis.length →
        ((Crashing.crashProject tasks indirectCost
            reductionPerUnit).costAnalysis.getD i Crashing.caDefault).totalCost ≤
          ((Crashing.crashProject tasks indirectCost
            reductionPerUnit).costAnalysis.getD j Crashing.caDefault).totalCost) ∧
      (∀ j, j < i →
        ((Crashing.crashProject tasks indirectCost
            reductionPerUnit).costAnalysis.getD i Crashing.caDefault).totalCost <
          ((Crashing.crashProject tasks indirectCost
            reductionPerUnit).costAnalysis.getD j Crashing.caDefault).totalCost) := by
  rw [Crashing.crashProject_eq]
  exact Crashing.optimum_mark_spec
    (Crashing.cpFinalState tasks indirectCost reductionPerUnit).costAnalysis
    (Crashing.cpFinalState_optInv tasks indirectCost reductionPerUnit).1
    (Crashing.cpFinalState_optInv tasks indirectCost reductionPerUnit).2

/-- C2, amended.  For every committed crashing iteration, the cumulative
direct cost extends the previous row by the row's incremental `crashCost`,
but that incremental cost is the slope (`slope || 0`) of a single
representative crashed task — one whose id appears in that row's
`crashedActivities`, looked up in the snapshot preceding the step — not the
sum of the slopes of all tasks crashed in the step. -/
theorem C2_crash_cost_amended (tasks : List Crashing.CrashTask)
    (indirectCost reductionPerUnit : ℚ) (i : ℕ)
    (h : i + 1 < (Crashing.crashProject tasks indirectCost
      reductionPerUnit).costAnalysis.length) :
    ((Crashing.crashProject tasks indirectCost
        reductionPerUnit).costAnalysis.getD (i + 1) Crashing.caDefault).directCost =
      ((Crashing.crashProject tasks indirectCost
        reductionPerUnit).costAnalysis.getD i Crashing.caDefault).directCost +
      ((Crashing.crashProject tasks indirectCost
        reductionPerUnit).costAnalysis.getD (i + 1) Crashing.caDefault).crashCost ∧
    ∃ tid t, tid ∈ ((Crashing.crashProject tasks indirectCost
        reductionPerUnit).costAnalysis.getD (i + 1) Crashing.caDefault).crashedActivities ∧
      ((Crashing.crashProject tasks indirectCost
        reductionPerUnit).crashedTasks.getD i []).find? (fun u => u.id = tid) = some t ∧
      ((Crashing.crashProject tasks indirectCost
        reductionPerUnit).costAnalysis.getD (i + 1) Crashing.caDefault).crashCost =
        Crashing.slopeOrZero t := by
  rw [Crashing.crashProject_eq] at h ⊢
  obtain ⟨hne, hlen, hlast, hca⟩ :=
    Crashing.cpFinalState_c2Inv tasks indirectCost reductionPerUnit
  have hk : Crashing.firstMinTotalCostIdx
      (Crashing.cpFinalState tasks indirectCost reductionPerUnit).costAnalysis <
      (Crashing.cpFinalState tasks indirectCost reductionPerUnit).costAnalysis.length :=
    (Crashing.firstMinTotalCostIdx_spec _ hne).1
  have h2 : i + 1 <
      (Crashing.cpFinalState tasks indirectCost reductionPerUnit).costAnalysis.length := by
    have h3 : i + 1 < ((Crashing.cpFinalState tasks indirectCost
        reductionPerUnit).costAnalysis.set
      (Crashing.firstMinTotalCostIdx
        (Crashing.cpFinalState tasks indirectCost reductionPerUnit).costAnalysis)
      { (Crashing.cpFinalState tasks indirectCost
          reductionPerUnit).costAnalysis.getD
        (Crashing.firstMinTotalCostIdx
          (Crashing.cpFinalState tasks indirectCost reductionPerUnit).costAnalysis)
        Crashing.caDefault with isOptimum := true }).length := h
    rw [List.length_set] at h3
    exact h3
  obtain ⟨h1, tid, t, hmem, hfind, hslope⟩ := hca i h2
  have hdc := Crashing.getD_set_optimum_proj (fun c0 => c0.directCost)
    (fun x => rfl)
    (Crashing.cpFinalState tasks indirectCost reductionPerUnit).costAnalysis
    (Crashing.firstMinTotalCostIdx
      (Crashing.cpFinalState tasks indirectCost reductionPerUnit).costAnalysis)
  have hcc := Crashing.getD_set_optimum_proj (fun c0 => c0.crashCost)
    (fun x => rfl)
    (Crashing.cpFinalState tasks indirectCost reductionPerUnit).costAnalysis
    (Crashing.firstMinTotalCostIdx
      (Crashing.cpFinalState tasks indirectCost reductionPerUnit).costAnalysis)
  have hac := Crashing.getD_set_optimum_proj (fun c0 => c0.crashedActivities)
    (fun x => rfl)
    (Crashing.cpFinalState tasks indirectCost reductionPerUnit).costAnalysis
    (Crashing.firstMinTotalCostIdx
      (Crashing.cpFinalState tasks indirectCost reductionPerUnit).costAnalysis)
  refine ⟨?_, tid, t, ?_, hfind, ?_⟩
  · have e1 := hdc (i + 1) hk
    have e2 := hdc i hk
    have e3 := hcc (i + 1) hk
    simp only at e1 e2 e3
    rw [e1, e2, e3]
    exact h1
  · have e4 := hac (i + 1) hk
    simp only at e4
    rw [e4]
    exact hmem
  · have e5 := hcc (i + 1) hk
    simp only at e5
    rw [e5]
    exact hslope

/-- C2 witness: in the crash run of the A-B-C combination example, the
committed first iteration has direct cost 33 = 30 + 3 where 3 is the slope
of the single representative task A, although both A and B are crashed. -/
theorem C2_crash_cost_amended_witness :
    (0 + 1 < (Crashing.crashProject [Crashing.exA, Crashing.exB, Crashing.exC]
      20 0).costAnalysis.length) ∧
    (((Crashing.crashProject [Crashing.exA, Crashing.exB, Crashing.exC]
        20 0).costAnalysis.getD (0 + 1) Crashing.caDefault).directCost =
      ((Crashing.crashProject [Crashing.exA, Crashing.exB, Crashing.exC]
        20 0).costAnalysis.getD 0 Crashing.caDefault).directCost +
      ((Crashing.crashProject [Crashing.exA, Crashing.exB, Crashing.exC]
        20 0).costAnalysis.getD (0 + 1) Crashing.caDefault).crashCost ∧
    ∃ tid t, tid ∈ ((Crashing.crashProject [Crashing.exA, Crashing.exB, Crashing.exC]
        20 0).costAnalysis.getD (0 + 1) Crashing.caDefault).crashedActivities ∧
      ((Crashing.crashProject [Crashing.exA, Crashing.exB, Crashing.exC]
        20 0).crashedTasks.getD 0 []).find? (fun u => u.id = tid) = some t ∧
      ((Crashing.crashProject [Crashing.exA, Crashing.exB, Crashing.exC]
        20 0).costAnalysis.getD (0 + 1) Crashing.caDefault).crashCost =
        Crashing.slopeOrZero t) :=
  ⟨by with_unfolding_all decide,
    C2_crash_cost_amended [Crashing.exA, Crashing.exB, Crashing.exC] 20 0 0
      (by with_unfolding_all decide)⟩

/-- C8, counterexample.  With a fractional crash capacity (normal time 5,
crash time 9/2, so maxCrashTime 1/2), the single crash step still
decrements the duration by a full unit: the second history snapshot records
duration 4, strictly below the crash time 9/2, and maxCrashTime -1/2,
strictly below 0, refuting the claimed invariant on general inputs. -/
theorem C8_fractional_counterexample :
    ((Crashing.crashProject [Crashing.exF] 20 0).crashedTasks.map (fun snap =>
      snap.map (fun t => (t.duration, t.crashTime, t.maxCrashTime)))) =
      [[(5, 9/2, some (1/2))], [(4, 9/2, some (-(1/2)))]] := by
  with_unfolding_all decide

/-- C8, amended.  When every task enters with `maxCrashTime` equal to
`normalTime - crashTime`, with `crashTime ≤ normalTime`, and with an
integral capacity (denominator 1), and ids are distinct, then across the
entire `crashedTasks` history every task keeps `crashTime ≤ duration` and a
set, non-negative `maxCrashTime`. -/
theorem C8_history_amended (tasks : List Crashing.CrashTask)
    (indirectCost reductionPerUnit : ℚ)
    (hnodup : (tasks.map (fun t => t.id)).Nodup)
    (hok : ∀ t ∈ tasks, t.maxCrashTime = some (t.normalTime - t.crashTime) ∧
      t.crashTime ≤ t.normalTime ∧ (t.normalTime - t.crashTime).den = 1) :
    ∀ snap ∈ (Crashing.crashProject tasks indirectCost
      reductionPerUnit).crashedTasks, ∀ t ∈ snap,
      t.crashTime ≤ t.duration ∧ ∃ m, t.maxCrashTime = some m ∧ 0 ≤ m := by
  intro snap hsnap t ht
  obtain ⟨_, _, hhist⟩ :=
    Crashing.cpFinalState_c8Inv tasks indirectCost reductionPerUnit hnodup hok
  have hsnap2 : snap ∈
      (Crashing.cpFinalState tasks indirectCost reductionPerUnit).crashedTasks :=
    hsnap
  obtain ⟨h1, h2, _⟩ := hhist snap hsnap2 t ht
  exact ⟨h1, t.duration - t.crashTime, h2, by linarith⟩

/-- C8 witness: the two-task example X (capacity 2) and Y (capacity 0)
satisfies the entry conditions, so its full history keeps every duration at
or above the crash time with non-negative remaining capacity. -/
theorem C8_history_amended_witness :
    ((([Crashing.exX, Crashing.exY].map (fun t => t.id)).Nodup) ∧
    (∀ t ∈ [Crashing.exX, Crashing.exY],
      t.maxCrashTime = some (t.normalTime - t.crashTime) ∧
      t.crashTime ≤ t.normalTime ∧ (t.normalTime - t.crashTime).den = 1)) ∧
    ∀ snap ∈ (Crashing.crashProject [Crashing.exX, Crashing.exY]
      20 0).crashedTasks, ∀ t ∈ snap,
      t.crashTime ≤ t.duration ∧ ∃ m, t.maxCrashTime = some m ∧ 0 ≤ m :=
  ⟨⟨by with_unfolding_all decide, by with_unfolding_all decide⟩,
    C8_history_amended [Crashing.exX, Crashing.exY] 20 0
      (by with_unfolding_all decide) (by with_unfolding_all decide)⟩

/-- C3, amended.  When a minimum-slope common task exists, it is selected
alone — committing the singleton history entry of that task — only if its
slope does not exceed the total slope of the best covering combination (or
no combination exists); when the combination's total slope is strictly
smaller, the iteration applies the multi-task combination instead, so the
common-task shortcut does not have unconditional priority. -/
theorem C3_selection_amended (a b c : ℚ) (d : List Crashing.CrashTask)
    (s : Crashing.LoopState) (bct : Crashing.CrashTask)
    (hbct : Crashing.firstMinBySlope (Crashing.commonTasks s.criticalPaths
      (Crashing.crashableTasks s.criticalPaths s.currentTasks)) = some bct) :
    (∀ bc, Crashing.bestCombinationFor s.criticalPaths
        (Crashing.crashableTasks s.criticalPaths s.currentTasks) = some bc →
      (Crashing.slopeOr bct ⊤ ≤ bc.totalSlope →
        Crashing.crashStep a b c d s =
          Crashing.finishStep a b c d s (s.iteration + 1)
            (Crashing.updateFirst s.currentTasks bct.id Crashing.decrement1)
            [bct.id] bct bct.id) ∧
      (¬ Crashing.slopeOr bct ⊤ ≤ bc.totalSlope →
        Crashing.crashStep a b c d s = Crashing.applyCombination a b c d s bc)) ∧
    (Crashing.bestCombinationFor s.criticalPaths
        (Crashing.crashableTasks s.criticalPaths s.currentTasks) = none →
      Crashing.crashStep a b c d s =
        Crashing.finishStep a b c d s (s.iteration + 1)
          (Crashing.updateFirst s.currentTasks bct.id Crashing.decrement1)
          [bct.id] bct bct.id) := by
  have hbctmem : bct ∈ Crashing.crashableTasks s.criticalPaths s.currentTasks :=
    Crashing.commonTasks_subset _ _ _ (Crashing.firstMinBySlope_mem hbct)
  have hbctc := Crashing.crashableTasks_spec _ _ bct hbctmem
  have hcr : Crashing.crashableTasks s.criticalPaths s.currentTasks ≠ [] := by
    intro h0
    rw [h0] at hbctmem
    exact absurd hbctmem (List.not_mem_nil bct)
  refine ⟨?_, ?_⟩
  · intro bc hcomb
    have hstep : Crashing.crashStep a b c d s =
        (if Crashing.slopeOr bct ⊤ ≤ bc.totalSlope then
          Crashing.applySingle a b c d s bct [bct.id]
        else Crashing.applyCombination a b c d s bc) := by
      unfold Crashing.crashStep
      rw [if_neg hcr, hbct, hcomb]
    constructor
    · intro hle
      rw [hstep, if_pos hle]
      exact Crashing.applySingle_commit a b c d s [bct.id] hbctc.1
    · intro hlt
      rw [hstep, if_neg hlt]
  · intro hcomb
    have hstep : Crashing.crashStep a b c d s =
        Crashing.applySingle a b c d s bct [bct.id] := by
      unfold Crashing.crashStep
      rw [if_neg hcr, hbct, hcomb]
    rw [hstep]
    exact Crashing.applySingle_commit a b c d s [bct.id] hbctc.1

/-- C3 witness: on the initial state of the single-task project X, the
common-task shortcut applies with X as the minimum-slope common task. -/
theorem C3_selection_amended_witness :
    (Crashing.firstMinBySlope (Crashing.commonTasks
      (Crashing.cpInitialState [Crashing.exX] 20).criticalPaths
      (Crashing.crashableTasks
        (Crashing.cpInitialState [Crashing.exX] 20).criticalPaths
        (Crashing.cpInitialState [Crashing.exX] 20).currentTasks)) =
      some Crashing.exX) ∧
    ((∀ bc, Crashing.bestCombinationFor
        (Crashing.cpInitialState [Crashing.exX] 20).criticalPaths
        (Crashing.crashableTasks
          (Crashing.cpInitialState [Crashing.exX] 20).criticalPaths
          (Crashing.cpInitialState [Crashing.exX] 20).currentTasks) = some bc →
      (Crashing.slopeOr Crashing.exX ⊤ ≤ bc.totalSlope →
        Crashing.crashStep 20 0 5 (Crashing.cpInitialTasksState [Crashing.exX])
            (Crashing.cpInitialState [Crashing.exX] 20) =
          Crashing.finishStep 20 0 5 (Crashing.cpInitialTasksState [Crashing.exX])
            (Crashing.cpInitialState [Crashing.exX] 20)
            ((Crashing.cpInitialState [Crashing.exX] 20).iteration + 1)
            (Crashing.updateFirst
              (Crashing.cpInitialState [Crashing.exX] 20).currentTasks
              Crashing.exX.id Crashing.decrement1)
            [Crashing.exX.id] Crashing.exX Crashing.exX.id) ∧
      (¬ Crashing.slopeOr Crashing.exX ⊤ ≤ bc.totalSlope →
        Crashing.crashStep 20 0 5 (Crashing.cpInitialTasksState [Crashing.exX])
            (Crashing.cpInitialState [Crashing.exX] 20) =
          Crashing.applyCombination 20 0 5
            (Crashing.cpInitialTasksState [Crashing.exX])
            (Crashing.cpInitialState [Crashing.exX] 20) bc)) ∧
    (Crashing.bestCombinationFor
        (Crashing.cpInitialState [Crashing.exX] 20).criticalPaths
        (Crashing.crashableTasks
          (Crashing.cpInitialState [Crashing.exX] 20).criticalPaths
          (Crashing.cpInitialState [Crashing.exX] 20).currentTasks) = none →
      Crashing.crashStep 20 0 5 (Crashing.cpInitialTasksState [Crashing.exX])
          (Crashing.cpInitialState [Crashing.exX] 20) =
        Crashing.finishStep 20 0 5 (Crashing.cpInitialTasksState [Crashing.exX])
          (Crashing.cpInitialState [Crashing.exX] 20)
          ((Crashing.cpInitialState [Crashing.exX] 20).iteration + 1)
          (Crashing.updateFirst
            (Crashing.cpInitialState [Crashing.exX] 20).currentTasks
            Crashing.exX.id Crashing.decrement1)
          [Crashing.exX.id] Crashing.exX Crashing.exX.id)) :=
  ⟨by with_unfolding_all decide,
    C3_selection_amended 20 0 5 (Crashing.cpInitialTasksState [Crashing.exX])
      (Crashing.cpInitialState [Crashing.exX] 20) Crashing.exX
      (by with_unfolding_all decide)⟩

/-- C1, amended.  For distinct task ids and integral normal times, the
recorded project durations are non-increasing across the cost-analysis
table of `crashProject` — but only weakly: an iteration whose selected
tasks do not shorten the project is still committed to the history with an
unchanged duration, so the claimed strict decrease fails. -/
theorem C1_duration_monotone_amended (tasks : List Crashing.CrashTask)
    (indirectCost reductionPerUnit : ℚ)
    (hnodup : (tasks.map (fun t => t.id)).Nodup)
    (hden : ∀ t ∈ tasks, t.normalTime.den = 1) (i : ℕ)
    (h : i + 1 < (Crashing.crashProject tasks indirectCost
      reductionPerUnit).costAnalysis.length) :
    ((Crashing.crashProject tasks indirectCost
        reductionPerUnit).costAnalysis.getD (i + 1)
          Crashing.caDefault).projectDuration ≤
      ((Crashing.crashProject tasks indirectCost
        reductionPerUnit).costAnalysis.getD i
          Crashing.caDefault).projectDuration := by
  rw [Crashing.crashProject_eq] at h ⊢
  obtain ⟨_, _, hne, _, hmono⟩ :=
    Crashing.cpFinalState_c1Inv tasks indirectCost reductionPerUnit hnodup hden
  have hk : Crashing.firstMinTotalCostIdx
      (Crashing.cpFinalState tasks indirectCost reductionPerUnit).costAnalysis <
      (Crashing.cpFinalState tasks indirectCost reductionPerUnit).costAnalysis.length :=
    (Crashing.firstMinTotalCostIdx_spec _ hne).1
  have h2 : i + 1 <
      (Crashing.cpFinalState tasks indirectCost reductionPerUnit).costAnalysis.length := by
    have h3 : i + 1 < ((Crashing.cpFinalState tasks indirectCost
        reductionPerUnit).costAnalysis.set
      (Crashing.firstMinTotalCostIdx
        (Crashing.cpFinalState tasks indirectCost reductionPerUnit).costAnalysis)
      { (Crashing.cpFinalState tasks indirectCost
          reductionPerUnit).costAnalysis.getD
        (Crashing.firstMinTotalCostIdx
          (Crashing.cpFinalState tasks indirectCost reductionPerUnit).costAnalysis)
        Crashing.caDefault with isOptimum := true }).length := h
    rw [List.length_set] at h3
    exact h3
  have hpd := Crashing.getD_set_optimum_proj (fun c0 => c0.projectDuration)
    (fun x => rfl)
    (Crashing.cpFinalState tasks indirectCost reductionPerUnit).costAnalysis
    (Crashing.firstMinTotalCostIdx
      (Crashing.cpFinalState tasks indirectCost reductionPerUnit).costAnalysis)
  have e1 := hpd (i + 1) hk
  have e2 := hpd i hk
  simp only at e1 e2
  rw [e1, e2]
  exact hmono i h2

/-- C1 witness: the two-task X-Y project has nodup ids and integral normal
times, and its three recorded durations are non-increasing at the first
step. -/
theorem C1_duration_monotone_amended_witness :
    ((([Crashing.exX, Crashing.exY].map (fun t => t.id)).Nodup) ∧
    (∀ t ∈ [Crashing.exX, Crashing.exY], t.normalTime.den = 1) ∧
    0 + 1 < (Crashing.crashProject [Crashing.exX, Crashing.exY]
      20 0).costAnalysis.length) ∧
    ((Crashing.crashProject [Crashing.exX, Crashing.exY]
        20 0).costAnalysis.getD (0 + 1) Crashing.caDefault).projectDuration ≤
      ((Crashing.crashProject [Crashing.exX, Crashing.exY]
        20 0).costAnalysis.getD 0 Crashing.caDefault).projectDuration :=
  ⟨⟨by with_unfolding_all decide, by with_unfolding_all decide,
      by with_unfolding_all decide⟩,
    C1_duration_monotone_amended [Crashing.exX, Crashing.exY] 20 0
      (by with_unfolding_all decide) (by with_unfolding_all decide) 0
      (by with_unfolding_all decide)⟩

/-- C4, amended.  The recorded path histories match the snapshot sums only
for runs whose committed iterations each crash a single activity: under
distinct task ids, if every committed cost row has a singleton
`crashedActivities`, then after every iteration `k` every enumerated path
records at index `k` exactly the sum of the task durations of snapshot
`k` along it.  When a step crashes several tasks simultaneously, only the
paths containing the representative task are decremented and the claim
fails. -/
theorem C4_path_history_amended (tasks : List Crashing.CrashTask)
    (indirectCost reductionPerUnit : ℚ)
    (hnodup : (tasks.map (fun t => t.id)).Nodup)
    (hsing : ∀ j, 1 ≤ j → j < (Crashing.crashProject tasks indirectCost
        reductionPerUnit).costAnalysis.length →
      (((Crashing.crashProject tasks indirectCost
        reductionPerUnit).costAnalysis.getD j
          Crashing.caDefault).crashedActivities).length = 1)
    (k : ℕ) (hk : k < (Crashing.crashProject tasks indirectCost
      reductionPerUnit).crashedTasks.length) :
    ∀ p ∈ (Crashing.crashProject tasks indirectCost reductionPerUnit).paths,
      p.durations.getD k 0 = Crashing.sumPathDurations
        ((Crashing.crashProject tasks indirectCost
          reductionPerUnit).crashedTasks.getD k []) p.tasks := by
  rw [Crashing.crashProject_eq] at hsing hk ⊢
  obtain ⟨_, _, h3, _, h5, _, h7⟩ :=
    Crashing.cpFinalState_c4Inv tasks indirectCost reductionPerUnit hnodup
  have hne : (Crashing.cpFinalState tasks indirectCost
      reductionPerUnit).costAnalysis ≠ [] := by
    intro h0
    rw [h0] at h5
    simp at h5
  have hk1 : Crashing.firstMinTotalCostIdx
      (Crashing.cpFinalState tasks indirectCost reductionPerUnit).costAnalysis <
      (Crashing.cpFinalState tasks indirectCost
        reductionPerUnit).costAnalysis.length :=
    (Crashing.firstMinTotalCostIdx_spec _ hne).1
  have hsp : Crashing.SingletonPrefix
      (Crashing.cpFinalState tasks indirectCost reductionPerUnit).costAnalysis := by
    intro j hj1 hjl
    have hjl2 : j < ((Crashing.cpFinalState tasks indirectCost
        reductionPerUnit).costAnalysis.set
      (Crashing.firstMinTotalCostIdx
        (Crashing.cpFinalState tasks indirectCost reductionPerUnit).costAnalysis)
      { (Crashing.cpFinalState tasks indirectCost
          reductionPerUnit).costAnalysis.getD
        (Crashing.firstMinTotalCostIdx
          (Crashing.cpFinalState tasks indirectCost
            reductionPerUnit).costAnalysis)
        Crashing.caDefault with isOptimum := true }).length := by
      rw [List.length_set]
      exact hjl
    have hone := hsing j hj1 hjl2
    have hac := Crashing.getD_set_optimum_proj
      (fun c0 => c0.crashedActivities) (fun x => rfl)
      (Crashing.cpFinalState tasks indirectCost reductionPerUnit).costAnalysis
      (Crashing.firstMinTotalCostIdx
        (Crashing.cpFinalState tasks indirectCost reductionPerUnit).costAnalysis)
      j hk1
    simp only at hac
    rw [hac] at hone
    exact hone
  intro p hp
  have hp2 : p ∈ (Crashing.cpFinalState tasks indirectCost
      reductionPerUnit).paths := hp
  have hk3 : k < (Crashing.cpFinalState tasks indirectCost
      reductionPerUnit).crashedTasks.length := hk
  have hkle : k ≤ (Crashing.cpFinalState tasks indirectCost
      reductionPerUnit).iteration := by omega
  exact h7 hsp p hp2 k hkle

/-- C4 witness: the X-Y project crashes X alone in both committed
iterations, so every recorded path duration at index 1 equals the sum over
snapshot 1. -/
theorem C4_path_history_amended_witness :
    ((([Crashing.exX, Crashing.exY].map (fun t => t.id)).Nodup) ∧
    (∀ j, 1 ≤ j → j < (Crashing.crashProject [Crashing.exX, Crashing.exY]
        20 0).costAnalysis.length →
      (((Crashing.crashProject [Crashing.exX, Crashing.exY]
        20 0).costAnalysis.getD j
          Crashing.caDefault).crashedActivities).length = 1) ∧
    1 < (Crashing.crashProject [Crashing.exX, Crashing.exY]
      20 0).crashedTasks.length) ∧
    (∀ p ∈ (Crashing.crashProject [Crashing.exX, Crashing.exY] 20 0).paths,
      p.durations.getD 1 0 = Crashing.sumPathDurations
        ((Crashing.crashProject [Crashing.exX, Crashing.exY]
          20 0).crashedTasks.getD 1 []) p.tasks) := by
  have hlen : (Crashing.crashProject [Crashing.exX, Crashing.exY]
      20 0).costAnalysis.length = 2 := by
    with_unfolding_all decide
  have hball : ∀ j, j < 2 → (1 ≤ j →
      (((Crashing.crashProject [Crashing.exX, Crashing.exY]
        20 0).costAnalysis.getD j
          Crashing.caDefault).crashedActivities).length = 1) := by
    with_unfolding_all decide
  have hsing : ∀ j, 1 ≤ j → j < (Crashing.crashProject
      [Crashing.exX, Crashing.exY] 20 0).costAnalysis.length →
      (((Crashing.crashProject [Crashing.exX, Crashing.exY]
        20 0).costAnalysis.getD j
          Crashing.caDefault).crashedActivities).length = 1 := by
    intro j hj1 hjl
    rw [hlen] at hjl
    exact hball j hjl hj1
  exact ⟨⟨by with_unfolding_all decide, hsing, by with_unfolding_all decide⟩,
    C4_path_history_amended [Crashing.exX, Crashing.exY] 20 0
      (by with_unfolding_all decide) hsing 1 (by with_unfolding_all decide)⟩

/-- C7.  For every task set containing a dependency cycle, the schedule
computation fails with the cyclic-dependency validation error; because the
computation returns the error instead of a result, no early or late dates,
slack values, or paths are ever produced. -/
theorem C7_cycle_error (tasks : List Scheduler.Task)
    (hcyc : Scheduler.HasCycle tasks) :
    Scheduler.calculateSchedule tasks =
      .error "Cyclic dependency detected in project graph" := by
  obtain ⟨t, ht, hreach⟩ := hcyc
  have hne : ¬ tasks.length = 0 := by
    intro h0
    rw [List.length_eq_zero.1 h0] at ht
    exact absurd ht (List.not_mem_nil t)
  unfold Scheduler.calculateSchedule
  rw [if_neg hne]
  cases hval : Scheduler.validateNoCyclicDependencies tasks with
  | none => rfl
  | some v =>
    exfalso
    obtain ⟨hgood, hmem⟩ := Scheduler.validate_sound hval
    exact hgood.2 t.id (hmem t ht) (List.not_mem_nil _) hreach

/-- C7 witness: the two-task cycle A-B raises the validation error. -/
theorem C7_cycle_error_witness :
    Scheduler.HasCycle [exCycA, exCycB] ∧
    Scheduler.calculateSchedule [exCycA, exCycB] =
      .error "Cyclic dependency detected in project graph" := by
  have hcyc : Scheduler.HasCycle [exCycA, exCycB] := by
    refine ⟨exCycA, List.mem_cons_self _ _, ?_⟩
    refine Relation.TransGen.head
      (b := "B") ⟨exCycA, by with_unfolding_all decide,
        by with_unfolding_all decide⟩ ?_
    exact Relation.TransGen.single
      ⟨exCycB, by with_unfolding_all decide, by with_unfolding_all decide⟩
  exact ⟨hcyc, C7_cycle_error [exCycA, exCycB] hcyc⟩

/-- C10.  In the forward pass, for every task set with distinct ids, all
predecessor references resolvable and no dependency cycle (witnessed by the
validator succeeding), every task with at least one predecessor ends up with
`earlyStart = some (esFormula ...)`, where `esFormula` is exactly the
running maximum, seeded with 0, of predecessor `earlyFinish + lag` — i.e.
`max(0, max over predecessors of (earlyFinish + lag))`; the value is clamped
at zero (never negative), and every predecessor is resolvable with a defined
early finish, so none is skipped by the fold. -/
theorem C10_early_start_clamped (tasks : List Scheduler.Task) (v : List String)
    (hnodup : (tasks.map (fun t => t.id)).Nodup)
    (hclosed : ∀ t ∈ tasks, ∀ p ∈ t.predecessors,
      p.taskId ∈ Scheduler.taskIds tasks)
    (hval : Scheduler.validateNoCyclicDependencies tasks = some v) :
    ∀ t ∈ Scheduler.calculateEarlyDates tasks, t.predecessors ≠ [] →
      t.earlyStart =
        some (Scheduler.esFormula (Scheduler.calculateEarlyDates tasks) t) ∧
      0 ≤ Scheduler.esFormula (Scheduler.calculateEarlyDates tasks) t ∧
      ∀ p ∈ t.predecessors, ∃ u ef,
        Scheduler.findTaskById (Scheduler.calculateEarlyDates tasks) p.taskId
          = some u ∧ u.earlyFinish = some ef := by
  intro t ht hpne
  have hacyc := Scheduler.validate_acyclic hval
  obtain ⟨_, h2⟩ :=
    Scheduler.calculateEarlyDates_sound tasks hnodup hclosed hacyc t ht
  obtain ⟨hES, hEF, hres⟩ := h2 hpne
  exact ⟨hES, Scheduler.esFormula_nonneg _ _, hres⟩

/-- C10 witness: on the two-task set where B may start 10 before A finishes
(A's early finish plus lag is -8), the hypotheses hold, the theorem applies,
and the computed early starts are both 0 — the clamp is active for B. -/
theorem C10_early_start_clamped_witness :
    ((([exNegA, exNegB] : List Scheduler.Task).map (fun t => t.id)).Nodup ∧
      (∀ t ∈ ([exNegA, exNegB] : List Scheduler.Task), ∀ p ∈ t.predecessors,
        p.taskId ∈ Scheduler.taskIds [exNegA, exNegB]) ∧
      Scheduler.validateNoCyclicDependencies [exNegA, exNegB] =
        some ["B", "A"]) ∧
    (∀ t ∈ Scheduler.calculateEarlyDates [exNegA, exNegB],
      t.predecessors ≠ [] →
      t.earlyStart = some (Scheduler.esFormula
        (Scheduler.calculateEarlyDates [exNegA, exNegB]) t) ∧
      0 ≤ Scheduler.esFormula
        (Scheduler.calculateEarlyDates [exNegA, exNegB]) t ∧
      ∀ p ∈ t.predecessors, ∃ u ef,
        Scheduler.findTaskById
          (Scheduler.calculateEarlyDates [exNegA, exNegB]) p.taskId
          = some u ∧ u.earlyFinish = some ef) ∧
    (Scheduler.calculateEarlyDates [exNegA, exNegB]).map
      (fun t => (t.id, t.earlyStart)) = [("A", some 0), ("B", some 0)] :=
  ⟨⟨by with_unfolding_all decide, by with_unfolding_all decide,
    by with_unfolding_all decide⟩,
   C10_early_start_clamped [exNegA, exNegB] ["B", "A"]
     (by with_unfolding_all decide) (by with_unfolding_all decide)
     (by with_unfolding_all decide),
   by with_unfolding_all decide⟩

/-- C6, amended.  With non-zero lags the claimed equality fails (see the
counterexample); under zero lags it holds: for every task set with distinct
ids, resolvable predecessor references, a successful cycle validation, all
lags zero and non-negative durations, the schedule succeeds and its
`projectDuration` equals the maximum of the durations of the enumerated
paths — every enumerated path duration is at most `projectDuration`, and
some enumerated path attains it. -/
theorem C6_zero_lag_amended (tasks : List Scheduler.Task) (v : List String)
    (hnodup : (tasks.map (fun t => t.id)).Nodup)
    (hclosed : ∀ t ∈ tasks, ∀ p ∈ t.predecessors,
      p.taskId ∈ Scheduler.taskIds tasks)
    (hval : Scheduler.validateNoCyclicDependencies tasks = some v)
    (hlag : ∀ t ∈ tasks, ∀ p ∈ t.predecessors, p.lag = 0)
    (hdur : ∀ t ∈ tasks, 0 ≤ t.duration)
    (hne : tasks ≠ []) :
    ∃ r, Scheduler.calculateSchedule tasks = .ok r ∧
      (∀ q ∈ r.allPaths, q.duration ≤ r.projectDuration) ∧
      (∃ q ∈ r.allPaths, q.duration = r.projectDuration) :=
  Scheduler.calculateSchedule_max tasks v hnodup hclosed hval hlag hdur hne

/-- C6 amended witness: on the zero-lag diamond A-B/C-D the hypotheses hold,
the theorem applies, and concretely the project duration 8 equals the
maximum of the enumerated path durations 6 (A-B-D) and 8 (A-C-D). -/
theorem C6_zero_lag_amended_witness :
    ((([exZA, exZB, exZC, exZD] : List Scheduler.Task).map
        (fun t => t.id)).Nodup ∧
      (∀ t ∈ ([exZA, exZB, exZC, exZD] : List Scheduler.Task),
        ∀ p ∈ t.predecessors,
        p.taskId ∈ Scheduler.taskIds [exZA, exZB, exZC, exZD]) ∧
      Scheduler.validateNoCyclicDependencies [exZA, exZB, exZC, exZD] =
        some ["D", "C", "B", "A"] ∧
      (∀ t ∈ ([exZA, exZB, exZC, exZD] : List Scheduler.Task),
        ∀ p ∈ t.predecessors, p.lag = 0) ∧
      (∀ t ∈ ([exZA, exZB, exZC, exZD] : List Scheduler.Task),
        0 ≤ t.duration) ∧
      ([exZA, exZB, exZC, exZD] : List Scheduler.Task) ≠ []) ∧
    (∃ r, Scheduler.calculateSchedule [exZA, exZB, exZC, exZD] = .ok r ∧
      (∀ q ∈ r.allPaths, q.duration ≤ r.projectDuration) ∧
      (∃ q ∈ r.allPaths, q.duration = r.projectDuration)) ∧
    (Scheduler.calculateSchedule [exZA, exZB, exZC, exZD]).toOption.map
      (fun r => (r.projectDuration, r.allPaths.map (fun p => p.duration))) =
      some (8, [6, 8]) :=
  ⟨⟨by with_unfolding_all decide, by with_unfolding_all decide,
    by with_unfolding_all decide, by with_unfolding_all decide,
    by with_unfolding_all decide, by with_unfolding_all decide⟩,
   C6_zero_lag_amended [exZA, exZB, exZC, exZD] ["D", "C", "B", "A"]
     (by with_unfolding_all decide) (by with_unfolding_all decide)
     (by with_unfolding_all decide) (by with_unfolding_all decide)
     (by with_unfolding_all decide) (by with_unfolding_all decide),
   by with_unfolding_all decide⟩

end PMT
